import Mathlib

/-!
# obstrukt-online: the move engine of `client/src/ai/NegaMax.cpp`

A shallow embedding of the rules engine and search of the Quoridor-like game
and the properties proved about it.

Conventions of the embedding.
* C++ `int` is `Int`.  The arithmetic of `evaluate` on the wall counts, which
  can leave the range of a 32-bit `int`, is wrapped as the compiled code wraps
  it (`int32`); the other `int` operations are modelled exactly.  Where the
  source mixes `int` with `size_t`, the conversion to a 32-bit unsigned value
  (the build target is wasm32) is written out with `% 2 ^ 32`.
* `std::string` is `String`, `std::vector` is `List`.
* `std::map<std::string, T>` is an association list in which the binding of
  a key is its first entry.  Every loop of the source over a map is a
  commutative fold (an XOR or a sum), so the iteration order of the map is
  immaterial.
* A call whose behaviour is undefined in the source (an index outside a
  vector or array) or that throws (`std::map::at` on a missing key) yields
  `none`.
-/

namespace NegaMax

/-! ## Data structures -/

/-- Embeds `struct PawnPos`. -/
structure PawnPos where
  row : Int
  col : Int
  deriving DecidableEq, Repr

/-- Embeds `struct Wall`. -/
structure Wall where
  row : Int
  col : Int
  orientation : String
  deriving DecidableEq, Repr

/-- Embeds `struct Player`; `goalCondition (row, col, boardSize)`.  The
`std::function` of the source is empty for a roster id other than "p1" .. "p4"
(`jsToCppPlayers`) and throws when called; the rosters of the model stand for
rosters of these four ids, whose goal condition can be called. -/
structure Player where
  id : String
  goalCondition : Int → Int → Int → Bool

/-- Embeds `Zobrist::MAX_BOARD_SIZE`. -/
def MAX_BOARD_SIZE : Int := 11

/-- Embeds `Zobrist::MAX_PLAYERS`. -/
def MAX_PLAYERS : Int := 4

/-! ## Core game logic -/

/-- Embeds `isWallBetween(placedWalls, r1, c1, r2, c2)`. -/
def isWallBetween (placedWalls : List Wall) (r1 c1 r2 c2 : Int) : Bool :=
  if c1 = c2 then
    placedWalls.any (fun wall =>
      decide (wall.orientation = "horizontal") && decide (wall.row = min r1 r2) &&
        (decide (wall.col = c1) || decide (wall.col = c1 - 1)))
  else if r1 = r2 then
    placedWalls.any (fun wall =>
      decide (wall.orientation = "vertical") && decide (wall.col = min c1 c2) &&
        (decide (wall.row = r1) || decide (wall.row = r1 - 1)))
  else false

/-! ## Shortest paths (breadth-first search) -/

/-- The local array `bool visited[MAX_BOARD_SIZE][MAX_BOARD_SIZE]`, represented
by the list of the cells whose flag is `true`. -/
abbrev Visited := List PawnPos

/-- Whether `visited[r][c]` lies inside the array. -/
def inArray (r c : Int) : Bool :=
  decide (0 ≤ r) && decide (r < MAX_BOARD_SIZE) && decide (0 ≤ c) && decide (c < MAX_BOARD_SIZE)

/-- Read `visited[r][c]`; `none` outside the array. -/
def Visited.read (v : Visited) (r c : Int) : Option Bool :=
  if inArray r c then some (decide ((⟨r, c⟩ : PawnPos) ∈ v)) else none

/-- Embeds `visited[r][c] = true`; `none` outside the array. -/
def Visited.mark (v : Visited) (r c : Int) : Option Visited :=
  if inArray r c then some (⟨r, c⟩ :: v) else none

/-- The four `neighbors` of a cell, in the order of the source. -/
def neighbors (p : PawnPos) : List PawnPos :=
  [⟨p.row - 1, p.col⟩, ⟨p.row + 1, p.col⟩, ⟨p.row, p.col - 1⟩, ⟨p.row, p.col + 1⟩]

/-- Outcome of the `for` loop over the neighbours of one dequeued cell. -/
inductive Scan where
  | found (distance : Int)
  | next (visited : Visited) (queue : List (PawnPos × Int))

/-- The `for (const auto& neighbor : neighbors)` loop of `getShortestPathLength`
for the dequeued cell `currentPos` at `distance`. -/
def scanNeighbors (goalCondition : Int → Int → Int → Bool) (placedWalls : List Wall)
    (boardSize : Int) (currentPos : PawnPos) (distance : Int) :
    List PawnPos → Visited → List (PawnPos × Int) → Option Scan
  | [], visited, queue => some (Scan.next visited queue)
  | neighbor :: rest, visited, queue =>
    if decide (neighbor.row ≥ 0) && decide (neighbor.row < boardSize) &&
        decide (neighbor.col ≥ 0) && decide (neighbor.col < boardSize) &&
        !isWallBetween placedWalls currentPos.row currentPos.col neighbor.row neighbor.col then
      match visited.read neighbor.row neighbor.col with
      | none => none
      | some true =>
        scanNeighbors goalCondition placedWalls boardSize currentPos distance rest visited queue
      | some false =>
        if goalCondition neighbor.row neighbor.col boardSize then some (Scan.found (distance + 1))
        else
          match visited.mark neighbor.row neighbor.col with
          | none => none
          | some visited1 =>
            scanNeighbors goalCondition placedWalls boardSize currentPos distance rest visited1
              (queue ++ [(neighbor, distance + 1)])
    else
      scanNeighbors goalCondition placedWalls boardSize currentPos distance rest visited queue

/-- The `while (!queue.empty())` loop of `getShortestPathLength`.  The first
argument bounds the number of iterations; every iteration after the first
dequeues a cell that was marked in the 11 x 11 array when it was enqueued, so
`bfsFuel` iterations are never exceeded. -/
def bfsLoop (goalCondition : Int → Int → Int → Bool) (placedWalls : List Wall)
    (boardSize : Int) : Nat → Visited → List (PawnPos × Int) → Option Int
  | _, _, [] => some (-1)
  | 0, _, _ :: _ => none
  | fuel + 1, visited, (currentPos, distance) :: queue =>
    match scanNeighbors goalCondition placedWalls boardSize currentPos distance
        (neighbors currentPos) visited queue with
    | none => none
    | some (Scan.found d) => some d
    | some (Scan.next visited1 queue1) =>
      bfsLoop goalCondition placedWalls boardSize fuel visited1 queue1

/-- Number of cells of the `visited` array plus one. -/
def bfsFuel : Nat := 11 * 11 + 1

/-- Embeds `getShortestPathLength(startPos, goalCondition, placedWalls, boardSize)`;
`some (-1)` is the source's "not found". -/
def getShortestPathLength (startPos : PawnPos) (goalCondition : Int → Int → Int → Bool)
    (placedWalls : List Wall) (boardSize : Int) : Option Int :=
  if goalCondition startPos.row startPos.col boardSize then some 0
  else
    match Visited.mark [] startPos.row startPos.col with
    | none => none
    | some visited => bfsLoop goalCondition placedWalls boardSize bfsFuel visited [(startPos, 0)]

/-- Embeds `pathExistsFor(startPos, goalCondition, placedWalls, boardSize)`. -/
def pathExistsFor (startPos : PawnPos) (goalCondition : Int → Int → Int → Bool)
    (placedWalls : List Wall) (boardSize : Int) : Option Bool :=
  if startPos.row = -1 then some true
  else (getShortestPathLength startPos goalCondition placedWalls boardSize).map (fun d => d != -1)

/-! ## Maps, moves and the game state -/

/-- A `std::map<std::string, α>`: the binding of a key is its first entry in
the list. -/
abbrev StrMap (α : Type) := List (String × α)

/-- The bindings of the map (what a range-`for` over the map visits): the
first entry of every key. -/
def StrMap.entries {α : Type} : StrMap α → List (String × α)
  | [] => []
  | (k, v) :: rest => (k, v) :: (StrMap.entries rest).filter (fun e => !decide (e.1 = k))

/-- Embeds `m.find(k)` / `m.at(k)`: `none` when the key is absent. -/
def StrMap.find {α : Type} (m : StrMap α) (k : String) : Option α :=
  List.lookup k m

/-- Embeds `m.count(k)`. -/
def StrMap.has {α : Type} (m : StrMap α) (k : String) : Bool :=
  (StrMap.find m k).isSome

/-- Embeds `m[k] = v`. -/
def StrMap.assign {α : Type} (m : StrMap α) (k : String) (v : α) : StrMap α :=
  (k, v) :: m.filter (fun e => !decide (e.1 = k))

/-- Embeds `struct Move`; `type` is "cell", "wall" or "resign". -/
structure Move where
  type : String
  pos : PawnPos
  wall : Wall
  deriving DecidableEq, Repr

/-- Embeds `Move::operator==`. -/
def Move.eq (a o : Move) : Bool :=
  if a.type ≠ o.type then false
  else if a.type = "cell" then decide (a.pos = o.pos)
  else if a.type = "wall" then decide (a.wall = o.wall)
  else if a.type = "resign" then true
  else false

/-- Embeds `{"cell", pos, {}}`. -/
def Move.cell (pos : PawnPos) : Move := ⟨"cell", pos, ⟨0, 0, ""⟩⟩

/-- Embeds `{"wall", {}, wall}`. -/
def Move.wallMove (wall : Wall) : Move := ⟨"wall", ⟨0, 0⟩, wall⟩

/-- Embeds `{"resign", {}, {}}`. -/
def Move.resign : Move := ⟨"resign", ⟨0, 0⟩, ⟨0, 0, ""⟩⟩

/-- Embeds `struct GameState`. -/
structure GameState where
  boardSize : Int
  pawnPositions : StrMap PawnPos
  wallsLeft : StrMap Int
  placedWalls : List Wall
  playerTurn : String
  activePlayerIds : List String
  playerTurnIndex : Int
  status : String
  winner : String
  zobristHash : Nat
  deriving DecidableEq, Repr

/-- Embeds `v[i]` for a vector and an `int` index; `none` outside the vector. -/
def vecAt {α : Type} (v : List α) (i : Int) : Option α :=
  if 0 ≤ i then v.get? i.toNat else none

/-! ## Zobrist keys

`Zobrist::initialize` draws the keys from `std::mt19937_64 gen(0xBADF00D)`.
The generator is the 64-bit Mersenne Twister of the C++ standard library
(`mersenne_twister_engine<uint64_t, 64, 312, 156, 31, 0xb5026f5aa96619e9, 29,
0x5555555555555555, 17, 0x71d67fffeda60000, 37, 0xfff7eee000000000, 43,
6364136223846793005>`). -/

namespace Zobrist

/-- Seeding: word `i` of the initial state for seed `0xBADF00D`. -/
def seedWords : Nat → Nat → List Nat
  | 0, _ => []
  | n + 1, prev =>
    let i := 312 - (n + 1)
    let x := if i = 0 then 0xBADF00D
      else (6364136223846793005 * (prev ^^^ (prev >>> 62)) + i) % 2 ^ 64
    x :: seedWords n x

/-- The 312 words of the state after seeding. -/
def seedState : List Nat := seedWords 312 0

/-- One word of the state transition ("twist"). -/
def twistWord (cur nxt far : Nat) : Nat :=
  let y := (cur &&& 0xFFFFFFFF80000000) ||| (nxt &&& 0x7FFFFFFF)
  far ^^^ (y >>> 1) ^^^ (if y % 2 = 1 then 0xB5026F5AA96619E9 else 0)

/-- Words 0..155 of the next state: each uses old words only. -/
def twistLow (mt : List Nat) : List Nat :=
  (List.range 156).map (fun i => twistWord (mt.getD i 0) (mt.getD (i + 1) 0) (mt.getD (i + 156) 0))

/-- Words 156..310 of the next state: the far word is already a new one. -/
def twistHigh (mt low : List Nat) : List Nat :=
  (List.range 155).map (fun j =>
    twistWord (mt.getD (j + 156) 0) (mt.getD (j + 157) 0) (low.getD j 0))

/-- The next state of the generator. -/
def twist (mt : List Nat) : List Nat :=
  let low := twistLow mt
  low ++ twistHigh mt low ++ [twistWord (mt.getD 311 0) (low.getD 0 0) (low.getD 155 0)]

/-- Output tempering. -/
def temper (x0 : Nat) : Nat :=
  let x1 := x0 ^^^ ((x0 >>> 29) &&& 0x5555555555555555)
  let x2 := x1 ^^^ (((x1 <<< 17) % 2 ^ 64) &&& 0x71D67FFFEDA60000)
  let x3 := x2 ^^^ (((x2 <<< 37) % 2 ^ 64) &&& 0xFFF7EEE000000000)
  x3 ^^^ (x3 >>> 43)

/-- The generator state after `n` transitions. -/
def stateAfter : Nat → List Nat
  | 0 => seedState
  | n + 1 => twist (stateAfter n)

/-- The `k`-th value (from 0) returned by `gen()`. -/
def gen (k : Nat) : Nat :=
  temper ((stateAfter (k / 312 + 1)).getD (k % 312) 0)

end Zobrist

namespace Zobrist

/-- The 688 keys in the order `Zobrist::initialize` draws them: 4 x 11 x 11
pawn keys, then for each of the 10 x 10 wall cells the horizontal and the
vertical key, then the 4 turn keys.  `keyTable_eq_gen` checks the values
against the generator. -/
def keyTable : List Nat := [
  5276415114237723056, 17720488730490409690, 10656986142186914188, 10658645829877277160,
  14576384111512438540, 1720260901529021093, 17636497210752992224, 16983974488456833264,
  2822653115059186120, 15273470818789569154, 2482930352905221894, 333603601583326403,
  4242171650060518464, 17004579741598447967, 7168490079951162970, 10201199592121975706,
  12720727485642571121, 17502831075471324420, 2006507707823329025, 2551009674022024840,
  986353881278447719, 17006109266884704591, 2164276085608851341, 9920591913551910970,
  15983321834840926651, 14534408456218580008, 14753662300194352830, 3010151233222038394,
  8331257713223048839, 2078532659191071462, 6572601916190300627, 3442045654423767087,
  6955790222282030850, 11138663525352094963, 17307830941251537434, 3509224225151912299,
  5129151237233301438, 7817944929977698055, 8885048848400510490, 8833339656447604945,
  15504180740582275819, 8163629971894143875, 7063677867748755257, 6766084580696797396,
  1656811950962418142, 12699593048333823817, 2504249348489841114, 3222927857183976219,
  17007953855916620619, 10845813457588165946, 16627229325495006207, 15989528592370253133,
  15234019625355448917, 16455020072071772206, 16517135068894775621, 1765352322520528746,
  2274539371165958394, 12873840719249010610, 13910380085381041178, 1925768233825915326,
  12901790432677478840, 4293823349387021455, 16453627924613080302, 15494287025928393812,
  16856730624834961038, 12639801809933185644, 14995819957509835961, 9004687214138255039,
  3373646037973443235, 1437542331851348947, 18130770642418510903, 14253019400437923932,
  18334915311831596659, 593142721929611422, 12045537110670493706, 8568161258246974759,
  13064714406034386797, 14588064293759156513, 5903843668338530294, 5832547426852684668,
  17069352450445378924, 15917695390179717145, 13307227206028086747, 4905949133659703700,
  3273649150557562372, 12304166771398823275, 696347495380582135, 11876709184339114785,
  14604759921460691034, 16575246152592857244, 5514234408645522873, 8990131306959143855,
  10449860399155647385, 16075042721614156078, 17673872363789129459, 10736110385320307077,
  11279480709165024934, 15567080697799996969, 2400505851869347609, 5002964771367087654,
  17364113061210942307, 3996980578511925472, 14034598037979300989, 8270320761012401275,
  18063686247952313836, 15002536894475394531, 5246378434900121436, 5387554893552578747,
  9497388290565741900, 4833058551660376175, 6775975394533198840, 9832761535590888852,
  12357801760468647817, 11615978693998795443, 2358777530270789500, 256315550510650886,
  7293757154134002895, 1156276370838534631, 16719314868254969758, 2656457468510428642,
  15724135056278623624, 6472982679464273662, 2869754672526252612, 8952067183297415360,
  15873312256122862037, 7054089357252541129, 11493753084707445194, 17510429857015844161,
  1807497943460468041, 2061623942150616017, 13136131807623918786, 3696037111513720434,
  12473579867565446937, 924522895072390900, 16537577984336026815, 3386498177864767705,
  15963401873197947735, 12834101695956124943, 5728956931027378678, 17691229351271196506,
  14487520577104618274, 9975124695981405525, 4464957072102255599, 15035589890746708171,
  1247453838896923982, 5524850896084721160, 16150063588983320446, 9537055138949928406,
  16589115392287057761, 143049302640158647, 10469392873028368771, 5033406104034437637,
  11077762166637057230, 15566403557099579807, 9834023671506770198, 1779264179084851907,
  2239524307957835257, 15547949042423006548, 615386554878472776, 5488082841494730558,
  18273145972856729768, 8825524393655121915, 15790040574274480126, 12484234204605186621,
  1426324240271968308, 15296747280617787086, 5291392645726733154, 16412266969263699695,
  17750794654645624989, 14578515025906297006, 315920081789671310, 6185411019188693105,
  2474041261193262276, 5146236132951518393, 10801983207137578272, 16965145987425764669,
  11946667359721701395, 7954610368777573046, 6285806575149035748, 15586418063463260050,
  10986334015012817199, 17515730216124459400, 15607351147041374576, 15560560458929677595,
  9604384836755937664, 11344448587828389039, 18434642840112269203, 13862216058987208823,
  10458079824161856709, 4242149905672208989, 17919953805980065803, 9070189589359900482,
  3051501421652101506, 639320552137781546, 17231694937982024993, 755851774943292042,
  5117084234261441126, 15604081129264050503, 4785560745568528949, 5236109285717615224,
  11053671038870590957, 1612373666711367270, 15030179563150227721, 12507353694292404286,
  17714470079357592484, 14173028580175675888, 2869265277326113294, 17534846495403668796,
  8097354308788249807, 3009375779781635997, 6731213655730218052, 9253286387422580148,
  8776378673630023249, 6465297342976398336, 7286583205145653589, 7019216600902651557,
  4943872625236222131, 5894856922625473789, 16770427384536961276, 6110756914841801309,
  6216704507022138769, 7261529732398492146, 9859546255311378337, 7243079060989031330,
  17484031781155317357, 4160082421556192625, 7050414270950397648, 6617276384402009113,
  4314012857474169433, 12625192853228607798, 4596460426875360056, 5818486228710037333,
  14066140646835941047, 12993209622652171260, 4258405472498996832, 5019873005435223810,
  17409922677028037806, 18044355402415741198, 8660507006695248482, 10341431625655276706,
  15919903015299374138, 7559151204339601036, 7366027863284970547, 8831977135368006186,
  4428147007400345167, 6504629524869154651, 8574160567779720268, 759535985382840439,
  16172585237009548051, 8695129509603401459, 18404516086255751714, 10016338061482887660,
  10101517199790962784, 3352431509727850096, 2637236597091432947, 3749333898764280681,
  15952416919674567510, 13143878365612243349, 6255989986759107815, 7617989998164504049,
  15448824933550454425, 9293474764658656239, 7792265537016060263, 17855473838004331417,
  14981119101836316629, 5802884600546008470, 11062066058004771695, 6507154097347509070,
  6157279802982764675, 1849523487838016476, 17700786665536120571, 1874115938632327564,
  3673119445216353761, 512078729471263107, 13069899345434383732, 17587776259522802562,
  9556402367630326159, 12643189318523987739, 11328196800931768510, 16254455917405024492,
  7055561026990259814, 4167474499396781671, 12016187439343943596, 16256712099167162963,
  11307860833076784765, 4158084579847533585, 7359391537227624612, 15811754826069972147,
  12726015197136402478, 2417319667391066077, 2643770576803482573, 6779218010432063326,
  11988605084157374617, 16134271245023066617, 15927973933358791078, 11826060206574667648,
  15004136700520317128, 18374961368965574355, 10552951969984485831, 6475200290843258950,
  9847008696823820719, 6142767054419480115, 17128523044919636521, 8212159047867964828,
  14406539788484338240, 4694073730897858908, 17383310113042465764, 8273278566024442220,
  4364053005606003614, 6454117622034798318, 10921316148588901065, 17870688414441453604,
  8925948760301357293, 7917818565381922128, 13392757149154241554, 17070630336331274891,
  15676581127455261160, 17359565130613735547, 6631846235593691710, 17099855189365865144,
  11931599599147567846, 7505899915185529303, 852331499155785804, 2772474444573856575,
  2229963016770213219, 6925367625670911383, 651094790809296056, 8772612624330692931,
  17957786613284821597, 15761486462380888836, 6607726257272120541, 553080051146277064,
  8017151951082256229, 13103722178191473444, 7152522584102899850, 9191307892525038743,
  16247911880499700568, 12932660619637650779, 13317573189403330127, 16111986403856250142,
  9284056370762983226, 9969050291905780536, 18362129203752063363, 16379151480934731542,
  6672241761097679629, 6457666264950347031, 2608264725461029392, 14287613669469957673,
  3191722432839405656, 13134211491417255134, 7447444685619375648, 1820704781062591368,
  1608540998965029584, 8567698441041963317, 16053146356655410314, 14764422746354579453,
  7534464003928458410, 9776559103829781202, 11305905119750480908, 508717303560613468,
  12999698574140574079, 11313426627353431123, 889284901959174203, 3286637286983054721,
  1439449827357918569, 14993503843632526633, 15655733819458940807, 5800639685061859479,
  5748264048822570629, 8486615552299656605, 4844868205253956797, 8279634673007089711,
  16062263439206066564, 3619451973435834104, 13077837703573144, 14780909536799533792,
  2434392907496811947, 2035158378305535848, 3392680651463781493, 9083314409193534843,
  15365203870894830061, 1981791246498706653, 2383105443622465044, 18336177020816756600,
  13957072438465623800, 5830877457118443428, 10805200717258053777, 1565161624901462702,
  7231746470794451806, 7330639102943648731, 9247379608792665094, 6813219388773565102,
  12862901332653484925, 1747977257486868193, 8076502195044098795, 9322734423632791859,
  2519673696351981635, 2463746000924475133, 12367316244041300978, 1057373778299290015,
  14928073401758820881, 17545296320077097731, 696946281140922560, 14551322238331177348,
  13530874124703376970, 15275196313329605760, 16401507804899498136, 244966755359719268,
  3848005781577314596, 1438396476057771270, 14462840012213128429, 9753218226863295135,
  4885838052661241816, 8488058219981601976, 8808050880034030020, 14807053701007769298,
  10620883234362958152, 16074401839549950676, 1127043811599571099, 283878817334129847,
  1663774915973082912, 4930794086777325691, 14541864522231023909, 12338392300264783174,
  16125840903728080950, 5195006590280085081, 1823080321221178626, 355514634985301408,
  8240656777404918996, 7141369581987355633, 5148416626573552524, 3627607195608402540,
  5299195181682024910, 2708798705711882035, 12546658940495769924, 10256741126904954504,
  17234117145335013192, 13468260515379490431, 16476114961886263890, 12799738087543359928,
  4502049423836802711, 10398038748006861353, 2723667460087050139, 16247049131616888622,
  7376972375679804669, 13005144659487043567, 2280396269162732509, 13464318723989256380,
  12833843830373081097, 8513519683879349762, 6603175818213049620, 7975767998521233306,
  7916721618278853462, 14764630191216199304, 7494142552398105971, 17703878194273907409,
  2015189172451461064, 6284841657096680445, 15174228695387626282, 15601033272263941818,
  10427571017139274722, 10981594438054433737, 4474341003380996982, 14841676354386413711,
  6129230946209912914, 8531058458372673731, 5803877860543665149, 15759501397941910174,
  12323838674170442415, 2994760616021983757, 7692024745436408532, 17778504743956122398,
  8011790885597335009, 1112578119255310087, 9842923722190707757, 11149325808066729341,
  11078886041327530178, 6860181735709205074, 2015977805620574446, 15973819527004609494,
  75818170840335272, 6657515428582267337, 7813679909182546406, 14197018306388270833,
  9598005422558075264, 1494506921565797095, 15494349479803037050, 16273914681747915361,
  10471785259545374940, 5724493794802843378, 1133009271052801062, 6952404756838055225,
  107085996989947149, 5505605758587307269, 1124540788033876782, 3551859503488140836,
  15550815748920858913, 14561436415193669310, 8273489309044698051, 5549699681414857342,
  16815689631043422662, 14026439755074526219, 1536726054058893528, 8000703563788495667,
  7355223788986027877, 2509625499565482351, 7857301029878975663, 5378948457036297350,
  5093087829250540303, 9084867306288870740, 15660837710772370137, 6128526470904967712,
  7845620425204851368, 18120325096701010463, 15366756169147165576, 12175096555943146604,
  16720002362905400260, 10905887816518118960, 8163489737639397616, 3755466574761888043,
  7278404953997739292, 14478055892433885689, 4402335965524773606, 253569448388450249,
  407284829083530961, 7964564696698135457, 6822671546260651903, 2088713693374153151,
  5566152932077388697, 17358766185073425704, 16126470538245629654, 5135406285740245231,
  17910254159915174009, 10431016460939622958, 10184117687276086093, 7713632516724028777,
  2129502379376026911, 8223505101167747655, 4919965458335224715, 15502193890945938591,
  5374881966149081630, 14862052168160933041, 17495515650797755734, 14824167570254835743,
  14615986560718615591, 6479425205406491188, 13216152615306322635, 11650913586689028150,
  6296656019477052692, 578957221996929739, 12007594438387058756, 4817997291012813569,
  17386165797610764295, 16430381860770050804, 9055026222747797397, 13147142103118351638,
  2744496969675436267, 2452369563851730988, 11723614033874678737, 7442471137381030585,
  1057207127536671168, 950038472275080320, 7108573666277362900, 11658050750947157035,
  1137463918333194752, 15784570389640623774, 6124290281784532992, 8330668244740092111,
  14996604731908024224, 12147837071485099633, 7172542245622878569, 17746810030535585432,
  846195261132138490, 1512781037062203928, 555864176653064048, 2744829180198894289,
  3376022888560369178, 2622898532197813531, 12481317468561739800, 12992677148924186177,
  12024744470234408040, 513024970155330371, 14248869491472611610, 12765731700785103488,
  17339507729604288597, 8138715174656707872, 1979823853866186983, 9761910479075254295,
  5825158613580586882, 12635251078672049036, 16487885544529367715, 969997860845139082,
  9173852209951284738, 9648875655252925521, 13566764938221497990, 152946819454717810,
  3461251927718671103, 5695164201402452940, 17642283581752761784, 701567880931363807,
  5278250071565441963, 15200476260908040928, 6727075014693187373, 7615148910648230460,
  4938081270983199990, 12667277451833664341, 3812246205172758795, 12869226428035983860,
  14985105116145283777, 7526171181427672848, 16461117863334073464, 13730897999489895154,
  17818771911209597938, 5666487969133056862, 3611918218863061036, 14769381428447704309,
  5690400986430043346, 12521581388418583524, 6199929716018912221, 3371071273021399790,
  8488671040563877444, 5647238570274531410, 949982579343810929, 17520039256490394315,
  13591071151847933452, 10701461607440599706, 13384418519367720716, 15401040519186274728,
  10890914100346130947, 866126929631762103, 5402061584711680522, 13168284957341228666,
  12185221649263053956, 15976578058706297527, 1194649666053897997, 13656636946729280705,
  14808108172348166715, 4662980119742799198, 6631244425778335457, 7941487950885738007,
  15535959137575318225, 9876914666768467069, 669336241337799448, 5529146745391477,
  10043258666015846276, 5818736799224544918, 4913188512787435887, 14084951586321060850,
  7756660310057241488, 2604392023682060652, 6588825733618519141, 4632372301979878871,
  562973776466201603, 10483200332439799642, 1759839830052885543, 3033807346747108178,
  2564673132932459551, 3442887524958486858, 16674965266401704260, 800347911116029734,
  16216972819935888574, 8839880941834364812, 10739669474778332962, 14370286402452698043,
  13679479169230259811, 2900177996497279228, 15148654199747301604, 2924007752887871403,
  1297452339893758176, 5660834002493209956, 9947228111988264917, 2582730955261420350,
  5768713482685986071, 4186301910522057440, 12554964047596197670, 7507051007026142751,
  6999036637825516789, 14731630247482867705, 9083055095675077346, 9231120069260828743,
  13536249512448578155, 13267742096948751545, 7428910675133858204, 5332759543572855349,
  2916447991326260445, 7699337998882172838, 3278023729386937545, 4965435289816820109]

/-- Embeds `pawnKeys[p][r][c]`; `none` outside the vectors. -/
def pawnKeys (p r c : Int) : Option Nat :=
  if 0 ≤ p ∧ p < MAX_PLAYERS ∧ 0 ≤ r ∧ r < MAX_BOARD_SIZE ∧ 0 ≤ c ∧ c < MAX_BOARD_SIZE then
    keyTable.get? (p * 121 + r * 11 + c).toNat
  else none

/-- Embeds `h_wallKeys[r][c]`; `none` outside the vectors. -/
def h_wallKeys (r c : Int) : Option Nat :=
  if 0 ≤ r ∧ r < MAX_BOARD_SIZE - 1 ∧ 0 ≤ c ∧ c < MAX_BOARD_SIZE - 1 then
    keyTable.get? (484 + 2 * (r * 10 + c)).toNat
  else none

/-- Embeds `v_wallKeys[r][c]`; `none` outside the vectors. -/
def v_wallKeys (r c : Int) : Option Nat :=
  if 0 ≤ r ∧ r < MAX_BOARD_SIZE - 1 ∧ 0 ≤ c ∧ c < MAX_BOARD_SIZE - 1 then
    keyTable.get? (484 + 2 * (r * 10 + c) + 1).toNat
  else none

/-- Embeds `turnKeys[p]`; `none` outside the vector. -/
def turnKeys (p : Int) : Option Nat :=
  if 0 ≤ p ∧ p < MAX_PLAYERS then keyTable.get? (684 + p).toNat else none

/-- XOR the keys of a list into `h`; `none` as soon as a key lookup is
undefined. -/
def xorKeys : List (Option Nat) → Nat → Option Nat
  | [], h => some h
  | none :: _, _ => none
  | some k :: rest, h => xorKeys rest (h ^^^ k)

/-- The key of a placed wall (`"horizontal"` or else vertical). -/
def wallKey (wall : Wall) : Option Nat :=
  if wall.orientation = "horizontal" then h_wallKeys wall.row wall.col
  else v_wallKeys wall.row wall.col

/-- Embeds `std::distance(ids.begin(), std::find(ids.begin(), ids.end(), id))`. -/
def playerIndexOf (ids : List String) (id : String) : Int :=
  (ids.indexOf id : Nat)

end Zobrist

/-- The key `pawnKeys[playerIndex][row][col]` that `computeHash` takes for a
binding of `pawnPositions`. -/
def Zobrist.pawnKeyOf (activePlayerIds : List String) (pair : String × PawnPos) : Option Nat :=
  Zobrist.pawnKeys (Zobrist.playerIndexOf activePlayerIds pair.1) pair.2.row pair.2.col

/-- Embeds `Zobrist::computeHash(state)`. -/
def Zobrist.computeHash (state : GameState) : Option Nat :=
  match Zobrist.xorKeys ((StrMap.entries state.pawnPositions).map
      (Zobrist.pawnKeyOf state.activePlayerIds)) 0 with
  | none => none
  | some h1 =>
    match Zobrist.xorKeys (state.placedWalls.map Zobrist.wallKey) h1 with
    | none => none
    | some h2 =>
      match Zobrist.turnKeys state.playerTurnIndex with
      | none => none
      | some k => some (h2 ^^^ k)

/-! ## Legal moves -/

/-- Embeds `for (const auto& p : players) if (p.id == id) player = &p;`: the last
roster entry with the id, `none` for the null pointer. -/
def findPlayer (players : List Player) (id : String) : Option Player :=
  players.foldl (fun found p => if p.id = id then some p else found) none

/-- The `opponentPositions` vector of `calculateLegalPawnMoves`. -/
def opponentPositions (pawnPositions : StrMap PawnPos) (players : List Player)
    (activePlayerIds : List String) (currentPlayerId : String) : List PawnPos :=
  players.filterMap (fun player =>
    if player.id ≠ currentPlayerId ∧ player.id ∈ activePlayerIds then
      StrMap.find pawnPositions player.id
    else none)

/-- Body of the loop over `potentialMoves` in `calculateLegalPawnMoves`: the
cells pushed to `availablePawnMoves` for the candidate `move` of the pawn at
`(row, col)`. -/
def pawnMovesToward (placedWalls : List Wall) (opponents : List PawnPos) (boardSize : Int)
    (row col : Int) (move : PawnPos) : List PawnPos :=
  if move.row < 0 ∨ move.row ≥ boardSize ∨ move.col < 0 ∨ move.col ≥ boardSize then []
  else
    let opponentInCell :=
      opponents.find? (fun oppPos => decide (oppPos.row = move.row) && decide (oppPos.col = move.col))
    if isWallBetween placedWalls row col move.row move.col then []
    else
      match opponentInCell with
      | some opp =>
        let jumpRow := opp.row + (opp.row - row)
        let jumpCol := opp.col + (opp.col - col)
        let wallBehindOpponent := isWallBetween placedWalls opp.row opp.col jumpRow jumpCol
        if !wallBehindOpponent && decide (jumpRow ≥ 0) && decide (jumpRow < boardSize) &&
            decide (jumpCol ≥ 0) && decide (jumpCol < boardSize) then
          [⟨jumpRow, jumpCol⟩]
        else if opp.row = row then
          (if !isWallBetween placedWalls opp.row opp.col (opp.row - 1) opp.col
            then [⟨opp.row - 1, opp.col⟩] else []) ++
          (if !isWallBetween placedWalls opp.row opp.col (opp.row + 1) opp.col
            then [⟨opp.row + 1, opp.col⟩] else [])
        else
          (if !isWallBetween placedWalls opp.row opp.col opp.row (opp.col - 1)
            then [⟨opp.row, opp.col - 1⟩] else []) ++
          (if !isWallBetween placedWalls opp.row opp.col opp.row (opp.col + 1)
            then [⟨opp.row, opp.col + 1⟩] else [])
      | none => [⟨move.row, move.col⟩]

/-- The predicate of the final `remove_if` of `calculateLegalPawnMoves`. -/
def removedPawnMove (opponents : List PawnPos) (boardSize : Int) (m : PawnPos) : Bool :=
  opponents.any (fun oppPos => decide (oppPos.row = m.row) && decide (oppPos.col = m.col)) ||
    decide (m.row < 0) || decide (m.row ≥ boardSize) || decide (m.col < 0) ||
    decide (m.col ≥ boardSize)

/-- Embeds `calculateLegalPawnMoves(pawnPositions, placedWalls, players,
activePlayerIds, playerTurnIndex, boardSize)`.  The comparison
`playerTurnIndex >= activePlayerIds.size()` is unsigned. -/
def calculateLegalPawnMoves (pawnPositions : StrMap PawnPos) (placedWalls : List Wall)
    (players : List Player) (activePlayerIds : List String) (playerTurnIndex : Int)
    (boardSize : Int) : List PawnPos :=
  if playerTurnIndex % 2 ^ 32 ≥ (activePlayerIds.length : Int) then []
  else
    match vecAt activePlayerIds playerTurnIndex with
    | none => []
    | some currentPlayerId =>
      match StrMap.find pawnPositions currentPlayerId with
      | none => []
      | some currentPos =>
        let row := currentPos.row
        let col := currentPos.col
        let opponents := opponentPositions pawnPositions players activePlayerIds currentPlayerId
        let potentialMoves : List PawnPos :=
          [⟨row - 1, col⟩, ⟨row + 1, col⟩, ⟨row, col - 1⟩, ⟨row, col + 1⟩]
        let availablePawnMoves :=
          potentialMoves.flatMap (pawnMovesToward placedWalls opponents boardSize row col)
        availablePawnMoves.filter (fun m => !removedPawnMove opponents boardSize m)

/-- The test of the loop over `placedWalls` in `isWallPlacementLegal`: the
placed `wall` forbids `wallData`. -/
def wallClash (wallData wall : Wall) : Bool :=
  (decide (wall.row = wallData.row) && decide (wall.col = wallData.col)) ||
  (decide (wallData.orientation = "horizontal") && decide (wall.orientation = "horizontal") &&
    decide (wall.row = wallData.row) && decide ((wall.col - wallData.col).natAbs < 2)) ||
  (decide (wallData.orientation = "vertical") && decide (wall.orientation = "vertical") &&
    decide (wall.col = wallData.col) && decide ((wall.row - wallData.row).natAbs < 2))

/-- The loop over `activePlayerIds` of `isWallPlacementLegal`: `some false` at
the first player without a path. -/
def allPathsExist (pawnPositions : StrMap PawnPos) (players : List Player)
    (tempPlacedWalls : List Wall) (boardSize : Int) : List String → Option Bool
  | [] => some true
  | playerId :: rest =>
    match findPlayer players playerId with
    | none => allPathsExist pawnPositions players tempPlacedWalls boardSize rest
    | some player =>
      match StrMap.find pawnPositions player.id with
      | none => allPathsExist pawnPositions players tempPlacedWalls boardSize rest
      | some pos =>
        match pathExistsFor pos player.goalCondition tempPlacedWalls boardSize with
        | none => none
        | some false => some false
        | some true => allPathsExist pawnPositions players tempPlacedWalls boardSize rest

/-- Embeds `isWallPlacementLegal(wallData, gameState, players)`. -/
def isWallPlacementLegal (wallData : Wall) (gameState : GameState) (players : List Player) :
    Option Bool :=
  match StrMap.find gameState.wallsLeft gameState.playerTurn with
  | none => none
  | some left =>
    if left ≤ 0 then some false
    else if wallData.row < 0 ∨ wallData.row > gameState.boardSize - 2 ∨ wallData.col < 0 ∨
        wallData.col > gameState.boardSize - 2 then some false
    else if gameState.placedWalls.any (wallClash wallData) then some false
    else
      allPathsExist gameState.pawnPositions players (gameState.placedWalls ++ [wallData])
        gameState.boardSize gameState.activePlayerIds

/-! ## State transition -/

/-- Embeds `switchTurn(gameState)`.  `(playerTurnIndex + 1) % activePlayerIds.size()`
is computed in `size_t`. -/
def switchTurn (gameState : GameState) : Option GameState :=
  match Zobrist.turnKeys gameState.playerTurnIndex with
  | none => none
  | some kOut =>
    if gameState.activePlayerIds.length = 0 then none
    else
      let idx : Int :=
        ((gameState.playerTurnIndex + 1) % 2 ^ 32) % (gameState.activePlayerIds.length : Int)
      match vecAt gameState.activePlayerIds idx, Zobrist.turnKeys idx with
      | some id, some kIn =>
        some { gameState with
          zobristHash := (gameState.zobristHash ^^^ kOut) ^^^ kIn
          playerTurnIndex := idx
          playerTurn := id }
      | _, _ => none

/-- Embeds `applyPawnMove(gameState, moveData, players)`. -/
def applyPawnMove (gameState : GameState) (moveData : PawnPos) (players : List Player) :
    Option GameState :=
  let currentPlayerId := gameState.playerTurn
  let playerIndex := gameState.playerTurnIndex
  -- `operator[]` inserts a value-initialised position for a missing key
  let oldPos : PawnPos := (StrMap.find gameState.pawnPositions currentPlayerId).getD ⟨0, 0⟩
  match Zobrist.pawnKeys playerIndex oldPos.row oldPos.col,
      Zobrist.pawnKeys playerIndex moveData.row moveData.col,
      vecAt players playerIndex with
  | some kOld, some kNew, some currentPlayer =>
    let moved : GameState := { gameState with
      zobristHash := (gameState.zobristHash ^^^ kOld) ^^^ kNew
      pawnPositions := StrMap.assign gameState.pawnPositions currentPlayerId moveData }
    if currentPlayer.goalCondition moveData.row moveData.col gameState.boardSize then
      some { moved with status := "ended", winner := currentPlayerId }
    else switchTurn moved
  | _, _, _ => none

/-- Embeds `applyWallPlacement(gameState, wallData)`. -/
def applyWallPlacement (gameState : GameState) (wallData : Wall) : Option GameState :=
  match Zobrist.wallKey wallData with
  | none => none
  | some k =>
    -- `operator[]` inserts a zero count for a missing key before the decrement
    let left : Int := (StrMap.find gameState.wallsLeft gameState.playerTurn).getD 0
    switchTurn { gameState with
      zobristHash := gameState.zobristHash ^^^ k
      placedWalls := gameState.placedWalls ++ [wallData]
      wallsLeft := StrMap.assign gameState.wallsLeft gameState.playerTurn (left - 1) }

/-- Embeds `applyMove(gameState, move, players)`. -/
def applyMove (gameState : GameState) (move : Move) (players : List Player) : Option GameState :=
  if move.type = "cell" then applyPawnMove gameState move.pos players
  else if move.type = "wall" then applyWallPlacement gameState move.wall
  else some gameState

/-! ## Evaluation -/

/-- Embeds `INT_MAX` of a 32-bit `int`. -/
def INT_MAX : Int := 2147483647

/-- Embeds `MAX_EXPECTED_PATH`. -/
def MAX_EXPECTED_PATH : Int := 16

/-- Embeds `static_cast<int>(pow(2.0, 16 - myPath) - pow(2.0, 16 - threatPath))`.
Both powers are exact doubles.  Their difference is an exact double when the
exponents differ by at most 53; when they differ by 54 or more the
subtraction rounds to the power of larger magnitude.  The cast truncates
toward zero; the quotient is taken after scaling both powers by a common
power of two so that only integers occur. -/
def pathScore (myPath threatPath : Int) : Int :=
  let x := MAX_EXPECTED_PATH - myPath
  let y := MAX_EXPECTED_PATH - threatPath
  let m := min (min x y) 0
  let px : Int := 2 ^ (x - m).toNat
  let py : Int := 2 ^ (y - m).toNat
  let num : Int := if x - y ≥ 54 then px else if y - x ≥ 54 then -py else px - py
  Int.tdiv num (2 ^ (-m).toNat)

/-- The loop of `evaluate` over the opponents: the running minimum
`mostThreateningOpponentPath`. -/
def threatPathLoop (state : GameState) (players : List Player) (myId : String) :
    List String → Int → Option Int
  | [], best => some best
  | opponentId :: rest, best =>
    if opponentId = myId then threatPathLoop state players myId rest best
    else
      match findPlayer players opponentId, StrMap.find state.pawnPositions opponentId with
      | some opponentPlayer, some pos =>
        match getShortestPathLength pos opponentPlayer.goalCondition state.placedWalls
            state.boardSize with
        | none => none
        | some opponentPath =>
          threatPathLoop state players myId rest
            (if opponentPath ≠ -1 then min best opponentPath else best)
      | _, _ => threatPathLoop state players myId rest best

/-- The value a 32-bit `int` holds after an operation whose exact result is
`x`: two's complement wrap-around, as the compiled code computes it. -/
def int32 (x : Int) : Int := (x + 2147483648) % 4294967296 - 2147483648

/-- Embeds `int totalWallsOnBoard = (10 * state.activePlayerIds.size());
for (const auto& pair : state.wallsLeft) { totalWallsOnBoard -= pair.second; }`
in 32-bit `int`.  The wrapped result does not depend on the order of the
entries. -/
def wallsOnBoard (state : GameState) : Int :=
  (StrMap.entries state.wallsLeft).foldl (fun total pair => int32 (total - pair.2))
    (int32 (10 * (state.activePlayerIds.length : Int)))

/-- Embeds `evaluate(state, players)`; the wall score and the sum are computed
in 32-bit `int`. -/
def evaluate (state : GameState) (players : List Player) : Option Int :=
  if state.status = "ended" then
    some (if state.winner = state.playerTurn then INT_MAX else -INT_MAX)
  else
    let myId := state.playerTurn
    match findPlayer players myId, StrMap.find state.pawnPositions myId with
    | some myPlayer, some myPos =>
      match getShortestPathLength myPos myPlayer.goalCondition state.placedWalls state.boardSize with
      | none => none
      | some myPath =>
        match threatPathLoop state players myId state.activePlayerIds (MAX_EXPECTED_PATH + 1) with
        | none => none
        | some mostThreateningOpponentPath =>
          let totalWallsOnBoard : Int := wallsOnBoard state
          let wallScoreMultiplier : Int := int32 (5 + Int.tdiv (int32 (40 - totalWallsOnBoard)) 4)
          match StrMap.find state.wallsLeft myId with
          | none => none
          | some left =>
            let wallAdvantageScore : Int := int32 (left * wallScoreMultiplier)
            some (int32 (pathScore myPath mostThreateningOpponentPath + wallAdvantageScore))
    | _, _ => none

/-! ## Move ordering -/

/-- The loop of `generateAndOrderMoves` that selects the most threatening
opponent: `(initialOpponentPath, opponentId, opponentPlayer)`. -/
def threatLoop (state : GameState) (players : List Player) (myId : String) :
    List String → Int × String × Option Player → Option (Int × String × Option Player)
  | [], acc => some acc
  | id :: rest, acc =>
    if id = myId then threatLoop state players myId rest acc
    else
      match findPlayer players id, StrMap.find state.pawnPositions id with
      | some tempOpponent, some pos =>
        match getShortestPathLength pos tempOpponent.goalCondition state.placedWalls
            state.boardSize with
        | none => none
        | some path =>
          threatLoop state players myId rest
            (if path ≠ -1 ∧ path < acc.1 then (path, id, some tempOpponent) else acc)
      | _, _ => threatLoop state players myId rest acc

/-- The loop of `generateAndOrderMoves` over the pawn destinations. -/
def scorePawnMoves (state : GameState) (myPlayer : Player) (initialMyPath : Int) :
    List PawnPos → Option (List (Move × Int))
  | [] => some []
  | pos :: rest =>
    match getShortestPathLength pos myPlayer.goalCondition state.placedWalls state.boardSize with
    | none => none
    | some newMyPath =>
      match scorePawnMoves state myPlayer initialMyPath rest with
      | none => none
      | some scored =>
        if myPlayer.goalCondition pos.row pos.col state.boardSize then
          some ((Move.cell pos, INT_MAX) :: scored)
        else
          some ((Move.cell pos, 10000 + (initialMyPath - newMyPath) * 100) :: scored)

/-- The candidate walls in the order of the three nested loops. -/
def candidateWalls (boardSize : Int) : List Wall :=
  (List.range (boardSize - 1).toNat).flatMap (fun (r : Nat) =>
    (List.range (boardSize - 1).toNat).flatMap (fun (c : Nat) =>
      [Wall.mk (Int.ofNat r) (Int.ofNat c) "horizontal",
        Wall.mk (Int.ofNat r) (Int.ofNat c) "vertical"]))

/-- Body of the wall loops of `generateAndOrderMoves` over the candidates. -/
def scoreWallMoves (state : GameState) (players : List Player) (myPos : PawnPos)
    (myPlayer : Player) (initialMyPath : Int) (opponentId : String) (opponentPlayer : Player)
    (initialOpponentPath : Int) : List Wall → Option (List (Move × Int))
  | [] => some []
  | wall :: rest =>
    let tail := scoreWallMoves state players myPos myPlayer initialMyPath opponentId
      opponentPlayer initialOpponentPath rest
    match isWallPlacementLegal wall state players with
    | none => none
    | some false => tail
    | some true =>
      let tempWalls := state.placedWalls ++ [wall]
      match getShortestPathLength myPos myPlayer.goalCondition tempWalls state.boardSize with
      | none => none
      | some newMyPathAfterWall =>
        if newMyPathAfterWall = -1 ∨ newMyPathAfterWall > initialMyPath then tail
        else
          match StrMap.find state.pawnPositions opponentId with
          | none => none
          | some oppPos =>
            match getShortestPathLength oppPos opponentPlayer.goalCondition tempWalls
                state.boardSize with
            | none => none
            | some newOpponentPath =>
              if newOpponentPath ≠ -1 ∧ newOpponentPath - initialOpponentPath > 0 then
                let opponentPathIncrease := newOpponentPath - initialOpponentPath
                let score : Int :=
                  if initialOpponentPath ≤ 2 then 50000 + opponentPathIncrease * 1000
                  else opponentPathIncrease * 200
                tail.map (fun scored => (Move.wallMove wall, score) :: scored)
              else tail

/-- Insert a scored move into a list sorted by descending score, before the
entries that do not score higher. -/
def insertScored (x : Move × Int) : List (Move × Int) → List (Move × Int)
  | [] => [x]
  | y :: ys => if y.2 > x.2 then y :: insertScored x ys else x :: y :: ys

/-- The `std::sort` by descending score.  `std::sort` leaves the order of
moves of equal score to the library; the model keeps them in generation
order. -/
def sortScored (l : List (Move × Int)) : List (Move × Int) :=
  l.foldr insertScored []

/-- Embeds `generateAndOrderMoves(state, players)`. -/
def generateAndOrderMoves (state : GameState) (players : List Player) : Option (List Move) :=
  let myId := state.playerTurn
  match findPlayer players myId with
  | none => some []
  | some myPlayer =>
    match threatLoop state players myId state.activePlayerIds (MAX_EXPECTED_PATH + 1, "", none) with
    | none => none
    | some (initialOpponentPath, opponentId, opponent) =>
      match StrMap.find state.pawnPositions myId with
      | none => none
      | some myPos =>
        match getShortestPathLength myPos myPlayer.goalCondition state.placedWalls
            state.boardSize with
        | none => none
        | some initialMyPath =>
          let pawnMoves := calculateLegalPawnMoves state.pawnPositions state.placedWalls players
            state.activePlayerIds state.playerTurnIndex state.boardSize
          match scorePawnMoves state myPlayer initialMyPath pawnMoves with
          | none => none
          | some pawnScored =>
            let wallScored : Option (List (Move × Int)) :=
              match StrMap.find state.wallsLeft myId, opponent with
              | some left, some opponentPlayer =>
                if left > 0 then
                  scoreWallMoves state players myPos myPlayer initialMyPath opponentId
                    opponentPlayer initialOpponentPath (candidateWalls state.boardSize)
                else some []
              | _, _ => some []
            match wallScored with
            | none => none
            | some walls => some ((sortScored (pawnScored ++ walls)).map (fun sm => sm.1))

/-! ## Search -/

/-- Embeds `enum TTFlag`. -/
inductive TTFlag where
  | EXACT
  | LOWERBOUND
  | UPPERBOUND
  deriving DecidableEq, Repr

/-- Embeds `struct TTEntry`. -/
structure TTEntry where
  score : Int
  depth : Int
  flag : TTFlag
  deriving DecidableEq, Repr

/-- The global `transpositionTable`, passed explicitly: the binding of a hash
is its first entry in the list. -/
abbrev Table := List (Nat × TTEntry)

/-- The mate-range adjustment `if (s > 900000) s -= ply; if (s < -900000) s += ply;`. -/
def plyAdjust (s ply : Int) : Int :=
  let s1 := if s > 900000 then s - ply else s
  if s1 < -900000 then s1 + ply else s1

/-- The terminal branch of `minimax`: `evaluate` with the exact-`INT_MAX` adjustment. -/
def minimaxLeaf (state : GameState) (players : List Player) (ply : Int) : Option Int :=
  (evaluate state players).map (fun base_score =>
    let s1 := if base_score = INT_MAX then base_score - ply else base_score
    if s1 = -INT_MAX then s1 + ply else s1)

/-- The two `for` loops of `minimax`: fold the children's values with `max`
(maximizing) or `min`. -/
def minimaxLoop (child : GameState → Option Int) (state : GameState) (players : List Player)
    (maximizingPlayer : Bool) : List Move → Int → Option Int
  | [], acc => some acc
  | move :: rest, acc =>
    match applyMove state move players with
    | none => none
    | some nextState =>
      match child nextState with
      | none => none
      | some eval =>
        minimaxLoop child state players maximizingPlayer rest
          (if maximizingPlayer then max acc eval else min acc eval)

/-- Embeds `minimax(state, depth, maximizingPlayer, players, ply)` for `depth ≥ 0`. -/
def minimax (players : List Player) : Nat → GameState → Bool → Int → Option Int
  | 0, state, _, ply => minimaxLeaf state players ply
  | depth + 1, state, maximizingPlayer, ply =>
    if state.status = "ended" then minimaxLeaf state players ply
    else
      match generateAndOrderMoves state players with
      | none => none
      | some moves =>
        if moves.isEmpty then evaluate state players
        else
          minimaxLoop (fun nextState => minimax players depth nextState (!maximizingPlayer) (ply + 1))
            state players maximizingPlayer moves
            (if maximizingPlayer then -INT_MAX else INT_MAX)

/-- The search flags of `negamax`. -/
structure Flags where
  useAlphaBeta : Bool
  useNullMovePruning : Bool
  useTranspositionTable : Bool

/-- The `for (const auto& move : moves)` loop of `negamax`; `child` is the
recursive call at `depth - 1`.  Returns `maxVal` and the table. -/
def negamaxLoop (child : GameState → Int → Int → Table → Option (Int × Table))
    (state : GameState) (players : List Player) (useAlphaBeta : Bool) (beta : Int) :
    List Move → Int → Int → Table → Option (Int × Table)
  | [], _, maxVal, table => some (maxVal, table)
  | move :: rest, alpha, maxVal, table =>
    match applyMove state move players with
    | none => none
    | some nextState =>
      let next_alpha := if useAlphaBeta then -beta else -INT_MAX
      let next_beta := if useAlphaBeta then -alpha else INT_MAX
      match child nextState next_alpha next_beta table with
      | none => none
      | some (v, table1) =>
        let val := -v
        let maxVal1 := max maxVal val
        let alpha1 := max alpha val
        if useAlphaBeta && decide (alpha1 ≥ beta) then some (maxVal1, table1)
        else negamaxLoop child state players useAlphaBeta beta rest alpha1 maxVal1 table1

/-- What the transposition-table lookup of `negamax` yields: an early return
or the (possibly tightened) window. -/
inductive Probe where
  | ret (score : Int)
  | window (alpha beta : Int)

/-- The table lookup at the head of `negamax`. -/
def probeTable (flags : Flags) (table : Table) (hash : Nat) (depth : Int) (alpha beta ply : Int) :
    Probe :=
  if flags.useTranspositionTable then
    match List.lookup hash table with
    | some entry =>
      if entry.depth ≥ depth then
        let score := plyAdjust entry.score ply
        if entry.flag = TTFlag.EXACT then Probe.ret score
        else
          let alpha1 := if entry.flag = TTFlag.LOWERBOUND then max alpha score else alpha
          let beta1 := if entry.flag = TTFlag.UPPERBOUND then min beta score else beta
          if flags.useAlphaBeta && decide (alpha1 ≥ beta1) then Probe.ret score
          else Probe.window alpha1 beta1
      else Probe.window alpha beta
    | none => Probe.window alpha beta
  else Probe.window alpha beta

/-- The table store at the end of `negamax`. -/
def storeTable (flags : Flags) (table : Table) (hash : Nat) (depth : Int)
    (maxVal alphaOrig beta : Int) : Table :=
  if flags.useTranspositionTable then
    let flag :=
      if maxVal ≤ alphaOrig then TTFlag.UPPERBOUND
      else if maxVal ≥ beta then TTFlag.LOWERBOUND
      else TTFlag.EXACT
    (hash, ⟨maxVal, depth, flag⟩) :: table
  else table

/-- The terminal branch of `negamax`. -/
def negamaxLeaf (state : GameState) (players : List Player) (color ply : Int) (table : Table) :
    Option (Int × Table) :=
  (evaluate state players).map (fun base_score => (color * plyAdjust base_score ply, table))

/-- The type of a `negamax` call at a fixed depth:
`state, alpha, beta, color, ply, table`. -/
abbrev Search := GameState → Int → Int → Int → Int → Table → Option (Int × Table)

/-- The null-move step of `negamax` (`R = 3`): whether the node is pruned, and
the table after the reduced search.  `nullSearch` is the recursive call at
`depth - 1 - R`, present when `depth >= R + 1`. -/
def nullMovePrune (flags : Flags) (nullSearch : Option Search) (state : GameState)
    (beta color ply : Int) (table : Table) : Option (Bool × Table) :=
  match nullSearch with
  | none => some (false, table)
  | some search =>
    if flags.useNullMovePruning then
      match StrMap.find state.wallsLeft state.playerTurn with
      | none => none
      | some left =>
        if left > 0 then
          match switchTurn state with
          | none => none
          | some tempState =>
            match search tempState (-beta) (-beta + 1) (-color) (ply + 1) table with
            | none => none
            | some (v, table1) => some (flags.useAlphaBeta && decide (-v ≥ beta), table1)
        else some (false, table)
    else some (false, table)

/-- The body of `negamax` at `depth ≥ 1`; `child` is the recursive call at
`depth - 1`. -/
def negamaxNode (players : List Player) (flags : Flags) (depth : Int) (child : Search)
    (nullSearch : Option Search) (state : GameState) (alpha beta color ply : Int)
    (table : Table) : Option (Int × Table) :=
  let alphaOrig := alpha
  match probeTable flags table state.zobristHash depth alpha beta ply with
  | Probe.ret score => some (score, table)
  | Probe.window alpha beta =>
    if state.status = "ended" then negamaxLeaf state players color ply table
    else
      match nullMovePrune flags nullSearch state beta color ply table with
      | none => none
      | some (true, table1) => some (beta, table1)
      | some (false, table1) =>
        match generateAndOrderMoves state players with
        | none => none
        | some moves =>
          if moves.isEmpty then
            (evaluate state players).map (fun e => (color * e, table1))
          else
            match negamaxLoop
                (fun nextState a b t => child nextState a b (-color) (ply + 1) t)
                state players flags.useAlphaBeta beta moves alpha (-INT_MAX) table1 with
            | none => none
            | some (maxVal, table2) =>
              some (maxVal, storeTable flags table2 state.zobristHash depth maxVal alphaOrig beta)

/-- The body of `negamax` at `depth = 0`. -/
def negamaxZero (players : List Player) (flags : Flags) (state : GameState)
    (alpha beta color ply : Int) (table : Table) : Option (Int × Table) :=
  match probeTable flags table state.zobristHash 0 alpha beta ply with
  | Probe.ret score => some (score, table)
  | Probe.window _ _ => negamaxLeaf state players color ply table

/-- The searches at the depths `depth, depth - 1, .., 0`, deepest first.  The
search at `depth ≥ 1` calls the one at `depth - 1` and, for the null move, the
one at `depth - 1 - R = depth - 4`, which exists when `depth >= R + 1`. -/
def negamaxUpTo (players : List Player) (flags : Flags) : Nat → List Search
  | 0 => [negamaxZero players flags]
  | depth + 1 =>
    match negamaxUpTo players flags depth with
    | [] => []
    | child :: shallower =>
      negamaxNode players flags ((depth : Int) + 1) child (shallower.get? 2) :: child :: shallower

/-- Embeds `negamax(state, depth, alpha, beta, color, players, ply, useAlphaBeta,
useNullMovePruning, useTranspositionTable)` for `depth ≥ 0`, with the global
table as an explicit argument and result. -/
def negamax (players : List Player) (flags : Flags) (depth : Nat) : Search :=
  match negamaxUpTo players flags depth with
  | [] => fun _ _ _ _ _ _ => none
  | search :: _ => search

/-- The flags `findBestMove` passes to `negamax`: all three enabled. -/
def searchFlags : Flags := ⟨true, true, true⟩

/-- The inner loop of `findBestMove` over the root moves at one depth:
`(bestMoveThisIteration, bestValue)` and the table. -/
def rootLoop (state : GameState) (players : List Player) (flags : Flags) (depth : Nat) :
    List Move → Move → Int → Table → Option (Move × Int × Table)
  | [], best, bestValue, table => some (best, bestValue, table)
  | move :: rest, best, bestValue, table =>
    match applyMove state move players with
    | none => none
    | some nextState =>
      match negamax players flags depth nextState (-INT_MAX) INT_MAX (-1) 1 table with
      | none => none
      | some (v, table1) =>
        if -v > bestValue then rootLoop state players flags depth rest move (-v) table1
        else rootLoop state players flags depth rest best bestValue table1

/-- Embeds `std::find` with `Move::operator==` followed by `std::rotate(begin, it, it + 1)`:
the first move equal to `best` is moved to the front; `none` when `find`
returns `end` (the rotate is then undefined). -/
def moveToFront (moves : List Move) (best : Move) : Option (List Move) :=
  match moves.findIdx? (fun m => Move.eq m best) with
  | none => none
  | some i => some ((moves.drop i).take 1 ++ moves.take i ++ moves.drop (i + 1))

/-- The iterative-deepening loop of `findBestMove`: `count` iterations starting
at `current_depth = depth + 1`. -/
def deepenLoop (state : GameState) (players : List Player) (flags : Flags) :
    Nat → Nat → List Move → Move → Table → Option (Move × Table)
  | 0, _, _, bestMoveOverall, table => some (bestMoveOverall, table)
  | count + 1, depth, movesToSearch, _, table =>
    match movesToSearch with
    | [] => none
    | first :: _ =>
      match rootLoop state players flags depth movesToSearch first (-INT_MAX) table with
      | none => none
      | some (bestMoveThisIteration, _, table1) =>
        match moveToFront movesToSearch bestMoveThisIteration with
        | none => none
        | some reordered =>
          deepenLoop state players flags count (depth + 1) reordered bestMoveThisIteration table1

/-- The search of `findBestMove` on the converted state, with the flags as a
parameter. -/
def findBestMoveWith (flags : Flags) (state : GameState) (players : List Player)
    (targetDepth : Int) (table : Table) : Option (Move × Table) :=
  let TARGET_DEPTH : Int := if targetDepth > 0 then targetDepth else 4
  match generateAndOrderMoves state players with
  | none => none
  | some movesToSearch =>
    match movesToSearch with
    | [] => some (Move.resign, table)
    | first :: _ => deepenLoop state players flags TARGET_DEPTH.toNat 0 movesToSearch first table

/-- Embeds `jsToCppState`: the fields read from the snapshot, the hash computed
afresh; `winner` is not read and stays the empty string. -/
def jsToCppState (snapshot : GameState) : Option GameState :=
  (Zobrist.computeHash snapshot).map (fun h => { snapshot with zobristHash := h, winner := "" })

/-- Embeds `findBestMove(jsState, jsPlayers, targetDepth)` on a snapshot and a roster,
with the global table as an explicit argument and result. -/
def findBestMove (snapshot : GameState) (players : List Player) (targetDepth : Int)
    (table : Table) : Option (Move × Table) :=
  match jsToCppState snapshot with
  | none => none
  | some state => findBestMoveWith searchFlags state players targetDepth table

/-- The goal predicates `jsToCppPlayers` gives to the ids "p1" .. "p4". -/
def goalOfId (id : String) : Int → Int → Int → Bool :=
  if id = "p1" then fun r _ _ => decide (r = 0)
  else if id = "p2" then fun _ c _ => decide (c = 0)
  else if id = "p3" then fun r _ boardSize => decide (r = boardSize - 1)
  else fun _ c boardSize => decide (c = boardSize - 1)

/-- The roster entry `jsToCppPlayers` builds for one of the ids "p1" .. "p4". -/
def playerOfId (id : String) : Player := ⟨id, goalOfId id⟩

/-! ## Vocabulary of the properties -/

/-- An orthogonal unit step from `(r1, c1)` to `(r2, c2)`. -/
def UnitStep (r1 c1 r2 c2 : Int) : Prop :=
  (c1 = c2 ∧ (r2 = r1 + 1 ∨ r1 = r2 + 1)) ∨ (r1 = r2 ∧ (c2 = c1 + 1 ∨ c1 = c2 + 1))

/-- The step between `a1` and `a2` crosses from line `w` to line `w + 1` or back. -/
def Crosses (a1 a2 w : Int) : Prop :=
  (a1 = w ∧ a2 = w + 1) ∨ (a1 = w + 1 ∧ a2 = w)

/-- The wall severs the step, as the specification words it: a horizontal
wall at `(wr, wc)` blocks the steps between rows `wr` and `wr + 1` at columns
`wc` and `wc + 1`, a vertical wall the steps between columns `wc` and `wc + 1`
at rows `wr` and `wr + 1`. -/
def WallSevers (w : Wall) (r1 c1 r2 c2 : Int) : Prop :=
  (w.orientation = "horizontal" ∧ Crosses r1 r2 w.row ∧ c1 = c2 ∧ (c1 = w.col ∨ c1 = w.col + 1)) ∨
  (w.orientation = "vertical" ∧ Crosses c1 c2 w.col ∧ r1 = r2 ∧ (r1 = w.row ∨ r1 = w.row + 1))

/-- The turn index has a defined successor: it indexes `activePlayerIds` and
the four turn keys. -/
def TurnOk (state : GameState) : Prop :=
  0 ≤ state.playerTurnIndex ∧ state.playerTurnIndex < state.activePlayerIds.length ∧
    state.activePlayerIds.length ≤ 4

/-- A legal unit step of a pawn from `p` to `q`: `q` is one of the four
neighbours of `p`, lies on the board and no wall lies between the two. -/
def StepOk (placedWalls : List Wall) (boardSize : Int) (p q : PawnPos) : Prop :=
  q ∈ neighbors p ∧ (0 ≤ q.row ∧ q.row < boardSize ∧ 0 ≤ q.col ∧ q.col < boardSize) ∧
    isWallBetween placedWalls p.row p.col q.row q.col = false

/-- Embeds `Reach walls n start k p`: `p` is reached from `start` by `k` legal unit steps. -/
inductive Reach (placedWalls : List Wall) (boardSize : Int) (start : PawnPos) :
    Nat → PawnPos → Prop where
  | zero : Reach placedWalls boardSize start 0 start
  | step {k : Nat} {p q : PawnPos} : Reach placedWalls boardSize start k p →
      StepOk placedWalls boardSize p q → Reach placedWalls boardSize start (k + 1) q

/-- Some cell satisfying the goal predicate is reachable from `start`. -/
def GoalReachable (placedWalls : List Wall) (boardSize : Int) (start : PawnPos)
    (goalCondition : Int → Int → Int → Bool) : Prop :=
  ∃ k p, Reach placedWalls boardSize start k p ∧ goalCondition p.row p.col boardSize = true

/-- The placed wall `p` overlaps the new wall `w` along its long axis: same
orientation, same line, less than two apart. -/
def Colinear (w p : Wall) : Prop :=
  (w.orientation = "horizontal" ∧ p.orientation = "horizontal" ∧ p.row = w.row ∧
    |p.col - w.col| < 2) ∨
  (w.orientation = "vertical" ∧ p.orientation = "vertical" ∧ p.col = w.col ∧
    |p.row - w.row| < 2)

/-- The shortest-path search from `pos` is defined and finds a goal cell. -/
def FinitePath (pos : PawnPos) (goalCondition : Int → Int → Int → Bool)
    (placedWalls : List Wall) (boardSize : Int) : Prop :=
  ∃ d, getShortestPathLength pos goalCondition placedWalls boardSize = some d ∧ d ≠ -1

/-- A 4 x 4 position in which "p3" carries the sentinel row -1 of a player
that has left the board, and the two walls under row 0 close off every
column. -/
def sentinelState : GameState :=
  { boardSize := 4
    pawnPositions := [("p2", ⟨2, 3⟩), ("p3", ⟨-1, 0⟩)]
    wallsLeft := [("p2", 10), ("p3", 10)]
    placedWalls := [⟨0, 0, "horizontal"⟩, ⟨0, 2, "horizontal"⟩]
    playerTurn := "p2"
    activePlayerIds := ["p2", "p3"]
    playerTurnIndex := 0
    status := "active"
    winner := ""
    zobristHash := 0 }

/-- The roster of `sentinelState`. -/
def sentinelRoster : List Player := [playerOfId "p2", playerOfId "p3"]

/-- The cell is on the board. -/
def OnBoard (boardSize : Int) (p : PawnPos) : Prop :=
  0 ≤ p.row ∧ p.row < boardSize ∧ 0 ≤ p.col ∧ p.col < boardSize

/-- The cell straight behind `b` as seen from `a`: the reflection of `a`
through `b`. -/
def jumpCell (a b : PawnPos) : PawnPos := ⟨b.row + (b.row - a.row), b.col + (b.col - a.col)⟩

/-- The two lateral cells of `b` for a pawn at `a` next to it: the neighbours
of `b` perpendicular to the direction from `a` to `b`. -/
def lateralCells (a b : PawnPos) : List PawnPos :=
  if a.row = b.row then [⟨b.row - 1, b.col⟩, ⟨b.row + 1, b.col⟩]
  else [⟨b.row, b.col - 1⟩, ⟨b.row, b.col + 1⟩]

/-- The premises of the jump rule: the mover `cur` stands at `a`, the pawn of
another active roster player stands at the neighbouring board cell `b` with no
wall between them, and the cell straight behind `b` is on the board, holds no
other pawn and is not walled off from `b`. -/
structure StraightJumpOpen (pawnPositions : StrMap PawnPos) (placedWalls : List Wall)
    (players : List Player) (activePlayerIds : List String) (playerTurnIndex boardSize : Int)
    (cur : String) (a b : PawnPos) : Prop where
  index : 0 ≤ playerTurnIndex ∧ playerTurnIndex < activePlayerIds.length
  mover : vecAt activePlayerIds playerTurnIndex = some cur
  pawn : StrMap.find pawnPositions cur = some a
  other : b ∈ opponentPositions pawnPositions players activePlayerIds cur
  adjacent : b ∈ neighbors a
  onBoard : OnBoard boardSize b
  open_ab : isWallBetween placedWalls a.row a.col b.row b.col = false
  jumpOnBoard : OnBoard boardSize (jumpCell a b)
  jumpFree : jumpCell a b ∉ opponentPositions pawnPositions players activePlayerIds cur
  open_jump : isWallBetween placedWalls b.row b.col (jumpCell a b).row (jumpCell a b).col = false

/-- A 5 x 5 position with three pawns: "p1" at (3, 1) to move, "p2" above it
at (2, 1) and "p3" beside it at (3, 0), on the left edge. -/
def threePawnState : GameState :=
  { boardSize := 5
    pawnPositions := [("p1", ⟨3, 1⟩), ("p2", ⟨2, 1⟩), ("p3", ⟨3, 0⟩)]
    wallsLeft := [("p1", 10), ("p2", 10), ("p3", 10)]
    placedWalls := []
    playerTurn := "p1"
    activePlayerIds := ["p1", "p2", "p3"]
    playerTurnIndex := 0
    status := "active"
    winner := ""
    zobristHash := 0 }

/-- Embeds `k` is the exact distance of `p` from `start`: it is reached by `k` legal
steps and by no fewer. -/
def ExactDist (placedWalls : List Wall) (boardSize : Int) (start : PawnPos) (k : Nat)
    (p : PawnPos) : Prop :=
  Reach placedWalls boardSize start k p ∧ ∀ k', Reach placedWalls boardSize start k' p → k ≤ k'

/-- What the specification asks of the result `r` of the shortest-path search:
`-1` when no goal cell is reachable, otherwise the least number of legal
steps to a goal cell. -/
def ShortestPathSpec (placedWalls : List Wall) (boardSize : Int) (start : PawnPos)
    (goalCondition : Int → Int → Int → Bool) (r : Int) : Prop :=
  (r = -1 ∧ ¬GoalReachable placedWalls boardSize start goalCondition) ∨
  (∃ k : Nat, r = k ∧
    (∃ p, Reach placedWalls boardSize start k p ∧ goalCondition p.row p.col boardSize = true) ∧
    ∀ k' p, Reach placedWalls boardSize start k' p →
      goalCondition p.row p.col boardSize = true → k ≤ k')

/-- The state of the search while the neighbours `pending` of the dequeued
cell `u` at distance `d` remain to be scanned. -/
structure ScanInv (placedWalls : List Wall) (boardSize : Int) (start : PawnPos)
    (goalCondition : Int → Int → Int → Bool) (visited : Visited) (u : PawnPos) (d : Int)
    (queue : List (PawnPos × Int)) (pending : List PawnPos) : Prop where
  start_mem : start ∈ visited
  marked : ∀ p ∈ visited, OnBoard boardSize p ∧ goalCondition p.row p.col boardSize = false
  nodup : visited.Nodup
  cur_mem : u ∈ visited
  cur_dist : ∃ k : Nat, d = k ∧ ExactDist placedWalls boardSize start k u
  queued : ∀ e ∈ queue, e.1 ∈ visited ∧
    (∃ k : Nat, e.2 = k ∧ ExactDist placedWalls boardSize start k e.1) ∧ d ≤ e.2 ∧ e.2 ≤ d + 1
  sorted : queue.Pairwise (fun e f => e.2 ≤ f.2)
  closed : ∀ p ∈ visited, p = u ∨ (∃ e ∈ queue, e.1 = p) ∨
    ∀ w, StepOk placedWalls boardSize p w → w ∈ visited
  scanned : ∀ w, StepOk placedWalls boardSize u w → w ∈ pending ∨ w ∈ visited
  pending_nbrs : ∀ w ∈ pending, w ∈ neighbors u

/-- The state of the search between two iterations of the `while` loop. -/
structure LoopInv (placedWalls : List Wall) (boardSize : Int) (start : PawnPos)
    (goalCondition : Int → Int → Int → Bool) (visited : Visited)
    (queue : List (PawnPos × Int)) : Prop where
  start_mem : start ∈ visited
  marked : ∀ p ∈ visited, OnBoard boardSize p ∧ goalCondition p.row p.col boardSize = false
  nodup : visited.Nodup
  queued : ∀ e ∈ queue, e.1 ∈ visited ∧
    ∃ k : Nat, e.2 = k ∧ ExactDist placedWalls boardSize start k e.1
  sorted : queue.Pairwise (fun e f => e.2 ≤ f.2)
  level : ∀ h ∈ queue.head?, ∀ e ∈ queue, e.2 ≤ h.2 + 1
  closed : ∀ p ∈ visited, (∃ e ∈ queue, e.1 = p) ∨
    ∀ w, StepOk placedWalls boardSize p w → w ∈ visited

/-- The cells of the `visited` array. -/
def arrayCells : List PawnPos :=
  (List.range 11).flatMap (fun (r : Nat) =>
    (List.range 11).map (fun (c : Nat) => PawnPos.mk (Int.ofNat r) (Int.ofNat c)))

/-- The result of scanning the pending neighbours. -/
def ScanPost (walls : List Wall) (n : Int) (start : PawnPos) (goal : Int → Int → Int → Bool)
    (v : Visited) (u : PawnPos) (d : Int) (q : List (PawnPos × Int)) : Scan → Prop
  | Scan.found r => ShortestPathSpec walls n start goal r
  | Scan.next v1 q1 =>
    ScanInv walls n start goal v1 u d q1 [] ∧ v1.length + q.length = v.length + q1.length

/-- A 5 x 5 state in which the player to move, "p1", has no entry in
`pawnPositions`; the only pawn belongs to the active player "p2", and
`zobristHash` is the value `computeHash` gives. -/
def noPawnState : GameState :=
  { boardSize := 5
    pawnPositions := [("p2", ⟨0, 2⟩)]
    wallsLeft := [("p1", 10), ("p2", 10)]
    placedWalls := []
    playerTurn := "p1"
    activePlayerIds := ["p1", "p2"]
    playerTurnIndex := 0
    status := "active"
    winner := ""
    zobristHash := 6072378777679754269 }

/-- The 5 x 5 opening of the seats "p1" (at (4, 2), to move) and "p3" (at
(0, 2)) with two walls each; `zobristHash` is the value `computeHash` gives. -/
def twoSeatState : GameState :=
  { boardSize := 5
    pawnPositions := [("p1", ⟨4, 2⟩), ("p3", ⟨0, 2⟩)]
    wallsLeft := [("p1", 2), ("p3", 2)]
    placedWalls := []
    playerTurn := "p1"
    activePlayerIds := ["p1", "p3"]
    playerTurnIndex := 0
    status := "active"
    winner := ""
    zobristHash := 8540388197107334599 }

/-- The roster of `twoSeatState`. -/
def twoSeatRoster : List Player := [playerOfId "p1", playerOfId "p3"]

/-- The hash of a position as a function of the four fields `computeHash`
reads, with the three XOR folds separated. -/
def hashOf (pawnPositions : StrMap PawnPos) (activePlayerIds : List String)
    (placedWalls : List Wall) (playerTurnIndex : Int) : Option Nat :=
  (Zobrist.xorKeys ((StrMap.entries pawnPositions).map (Zobrist.pawnKeyOf activePlayerIds)) 0).bind
    (fun x => (Zobrist.xorKeys (placedWalls.map Zobrist.wallKey) 0).bind
      (fun w => (Zobrist.turnKeys playerTurnIndex).map (fun kt => (x ^^^ w) ^^^ kt)))

/-- The flags of the alpha-beta claim: alpha-beta on, null-move pruning and
table off. -/
def alphaBetaOnly : Flags := ⟨true, false, false⟩

/-- A static evaluation that `negamax` and `minimax` adjust alike: a mate score
`±INT_MAX` or a score outside the mate range of `negamax`. -/
def tameEval (e : Int) : Bool :=
  decide (e = INT_MAX) || decide (e = -INT_MAX) || (decide (-900000 ≤ e) && decide (e ≤ 900000))

/-- The static evaluation of the state, if defined, is tame. -/
def tameNode (players : List Player) (s : GameState) : Bool :=
  match evaluate s players with
  | some e => tameEval e
  | none => true

/-- Every position of the search tree of the given depth below `s` has a tame
static evaluation. -/
def tameTree (players : List Player) : Nat → GameState → Bool
  | 0, s => tameNode players s
  | d + 1, s =>
    tameNode players s &&
      match generateAndOrderMoves s players with
      | none => true
      | some moves =>
        moves.all (fun m =>
          match applyMove s m players with
          | none => true
          | some s1 => tameTree players d s1)

/-- The contract of a fail-soft alpha-beta result `r` for the window
`(α, β)` and the exact value: at or below `α` it is an upper bound, at or
above `β` a lower bound, and inside the window it is exact. -/
def FailSoft (α β exact r : Int) : Prop :=
  (r ≤ α → exact ≤ r) ∧ (β ≤ r → r ≤ exact) ∧ (α < r → r < β → r = exact)

/-- A 3 x 3 position with 2000 walls left for either player. -/
def richState : GameState :=
  { boardSize := 3
    pawnPositions := [("p1", ⟨2, 1⟩), ("p3", ⟨0, 1⟩)]
    wallsLeft := [("p1", 2000), ("p3", 2000)]
    placedWalls := []
    playerTurn := "p1"
    activePlayerIds := ["p1", "p3"]
    playerTurnIndex := 0
    status := "active"
    winner := ""
    zobristHash := 0 }

/-- The `color` of a node: 1 at a maximizing node, -1 at a minimizing one. -/
def colorOf (maximizingPlayer : Bool) : Int := if maximizingPlayer then 1 else -1

/-- A 3 x 3 position of the seats "p1" (at (2, 0), to move, goal row 0) and
"p2" (at (1, 1), goal column 0) with one wall each. -/
def cornerState : GameState :=
  { boardSize := 3
    pawnPositions := [("p1", ⟨2, 0⟩), ("p2", ⟨1, 1⟩)]
    wallsLeft := [("p1", 1), ("p2", 1)]
    placedWalls := []
    playerTurn := "p1"
    activePlayerIds := ["p1", "p2"]
    playerTurnIndex := 0
    status := "active"
    winner := ""
    zobristHash := 0 }

/-- The roster of `cornerState`. -/
def cornerRoster : List Player := [playerOfId "p1", playerOfId "p2"]

/-- The pawn positions of a 5 x 5 game in which "p2" has left the rotation but
still has an entry: "p1" at (3, 1), "p2" at (2, 1), "p3" at (0, 0). -/
def idlePawnPositions : StrMap PawnPos := [("p1", ⟨3, 1⟩), ("p2", ⟨2, 1⟩), ("p3", ⟨0, 0⟩)]

/-- What the wall loop of `generateAndOrderMoves` establishes before it pushes
the scored entry `e` for the candidate `wall`: the placement is legal, the
mover's path with the wall is found and not longer than `initialMyPath`, the
path of the opponent `opponentId` with the wall is found and longer than
`initialOpponentPath`, and the score is the emergency or the ordinary one. -/
def WallEntry (state : GameState) (players : List Player) (myPos : PawnPos)
    (myPlayer : Player) (initialMyPath : Int) (opponentId : String) (opponentPlayer : Player)
    (initialOpponentPath : Int) (wall : Wall) (e : Move × Int) : Prop :=
  ∃ newMyPath oppPos newOpponentPath,
    e.1 = Move.wallMove wall ∧
    isWallPlacementLegal wall state players = some true ∧
    getShortestPathLength myPos myPlayer.goalCondition (state.placedWalls ++ [wall])
      state.boardSize = some newMyPath ∧
    newMyPath ≠ -1 ∧ newMyPath ≤ initialMyPath ∧
    StrMap.find state.pawnPositions opponentId = some oppPos ∧
    getShortestPathLength oppPos opponentPlayer.goalCondition (state.placedWalls ++ [wall])
      state.boardSize = some newOpponentPath ∧
    newOpponentPath ≠ -1 ∧ initialOpponentPath < newOpponentPath ∧
    e.2 = if initialOpponentPath ≤ 2 then 50000 + (newOpponentPath - initialOpponentPath) * 1000
      else (newOpponentPath - initialOpponentPath) * 200

/-- The player `id` is an opponent of `myId` that the threat loop measures:
active, not the mover, with the roster entry `player` and a pawn whose
shortest path to the goal of `player` is `path`, not -1. -/
def Opponent (state : GameState) (players : List Player) (myId id : String) (player : Player)
    (path : Int) : Prop :=
  id ∈ state.activePlayerIds ∧ id ≠ myId ∧ findPlayer players id = some player ∧
    ∃ pos, StrMap.find state.pawnPositions id = some pos ∧
      getShortestPathLength pos player.goalCondition state.placedWalls state.boardSize =
        some path ∧ path ≠ -1

/-- The pawns of the active players are on the board. -/
def ActivePawnsOnBoard (state : GameState) : Prop :=
  ∀ id ∈ state.activePlayerIds, ∀ pos, StrMap.find state.pawnPositions id = some pos →
    OnBoard state.boardSize pos

/-- What the pawn loop of `generateAndOrderMoves` establishes when it pushes the
scored entry `e`: a cell move to a destination of `calculateLegalPawnMoves`,
scored `INT_MAX` when the destination satisfies the goal and by the progress
toward the goal otherwise. -/
def PawnEntry (state : GameState) (players : List Player) (myPlayer : Player)
    (initialMyPath : Int) (e : Move × Int) : Prop :=
  ∃ pos ∈ calculateLegalPawnMoves state.pawnPositions state.placedWalls players
      state.activePlayerIds state.playerTurnIndex state.boardSize,
    ∃ newMyPath, e.1 = Move.cell pos ∧
      getShortestPathLength pos myPlayer.goalCondition state.placedWalls state.boardSize =
        some newMyPath ∧
      e.2 = if myPlayer.goalCondition pos.row pos.col state.boardSize then INT_MAX
        else 10000 + (initialMyPath - newMyPath) * 100

/-- The move is a cell move to a destination that satisfies the goal. -/
def WinningMove (goalCondition : Int → Int → Int → Bool) (boardSize : Int) (m : Move) : Prop :=
  m.type = "cell" ∧ goalCondition m.pos.row m.pos.col boardSize = true

/-- A 5 x 5 position of the seats "p1" and "p3": "p1", to move, stands at
(1, 2), one step from its goal row 0, and "p3" at (2, 0), two steps from its
goal row 4; no walls are placed and each has two left. -/
def nearGoalState : GameState :=
  { boardSize := 5
    pawnPositions := [("p1", ⟨1, 2⟩), ("p3", ⟨2, 0⟩)]
    wallsLeft := [("p1", 2), ("p3", 2)]
    placedWalls := []
    playerTurn := "p1"
    activePlayerIds := ["p1", "p3"]
    playerTurnIndex := 0
    status := "active"
    winner := ""
    zobristHash := 0 }

/-- The snapshot can be hashed and searched: the board fits the `visited`
array, the turn index is valid, every binding of `pawnPositions` belongs to an
active player and lies on the board, and every placed wall lies in the 10 x 10
range of the wall keys. -/
def SnapshotOk (snapshot : GameState) : Prop :=
  snapshot.boardSize ≤ 11 ∧ TurnOk snapshot ∧
  (∀ e ∈ StrMap.entries snapshot.pawnPositions,
    e.1 ∈ snapshot.activePlayerIds ∧ OnBoard snapshot.boardSize e.2) ∧
  ∀ w ∈ snapshot.placedWalls, 0 ≤ w.row ∧ w.row < 10 ∧ 0 ≤ w.col ∧ w.col < 10

/-- A 5 x 5 position in which the pawn of the mover "p1" at (2, 2) is enclosed
by four walls and "p1" has no wall left. -/
def enclosedState : GameState :=
  { boardSize := 5
    pawnPositions := [("p1", ⟨2, 2⟩), ("p3", ⟨0, 2⟩)]
    wallsLeft := [("p1", 0), ("p3", 6)]
    placedWalls := [⟨1, 1, "horizontal"⟩, ⟨2, 2, "horizontal"⟩, ⟨2, 1, "vertical"⟩,
      ⟨1, 2, "vertical"⟩]
    playerTurn := "p1"
    activePlayerIds := ["p1", "p3"]
    playerTurnIndex := 0
    status := "active"
    winner := ""
    zobristHash := 0 }

/-- A 5 x 5 position in which the mover "p1" is on the roster and in the
rotation but has no entry in `pawnPositions`, and has no wall left. -/
def pawnlessState : GameState :=
  { boardSize := 5
    pawnPositions := [("p2", ⟨0, 2⟩)]
    wallsLeft := [("p1", 0), ("p2", 10)]
    placedWalls := []
    playerTurn := "p1"
    activePlayerIds := ["p1", "p2"]
    playerTurnIndex := 0
    status := "active"
    winner := ""
    zobristHash := 0 }

/-- Truncation of a rational number toward zero. -/
def truncToZero (q : ℚ) : Int := if 0 ≤ q then ⌊q⌋ else ⌈q⌉

/-- The walls consumed so far, as the specification counts them: ten per
active player minus the sum of all `wallsLeft` entries. -/
def wallsConsumed (state : GameState) : Int :=
  10 * (state.activePlayerIds.length : Int) -
    ((StrMap.entries state.wallsLeft).map (fun pair => pair.2)).sum

/-- The score in the words of the specification, in exact rational
arithmetic: the truncated difference of the two powers of two plus the walls
left times the multiplier. -/
def evaluateFormula (myPath threatPath wallsLeft consumed : Int) : Int :=
  truncToZero ((2 : ℚ) ^ (16 - myPath) - (2 : ℚ) ^ (16 - threatPath)) +
    wallsLeft * (5 + Int.tdiv (40 - consumed) 4)

/-- The integer is representable as a 32-bit `int`. -/
def InInt32 (x : Int) : Prop := -2147483648 ≤ x ∧ x ≤ 2147483647

/-- The score of the specification with the wall score and the final sum
computed as the code computes them, every operation in 32-bit `int`. -/
def score32 (pathPart wallsLeft consumed : Int) : Int :=
  int32 (pathPart + int32 (wallsLeft * int32 (5 + Int.tdiv (int32 (40 - int32 consumed)) 4)))

/-- The 5 x 5 opening of the seats "p1" and "p3" with 100000 walls left each. -/
def hoardState : GameState :=
  { twoSeatState with wallsLeft := [("p1", 100000), ("p3", 100000)] }

/-- The threat path in the words of the specification: the least shortest
path length among the measured opponents, or the cap constant
`MAX_EXPECTED_PATH` when there is none. -/
def ThreatPath (state : GameState) (players : List Player) (threatPath : Int) : Prop :=
  (∃ id player, Opponent state players state.playerTurn id player threatPath ∧
    ∀ id1 player1 path1, Opponent state players state.playerTurn id1 player1 path1 →
      threatPath ≤ path1) ∨
  ((¬∃ id player path, Opponent state players state.playerTurn id player path) ∧
    threatPath = MAX_EXPECTED_PATH)

/-- The roster of the four seats. -/
def fourSeatRoster : List Player :=
  [playerOfId "p1", playerOfId "p2", playerOfId "p3", playerOfId "p4"]

/-- A 9 x 9 position of four players with 24 walls placed: six rows of
horizontal walls, open alternately at column 8 and at column 0, lie between
the mover "p1" at (8, 0) and its goal row 0, which it reaches in 56 steps;
"p2" at (0, 1) is one step from its goal column 0. -/
def mazeState : GameState :=
  { boardSize := 9
    pawnPositions := [("p1", ⟨8, 0⟩), ("p2", ⟨0, 1⟩), ("p3", ⟨0, 4⟩), ("p4", ⟨1, 5⟩)]
    wallsLeft := [("p1", 4), ("p2", 4), ("p3", 4), ("p4", 4)]
    placedWalls := [
      ⟨7, 0, "horizontal"⟩, ⟨7, 2, "horizontal"⟩, ⟨7, 4, "horizontal"⟩, ⟨7, 6, "horizontal"⟩,
      ⟨6, 1, "horizontal"⟩, ⟨6, 3, "horizontal"⟩, ⟨6, 5, "horizontal"⟩, ⟨6, 7, "horizontal"⟩,
      ⟨5, 0, "horizontal"⟩, ⟨5, 2, "horizontal"⟩, ⟨5, 4, "horizontal"⟩, ⟨5, 6, "horizontal"⟩,
      ⟨4, 1, "horizontal"⟩, ⟨4, 3, "horizontal"⟩, ⟨4, 5, "horizontal"⟩, ⟨4, 7, "horizontal"⟩,
      ⟨3, 0, "horizontal"⟩, ⟨3, 2, "horizontal"⟩, ⟨3, 4, "horizontal"⟩, ⟨3, 6, "horizontal"⟩,
      ⟨2, 1, "horizontal"⟩, ⟨2, 3, "horizontal"⟩, ⟨2, 5, "horizontal"⟩, ⟨2, 7, "horizontal"⟩]
    playerTurn := "p1"
    activePlayerIds := ["p1", "p2", "p3", "p4"]
    playerTurnIndex := 0
    status := "active"
    winner := ""
    zobristHash := 0 }

/-- The score moved toward zero by `ply` when it lies in the mate range, in
the words of the specification. -/
def towardZero (score ply : Int) : Int :=
  if score > 900000 then score - ply else if score < -900000 then score + ply else score

/-- The 5 x 5 game of the seats "p1" and "p3" after "p1" has reached row 0
and won: the status is "ended" and the turn has not advanced. -/
def wonState : GameState :=
  { boardSize := 5
    pawnPositions := [("p1", ⟨0, 2⟩), ("p3", ⟨2, 0⟩)]
    wallsLeft := [("p1", 2), ("p3", 2)]
    placedWalls := []
    playerTurn := "p1"
    activePlayerIds := ["p1", "p3"]
    playerTurnIndex := 0
    status := "ended"
    winner := "p1"
    zobristHash := 0 }

/-- No node of the search tree of `depth` plies below `state` meets the gate of
the null move: at every node the remaining depth is below 4 or the mover has a
`wallsLeft` entry that is not positive. -/
def NoGate (players : List Player) : Nat → GameState → Prop
  | 0, _ => True
  | depth + 1, state =>
    (depth + 1 < 4 ∨
      ∃ left, StrMap.find state.wallsLeft state.playerTurn = some left ∧ left ≤ 0) ∧
    ∀ moves, generateAndOrderMoves state players = some moves →
      ∀ m ∈ moves, ∀ nextState, applyMove state m players = some nextState →
        NoGate players depth nextState

/-- The flag of a stored entry in the words of the specification, relative to
a window `(alpha, beta)`: UpperBound at or below `alpha`, LowerBound at or
above `beta`, Exact otherwise. -/
def storedFlag (value alpha beta : Int) : TTFlag :=
  if value ≤ alpha then TTFlag.UPPERBOUND
  else if value ≥ beta then TTFlag.LOWERBOUND
  else TTFlag.EXACT

/-- The upper end of the window after the table lookup: `beta`, lowered to the
score of an `UPPERBOUND` entry of sufficient depth found under the hash. -/
def probedBeta (table : Table) (hash : Nat) (depth beta ply : Int) : Int :=
  match List.lookup hash table with
  | some entry =>
    if entry.depth ≥ depth ∧ entry.flag = TTFlag.UPPERBOUND then
      min beta (plyAdjust entry.score ply)
    else beta
  | none => beta

/-- A table that binds the hash of `twoSeatState` to an upper bound of -5000
found at depth 1. -/
def boundTable : Table := [(8540388197107334599, ⟨-5000, 1, TTFlag.UPPERBOUND⟩)]

/-- The iterative-deepening loop of `findBestMove` with its root move list made
visible: the same iterations as `deepenLoop`, recording after each one the
best move of the iteration and the reordered root move list. -/
def deepenTrace (state : GameState) (players : List Player) (flags : Flags) :
    Nat → Nat → List Move → Table → Option (List (Move × List Move))
  | 0, _, _, _ => some []
  | count + 1, depth, movesToSearch, table =>
    match movesToSearch with
    | [] => none
    | first :: _ =>
      match rootLoop state players flags depth movesToSearch first (-INT_MAX) table with
      | none => none
      | some (bestMoveThisIteration, _, table1) =>
        match moveToFront movesToSearch bestMoveThisIteration with
        | none => none
        | some reordered =>
          (deepenTrace state players flags count (depth + 1) reordered table1).map
            (fun later => (bestMoveThisIteration, reordered) :: later)

/-- Each recorded list is the list before it with one move, equal to the best
move of the iteration under `Move::operator==`, taken out and put in front,
the other moves in their previous order. -/
def OrderKept : List Move → List (Move × List Move) → Prop
  | _, [] => True
  | previous, (best, next) :: later =>
    (∃ x before after, previous = before ++ x :: after ∧ next = x :: (before ++ after) ∧
      Move.eq x best = true) ∧
    OrderKept next later

/-- A `wallsLeft` map with 40002 entries, each of 10 walls: the seats "p1" and
"p3" and 40000 further ids "w", "ww", "www", ... -/
def crowdedWalls : StrMap Int :=
  ("p1", 10) :: ("p3", 10) ::
    (List.range 40000).map (fun (i : Nat) => (String.mk (List.replicate (i + 1) 'w'), (10 : Int)))

/-- The 5 x 5 opening of the seats "p1" and "p3" with the `wallsLeft` map
`crowdedWalls`. -/
def crowdedState : GameState :=
  { boardSize := 5
    pawnPositions := [("p1", ⟨4, 2⟩), ("p3", ⟨0, 2⟩)]
    wallsLeft := crowdedWalls
    placedWalls := []
    playerTurn := "p1"
    activePlayerIds := ["p1", "p3"]
    playerTurnIndex := 0
    status := "active"
    winner := ""
    zobristHash := 0 }

/-- The state can be searched: the board fits the `visited` array, the turn
index is valid and names the mover, the roster is at least as long as the
rotation, and every active player has a roster entry, a pawn on the board and
a `wallsLeft` entry. -/
def SearchOk (state : GameState) (players : List Player) : Prop :=
  state.boardSize ≤ 11 ∧ TurnOk state ∧
  vecAt state.activePlayerIds state.playerTurnIndex = some state.playerTurn ∧
  (state.activePlayerIds.length : Int) ≤ players.length ∧
  ∀ id ∈ state.activePlayerIds,
    (∃ player, findPlayer players id = some player) ∧
    (∃ pos, StrMap.find state.pawnPositions id = some pos ∧ OnBoard state.boardSize pos) ∧
    ∃ left, StrMap.find state.wallsLeft id = some left

/-- A 4 x 4 position of three players in which the mover "p3" at (1, 1) has
"p1" to its west at (1, 0) and "p2" to its north at (0, 1), both on the edge,
so that both straight jumps leave the board and the lateral cell (0, 0) is
offered once for each neighbour; only "p2" has a wall left. -/
def pincerState : GameState :=
  { boardSize := 4
    pawnPositions := [("p3", ⟨1, 1⟩), ("p1", ⟨1, 0⟩), ("p2", ⟨0, 1⟩)]
    wallsLeft := [("p1", 0), ("p2", 1), ("p3", 0)]
    placedWalls := []
    playerTurn := "p3"
    activePlayerIds := ["p3", "p1", "p2"]
    playerTurnIndex := 0
    status := "active"
    winner := ""
    zobristHash := 0 }

/-- The roster of `pincerState`. -/
def pincerRoster : List Player := [playerOfId "p3", playerOfId "p1", playerOfId "p2"]

/-- The root loop of `findBestMove` with the searched moves made visible: the
same calls as `rootLoop`, recording each move passed to `negamax` with the
value found for it. -/
def rootSearched (state : GameState) (players : List Player) (flags : Flags) (depth : Nat) :
    List Move → Table → Option (List (Move × Int))
  | [], _ => some []
  | move :: rest, table =>
    match applyMove state move players with
    | none => none
    | some nextState =>
      match negamax players flags depth nextState (-INT_MAX) INT_MAX (-1) 1 table with
      | none => none
      | some (v, table1) =>
        (rootSearched state players flags depth rest table1).map
          (fun later => (move, -v) :: later)

/-- Every roster entry has one of the ids for which `jsToCppPlayers` sets a
goal condition. -/
def SeatIds (players : List Player) : Prop :=
  ∀ p ∈ players, p.id = "p1" ∨ p.id = "p2" ∨ p.id = "p3" ∨ p.id = "p4"

set_option maxRecDepth 10000000

/-! ## Wall blocking -/

/-- C10: for every wall list and every orthogonal unit step, `isWallBetween`
is true exactly when the list holds a horizontal wall `(wr, wc)` with the step
crossing between rows `wr` and `wr + 1` at column `wc` or `wc + 1`, or a
vertical wall `(wr, wc)` with the step crossing between columns `wc` and
`wc + 1` at row `wr` or `wr + 1`. -/
theorem isWallBetween_iff_severed (placedWalls : List Wall) (r1 c1 r2 c2 : Int)
    (hstep : UnitStep r1 c1 r2 c2) :
    isWallBetween placedWalls r1 c1 r2 c2 = true ↔ ∃ w ∈ placedWalls, WallSevers w r1 c1 r2 c2 := by
  unfold isWallBetween
  have hv : ("vertical" : String) ≠ "horizontal" := by decide
  rcases hstep with ⟨hc, hr⟩ | ⟨hr, hc⟩
  · subst hc
    have hne : r1 ≠ r2 := by omega
    simp only [if_true, List.any_eq_true, Bool.and_eq_true, Bool.or_eq_true, decide_eq_true_eq]
    constructor
    · rintro ⟨w, hw, ⟨ho, hrow⟩, hcol⟩
      refine ⟨w, hw, Or.inl ⟨ho, ?_, rfl, ?_⟩⟩
      · unfold Crosses; rcases hr with h | h <;> [left; right] <;> constructor <;> omega
      · omega
    · rintro ⟨w, hw, ⟨ho, hcr, -, hcol⟩ | ⟨-, hcr, h, -⟩⟩
      · refine ⟨w, hw, ⟨ho, ?_⟩, ?_⟩
        · unfold Crosses at hcr; omega
        · omega
      · exact absurd h hne
  · subst hr
    have hne : c1 ≠ c2 := by omega
    simp only [if_neg hne, if_true, List.any_eq_true, Bool.and_eq_true, Bool.or_eq_true,
      decide_eq_true_eq]
    constructor
    · rintro ⟨w, hw, ⟨ho, hcol⟩, hrow⟩
      refine ⟨w, hw, Or.inr ⟨ho, ?_, rfl, ?_⟩⟩
      · unfold Crosses; rcases hc with h | h <;> [left; right] <;> constructor <;> omega
      · omega
    · rintro ⟨w, hw, ⟨-, hcr, h, -⟩ | ⟨ho, hcr, -, hrow⟩⟩
      · exact absurd h hne
      · refine ⟨w, hw, ⟨ho, ?_⟩, ?_⟩
        · unfold Crosses at hcr; omega
        · omega

/-- C10, at the step from (1, 1) down to (2, 1) under the horizontal wall (1, 0). -/
theorem isWallBetween_iff_severed_witness :
    UnitStep 1 1 2 1 ∧
    (isWallBetween [⟨1, 0, "horizontal"⟩] 1 1 2 1 = true ↔
      ∃ w ∈ [(⟨1, 0, "horizontal"⟩ : Wall)], WallSevers w 1 1 2 1) :=
  ⟨by unfold UnitStep; decide, isWallBetween_iff_severed _ 1 1 2 1 (by unfold UnitStep; decide)⟩

/-! ## State transition -/

theorem keyTable_length : Zobrist.keyTable.length = 688 := by rfl

theorem keyTable_get?_some (n : Nat) (h : n < 688) : ∃ k, Zobrist.keyTable.get? n = some k := by
  have hl : n < Zobrist.keyTable.length := by rw [keyTable_length]; exact h
  exact ⟨Zobrist.keyTable.get ⟨n, hl⟩, List.get?_eq_get hl⟩

/-- The key table holds the first 688 values of the generator seeded with
`0xBADF00D`, in the order `Zobrist::initialize` draws them. -/
theorem keyTable_eq_gen : Zobrist.keyTable = (List.range 688).map Zobrist.gen := by
  decide!

theorem turnKeys_some (p : Int) (h0 : 0 ≤ p) (h4 : p < 4) : ∃ k, Zobrist.turnKeys p = some k := by
  unfold Zobrist.turnKeys
  rw [if_pos ⟨h0, by simpa [MAX_PLAYERS] using h4⟩]
  exact keyTable_get?_some _ (by omega)

theorem pawnKeys_some (p r c : Int) (hp : 0 ≤ p ∧ p < 4) (hr : 0 ≤ r ∧ r < 11)
    (hc : 0 ≤ c ∧ c < 11) : ∃ k, Zobrist.pawnKeys p r c = some k := by
  unfold Zobrist.pawnKeys
  rw [if_pos (by simp only [MAX_PLAYERS, MAX_BOARD_SIZE]; omega)]
  exact keyTable_get?_some _ (by omega)

theorem wallKey_some (w : Wall) (hr : 0 ≤ w.row ∧ w.row < 10) (hc : 0 ≤ w.col ∧ w.col < 10) :
    ∃ k, Zobrist.wallKey w = some k := by
  unfold Zobrist.wallKey Zobrist.h_wallKeys Zobrist.v_wallKeys
  have hin : 0 ≤ w.row ∧ w.row < MAX_BOARD_SIZE - 1 ∧ 0 ≤ w.col ∧ w.col < MAX_BOARD_SIZE - 1 := by
    simp only [MAX_BOARD_SIZE]; omega
  rw [if_pos hin, if_pos hin]
  split
  · exact keyTable_get?_some _ (by omega)
  · exact keyTable_get?_some _ (by omega)

theorem vecAt_some {α : Type} (v : List α) (i : Int) (h0 : 0 ≤ i) (hl : i < v.length) :
    ∃ x, vecAt v i = some x := by
  unfold vecAt
  rw [if_pos h0]
  have : i.toNat < v.length := by omega
  exact ⟨v.get ⟨i.toNat, this⟩, List.get?_eq_get this⟩

theorem switchTurn_spec (g : GameState) (h : TurnOk g) :
    ∃ s kOut kIn, switchTurn g = some s ∧
      Zobrist.turnKeys g.playerTurnIndex = some kOut ∧
      Zobrist.turnKeys ((g.playerTurnIndex + 1) % (g.activePlayerIds.length : Int)) = some kIn ∧
      s.zobristHash = (g.zobristHash ^^^ kOut) ^^^ kIn ∧
      s.playerTurnIndex = (g.playerTurnIndex + 1) % (g.activePlayerIds.length : Int) ∧
      vecAt g.activePlayerIds s.playerTurnIndex = some s.playerTurn ∧
      s.boardSize = g.boardSize ∧ s.pawnPositions = g.pawnPositions ∧
      s.wallsLeft = g.wallsLeft ∧ s.placedWalls = g.placedWalls ∧
      s.activePlayerIds = g.activePlayerIds ∧ s.status = g.status ∧ s.winner = g.winner := by
  obtain ⟨h0, hl, h4⟩ := h
  have hpos : (0 : Int) < g.activePlayerIds.length := by omega
  have hm0 := Int.emod_nonneg (g.playerTurnIndex + 1) (ne_of_gt hpos)
  have hml := Int.emod_lt_of_pos (g.playerTurnIndex + 1) hpos
  obtain ⟨kOut, hOut⟩ := turnKeys_some g.playerTurnIndex h0 (by omega)
  obtain ⟨kIn, hIn⟩ := turnKeys_some _ hm0 (by omega)
  obtain ⟨id, hid⟩ := vecAt_some g.activePlayerIds _ hm0 hml
  have hwrap : (g.playerTurnIndex + 1) % 2 ^ 32 = g.playerTurnIndex + 1 := by
    apply Int.emod_eq_of_lt <;> omega
  have hlen : g.activePlayerIds.length ≠ 0 := by omega
  refine ⟨{ g with
      zobristHash := (g.zobristHash ^^^ kOut) ^^^ kIn
      playerTurnIndex := (g.playerTurnIndex + 1) % (g.activePlayerIds.length : Int)
      playerTurn := id }, kOut, kIn, ?_, hOut, hIn, rfl, rfl, hid, rfl, rfl, rfl, rfl, rfl, rfl, rfl⟩
  unfold switchTurn
  simp only [hOut, hlen, if_false, hwrap, hid, hIn]

theorem StrMap.find_filter_ne {α : Type} (m : StrMap α) (k k' : String) (h : k' ≠ k) :
    StrMap.find (m.filter (fun e => !decide (e.1 = k))) k' = StrMap.find m k' := by
  unfold StrMap.find
  induction m with
  | nil => rfl
  | cons e rest ih =>
    obtain ⟨a, b⟩ := e
    by_cases ha : a = k
    · subst ha
      have hk : (k' == a) = false := by simpa using h
      simp [List.filter_cons, List.lookup_cons, hk, ih]
    · by_cases hk : k' = a
      · subst hk
        simp [List.filter_cons, List.lookup_cons, ha]
      · have hk' : (k' == a) = false := by simpa using hk
        simp [List.filter_cons, List.lookup_cons, ha, hk', ih]

theorem StrMap.find_assign_self {α : Type} (m : StrMap α) (k : String) (v : α) :
    StrMap.find (StrMap.assign m k v) k = some v := by
  simp [StrMap.find, StrMap.assign, List.lookup_cons]

theorem StrMap.find_assign_ne {α : Type} (m : StrMap α) (k k' : String) (v : α) (h : k' ≠ k) :
    StrMap.find (StrMap.assign m k v) k' = StrMap.find m k' := by
  have hk : (k' == k) = false := by simpa using h
  have := StrMap.find_filter_ne m k k' h
  unfold StrMap.find at this ⊢
  simp [StrMap.assign, List.lookup_cons, hk, this]

/-- C8: a wall move appends the wall to `placedWalls`, lowers the mover's
`wallsLeft` by exactly one (a missing entry counts as 0, as `operator[]`
creates it), leaves every other player's count alone, advances the turn to
the next active player and leaves `pawnPositions`, `status`, `winner`,
`boardSize` and `activePlayerIds` unchanged.  The hypotheses are those under
which the call is defined: the turn index addresses `activePlayerIds` and the
turn keys, and the wall addresses the wall keys. -/
theorem applyMove_wall_effect (state : GameState) (m : Move) (players : List Player)
    (hm : m.type = "wall") (hturn : TurnOk state)
    (hrow : 0 ≤ m.wall.row ∧ m.wall.row < 10) (hcol : 0 ≤ m.wall.col ∧ m.wall.col < 10) :
    ∃ s, applyMove state m players = some s ∧
      s.placedWalls = state.placedWalls ++ [m.wall] ∧
      StrMap.find s.wallsLeft state.playerTurn =
        some ((StrMap.find state.wallsLeft state.playerTurn).getD 0 - 1) ∧
      (∀ id, id ≠ state.playerTurn → StrMap.find s.wallsLeft id = StrMap.find state.wallsLeft id) ∧
      s.playerTurnIndex = (state.playerTurnIndex + 1) % (state.activePlayerIds.length : Int) ∧
      vecAt state.activePlayerIds s.playerTurnIndex = some s.playerTurn ∧
      s.pawnPositions = state.pawnPositions ∧ s.status = state.status ∧
      s.winner = state.winner ∧ s.boardSize = state.boardSize ∧
      s.activePlayerIds = state.activePlayerIds := by
  obtain ⟨k, hk⟩ := wallKey_some m.wall hrow hcol
  have hne : m.type ≠ "cell" := by rw [hm]; decide
  obtain ⟨s, kOut, kIn, hsw, -, -, -, hidx, hid, hb, hp, hwl, hpw, ha, hst, hwin⟩ := switchTurn_spec
    { state with
      zobristHash := state.zobristHash ^^^ k
      placedWalls := state.placedWalls ++ [m.wall]
      wallsLeft := StrMap.assign state.wallsLeft state.playerTurn
        ((StrMap.find state.wallsLeft state.playerTurn).getD 0 - 1) } hturn
  have happ : applyMove state m players = some s := by
    unfold applyMove applyWallPlacement
    rw [if_neg hne, if_pos hm]
    simp only [hk]
    exact hsw
  refine ⟨s, happ, hpw, ?_, ?_, hidx, hid, hp, hst, hwin, hb, ha⟩
  · rw [hwl]; exact StrMap.find_assign_self _ _ _
  · intro id' hne'
    rw [hwl]; exact StrMap.find_assign_ne _ _ _ _ hne'

/-- A 5 x 5 position with three seats of which "p2" has left the game: "p3" is
to move, second in the rotation and third in the roster. -/
def threeSeatState : GameState :=
  { boardSize := 5
    pawnPositions := [("p1", ⟨4, 2⟩), ("p3", ⟨2, 1⟩)]
    wallsLeft := [("p1", 10), ("p2", 10), ("p3", 10)]
    placedWalls := []
    playerTurn := "p3"
    activePlayerIds := ["p1", "p3"]
    playerTurnIndex := 1
    status := "active"
    winner := ""
    zobristHash := 0 }

/-- The roster of `threeSeatState`. -/
def threeSeatRoster : List Player := [playerOfId "p1", playerOfId "p2", playerOfId "p3"]

/-- C8, at the wall (0, 0, horizontal) placed by "p3" in `threeSeatState`. -/
theorem applyMove_wall_effect_witness :
    ∃ s, applyMove threeSeatState (Move.wallMove ⟨0, 0, "horizontal"⟩) threeSeatRoster = some s ∧
      s.placedWalls = threeSeatState.placedWalls ++ [⟨0, 0, "horizontal"⟩] ∧
      StrMap.find s.wallsLeft "p3" = some (10 - 1) ∧
      s.playerTurnIndex = 0 ∧ s.playerTurn = "p1" := by
  obtain ⟨s, h1, h2, h3, -, h5, h6, -⟩ :=
    applyMove_wall_effect threeSeatState (Move.wallMove ⟨0, 0, "horizontal"⟩) threeSeatRoster rfl
      (by unfold TurnOk; decide) (by decide) (by decide)
  refine ⟨s, h1, h2, h3, h5, ?_⟩
  rw [h5] at h6
  exact (Option.some.inj h6).symm

/-- C7 (the code at the failing input): in `threeSeatState` the mover "p3" is
second in the rotation, so `applyPawnMove` tests the goal predicate of the
second roster entry, "p2".  The move to (2, 0) does not satisfy the goal of
"p3" (row 4), yet the game ends with "p3" as the winner and the turn is not
advanced. -/
theorem applyMove_pawn_goal_of_roster_index :
    (findPlayer threeSeatRoster "p3").map (fun p => p.goalCondition 2 0 5) = some false ∧
    (applyMove threeSeatState (Move.cell ⟨2, 0⟩) threeSeatRoster).map
      (fun s => (s.status, s.winner, s.playerTurn, s.playerTurnIndex)) =
      some ("ended", "p3", "p3", 1) := by
  constructor
  · decide
  · decide

/-! ## Wall placement -/

theorem pathExistsFor_eq_true (pos : PawnPos) (goal : Int → Int → Int → Bool)
    (walls : List Wall) (n : Int) :
    pathExistsFor pos goal walls n = some true ↔ pos.row = -1 ∨ FinitePath pos goal walls n := by
  unfold pathExistsFor FinitePath
  by_cases h : pos.row = -1
  · simp [h]
  · simp only [if_neg h, h, false_or]
    cases getShortestPathLength pos goal walls n with
    | none => simp
    | some d => simp

theorem allPathsExist_eq_true (pawns : StrMap PawnPos) (players : List Player)
    (walls : List Wall) (n : Int) (ids : List String) :
    allPathsExist pawns players walls n ids = some true ↔
      ∀ id ∈ ids, ∀ player pos, findPlayer players id = some player →
        StrMap.find pawns player.id = some pos →
        pathExistsFor pos player.goalCondition walls n = some true := by
  induction ids with
  | nil => simp [allPathsExist]
  | cons id rest ih =>
    simp only [List.mem_cons, forall_eq_or_imp]
    rcases hp : findPlayer players id with _ | player
    · simp only [allPathsExist, hp, ih]
      constructor
      · intro h
        exact ⟨fun pl pos hpl => absurd hpl (by simp), h⟩
      · exact fun h => h.2
    · rcases hpos : StrMap.find pawns player.id with _ | pos
      · simp only [allPathsExist, hp, hpos, ih]
        constructor
        · intro h
          refine ⟨?_, h⟩
          intro pl pos hpl hf
          cases hpl
          rw [hpos] at hf
          exact absurd hf (by simp)
        · exact fun h => h.2
      · rcases hpe : pathExistsFor pos player.goalCondition walls n with _ | b
        · simp only [allPathsExist, hp, hpos, hpe, false_iff, not_and, reduceCtorEq]
          intro h
          have := h player pos rfl hpos
          rw [hpe] at this
          exact absurd this (by simp)
        · cases b
          · simp only [allPathsExist, hp, hpos, hpe, false_iff, not_and, Option.some.injEq,
              Bool.false_eq_true]
            intro h
            have := h player pos rfl hpos
            rw [hpe] at this
            exact absurd this (by simp)
          · simp only [allPathsExist, hp, hpos, hpe, ih]
            constructor
            · intro h
              refine ⟨?_, h⟩
              intro pl pos' hpl hf
              cases hpl
              rw [hpos] at hf
              cases hf
              exact hpe
            · exact fun h => h.2

theorem wallClash_iff (w p : Wall) :
    wallClash w p = true ↔ (p.row = w.row ∧ p.col = w.col) ∨ Colinear w p := by
  have habs : ∀ x : Int, x.natAbs < 2 ↔ |x| < 2 := by
    intro x
    rw [Int.abs_eq_natAbs]
    omega
  unfold wallClash Colinear
  simp only [Bool.or_eq_true, Bool.and_eq_true, decide_eq_true_eq, habs]
  tauto

/-- C9 (amended): when the mover has a `wallsLeft` entry, `isWallPlacementLegal`
returns true exactly when the mover has a wall left, the wall lies within
`[0, boardSize - 2]` in both coordinates, no placed wall shares its cell, no
placed wall of the same orientation lies on its line less than two apart, and
every active player that has a roster entry and a pawn either carries the
sentinel row -1 or has a finite shortest path to their goal once the wall is
added. -/
theorem isWallPlacementLegal_iff (w : Wall) (state : GameState) (players : List Player)
    (left : Int) (hleft : StrMap.find state.wallsLeft state.playerTurn = some left) :
    isWallPlacementLegal w state players = some true ↔
      0 < left ∧
      (0 ≤ w.row ∧ w.row ≤ state.boardSize - 2 ∧ 0 ≤ w.col ∧ w.col ≤ state.boardSize - 2) ∧
      (∀ p ∈ state.placedWalls, ¬(p.row = w.row ∧ p.col = w.col)) ∧
      (∀ p ∈ state.placedWalls, ¬Colinear w p) ∧
      (∀ id ∈ state.activePlayerIds, ∀ player pos, findPlayer players id = some player →
        StrMap.find state.pawnPositions player.id = some pos →
        pos.row = -1 ∨
          FinitePath pos player.goalCondition (state.placedWalls ++ [w]) state.boardSize) := by
  unfold isWallPlacementLegal
  simp only [hleft]
  by_cases h1 : left ≤ 0
  · simp only [if_pos h1]
    constructor
    · intro h; exact absurd h (by simp)
    · intro h; omega
  rw [if_neg h1]
  by_cases h2 : w.row < 0 ∨ w.row > state.boardSize - 2 ∨ w.col < 0 ∨ w.col > state.boardSize - 2
  · simp only [if_pos h2]
    constructor
    · intro h; exact absurd h (by simp)
    · intro h; omega
  rw [if_neg h2]
  by_cases h3 : state.placedWalls.any (wallClash w) = true
  · simp only [h3, if_true]
    constructor
    · intro h; exact absurd h (by simp)
    · rintro ⟨-, -, hc, hl, -⟩
      obtain ⟨p, hp, hcl⟩ := List.any_eq_true.mp h3
      rcases (wallClash_iff w p).mp hcl with h | h
      · exact absurd h (hc p hp)
      · exact absurd h (hl p hp)
  · simp only [h3, Bool.false_eq_true, if_false, allPathsExist_eq_true, pathExistsFor_eq_true]
    have hno : ∀ p ∈ state.placedWalls, ¬((p.row = w.row ∧ p.col = w.col) ∨ Colinear w p) := by
      intro p hp hcl
      exact h3 (List.any_eq_true.mpr ⟨p, hp, (wallClash_iff w p).mpr hcl⟩)
    constructor
    · intro h
      exact ⟨by omega, by omega, fun p hp hc => hno p hp (Or.inl hc),
        fun p hp hc => hno p hp (Or.inr hc), h⟩
    · exact fun h => h.2.2.2.2

/-- C9, at the wall (2, 1, vertical) in `threeSeatState`. -/
theorem isWallPlacementLegal_iff_witness :
    StrMap.find threeSeatState.wallsLeft threeSeatState.playerTurn = some 10 ∧
    (isWallPlacementLegal ⟨2, 1, "vertical"⟩ threeSeatState threeSeatRoster = some true ↔
      0 < (10 : Int) ∧
      (0 ≤ (2 : Int) ∧ (2 : Int) ≤ threeSeatState.boardSize - 2 ∧ 0 ≤ (1 : Int) ∧
        (1 : Int) ≤ threeSeatState.boardSize - 2) ∧
      (∀ p ∈ threeSeatState.placedWalls, ¬(p.row = 2 ∧ p.col = 1)) ∧
      (∀ p ∈ threeSeatState.placedWalls, ¬Colinear ⟨2, 1, "vertical"⟩ p) ∧
      (∀ id ∈ threeSeatState.activePlayerIds, ∀ player pos,
        findPlayer threeSeatRoster id = some player →
        StrMap.find threeSeatState.pawnPositions player.id = some pos →
        pos.row = -1 ∨ FinitePath pos player.goalCondition
          (threeSeatState.placedWalls ++ [⟨2, 1, "vertical"⟩]) threeSeatState.boardSize)) :=
  ⟨rfl, isWallPlacementLegal_iff ⟨2, 1, "vertical"⟩ threeSeatState threeSeatRoster 10 rfl⟩

/-- C2 (amended): if `isWallPlacementLegal` returns true, then with the wall
added every active player that has a roster entry and a pawn whose row is not
the sentinel -1 has a finite shortest path from the pawn to their goal. -/
theorem legal_wall_keeps_paths (w : Wall) (state : GameState) (players : List Player)
    (hlegal : isWallPlacementLegal w state players = some true)
    (id : String) (hid : id ∈ state.activePlayerIds) (player : Player) (pos : PawnPos)
    (hplayer : findPlayer players id = some player)
    (hpos : StrMap.find state.pawnPositions player.id = some pos) (hrow : pos.row ≠ -1) :
    FinitePath pos player.goalCondition (state.placedWalls ++ [w]) state.boardSize := by
  unfold isWallPlacementLegal at hlegal
  split at hlegal
  · exact absurd hlegal (by simp)
  · split at hlegal
    · exact absurd hlegal (by simp)
    · split at hlegal
      · exact absurd hlegal (by simp)
      · split at hlegal
        · exact absurd hlegal (by simp)
        · have h := (allPathsExist_eq_true _ _ _ _ _).mp hlegal id hid player pos hplayer hpos
          rcases (pathExistsFor_eq_true _ _ _ _).mp h with h | h
          · exact absurd h hrow
          · exact h

/-- C2, at the wall (2, 1, vertical) in `threeSeatState` for the player "p3". -/
theorem legal_wall_keeps_paths_witness :
    isWallPlacementLegal ⟨2, 1, "vertical"⟩ threeSeatState threeSeatRoster = some true ∧
    FinitePath ⟨2, 1⟩ (goalOfId "p3") ([] ++ [⟨2, 1, "vertical"⟩]) 5 :=
  ⟨by decide, legal_wall_keeps_paths ⟨2, 1, "vertical"⟩ threeSeatState threeSeatRoster
    (by decide) "p3" (by decide) (playerOfId "p3") ⟨2, 1⟩ rfl rfl (by decide)⟩

/-- C2 (counterexample): in `sentinelState` the wall (2, 1, vertical) is
accepted although the active player "p3", whose pawn carries the sentinel row
-1, has no finite shortest path: the search from that cell is not even
defined, since it starts outside the `visited` array. -/
theorem legal_wall_without_finite_path :
    isWallPlacementLegal ⟨2, 1, "vertical"⟩ sentinelState sentinelRoster = some true ∧
    "p3" ∈ sentinelState.activePlayerIds ∧
    (findPlayer sentinelRoster "p3").map (fun p => p.id) = some "p3" ∧
    StrMap.find sentinelState.pawnPositions "p3" = some ⟨-1, 0⟩ ∧
    ¬FinitePath ⟨-1, 0⟩ (goalOfId "p3")
      (sentinelState.placedWalls ++ [⟨2, 1, "vertical"⟩]) sentinelState.boardSize := by
  refine ⟨by decide, by decide, by decide, by decide, ?_⟩
  have h : getShortestPathLength ⟨-1, 0⟩ (goalOfId "p3")
      (sentinelState.placedWalls ++ [⟨2, 1, "vertical"⟩]) sentinelState.boardSize = none := by
    decide
  unfold FinitePath
  rw [h]
  simp

theorem sentinel_step_closed (p q : PawnPos) (hp : p.row ≤ 0)
    (hstep : StepOk (sentinelState.placedWalls ++ [⟨2, 1, "vertical"⟩]) 4 p q) : q.row ≤ 0 := by
  obtain ⟨hmem, ⟨hr0, hr4, hc0, hc4⟩, hwall⟩ := hstep
  obtain ⟨pr, pc⟩ := p
  obtain ⟨qr, qc⟩ := q
  simp only [neighbors, List.mem_cons, PawnPos.mk.injEq, List.mem_singleton, List.not_mem_nil,
    or_false] at hmem
  simp only at hp hr0 hr4 hc0 hc4 hwall ⊢
  rcases hmem with ⟨h1, h2⟩ | ⟨h1, h2⟩ | ⟨h1, h2⟩ | ⟨h1, h2⟩
  · omega
  · by_cases hpr : pr = 0
    · subst hpr
      subst h2
      have hq : qr = 1 := by omega
      subst hq
      exfalso
      have hcases : qc = 0 ∨ qc = 1 ∨ qc = 2 ∨ qc = 3 := by omega
      rcases hcases with h | h | h | h <;> subst h <;> revert hwall <;> decide
    · omega
  · omega
  · omega

theorem sentinel_rows_closed (k : Nat) (p : PawnPos)
    (h : Reach (sentinelState.placedWalls ++ [⟨2, 1, "vertical"⟩]) 4 ⟨-1, 0⟩ k p) : p.row ≤ 0 := by
  induction h with
  | zero => decide
  | step _ hstep ih => exact sentinel_step_closed _ _ ih hstep

/-- C9 (counterexample): in `sentinelState` the wall (2, 1, vertical) is
accepted, the mover has a `wallsLeft` entry, and the active player "p3" has a
roster entry and a pawn, but no cell of the goal row of "p3" can be reached
from that pawn: the pawn carries the sentinel row -1, for which the path test
is skipped. -/
theorem legal_wall_with_unreachable_goal :
    StrMap.find sentinelState.wallsLeft sentinelState.playerTurn = some 10 ∧
    isWallPlacementLegal ⟨2, 1, "vertical"⟩ sentinelState sentinelRoster = some true ∧
    "p3" ∈ sentinelState.activePlayerIds ∧
    (findPlayer sentinelRoster "p3").map (fun p => p.id) = some "p3" ∧
    StrMap.find sentinelState.pawnPositions "p3" = some ⟨-1, 0⟩ ∧
    ¬GoalReachable (sentinelState.placedWalls ++ [⟨2, 1, "vertical"⟩]) sentinelState.boardSize
      ⟨-1, 0⟩ (goalOfId "p3") := by
  refine ⟨by decide, by decide, by decide, by decide, by decide, ?_⟩
  rintro ⟨k, p, hreach, hgoal⟩
  have hrow := sentinel_rows_closed k p hreach
  have hg : p.row = 3 := by
    have : goalOfId "p3" = fun r _ boardSize => decide (r = boardSize - 1) := by
      unfold goalOfId
      simp
    rw [this] at hgoal
    simpa [sentinelState] using hgoal
  omega

/-! ## Pawn moves -/

/-- C3 (counterexample): in `threePawnState` the mover at (3, 1) can jump
straight over the pawn at (2, 1) to the free cell (1, 1), and the lateral cell
(2, 0) of that pawn is offered as well: it is a lateral cell of the third pawn
at (3, 0), whose straight jump leaves the board. -/
theorem straight_jump_with_lateral :
    StraightJumpOpen threePawnState.pawnPositions threePawnState.placedWalls threeSeatRoster
      threePawnState.activePlayerIds 0 5 "p1" ⟨3, 1⟩ ⟨2, 1⟩ ∧
    (⟨2, 0⟩ : PawnPos) ∈ lateralCells ⟨3, 1⟩ ⟨2, 1⟩ ∧
    jumpCell ⟨3, 1⟩ ⟨2, 1⟩ ∈ calculateLegalPawnMoves threePawnState.pawnPositions
      threePawnState.placedWalls threeSeatRoster threePawnState.activePlayerIds 0 5 ∧
    (⟨2, 0⟩ : PawnPos) ∈ calculateLegalPawnMoves threePawnState.pawnPositions
      threePawnState.placedWalls threeSeatRoster threePawnState.activePlayerIds 0 5 := by
  refine ⟨⟨by decide, by decide, by decide, by decide, by decide, ?_, by decide, ?_, by decide,
    by decide⟩, by decide, by decide, by decide⟩
  · unfold OnBoard; decide
  · unfold OnBoard; decide

theorem find_cell_of_mem (opp : List PawnPos) (m : PawnPos) (hm : m ∈ opp) :
    opp.find? (fun oppPos => decide (oppPos.row = m.row) && decide (oppPos.col = m.col)) = some m := by
  induction opp with
  | nil => exact absurd hm (List.not_mem_nil m)
  | cons x xs ih =>
    by_cases hx : x.row = m.row ∧ x.col = m.col
    · have hxm : x = m := by
        obtain ⟨xr, xc⟩ := x
        obtain ⟨mr, mc⟩ := m
        simp only at hx
        rw [hx.1, hx.2]
      simp [List.find?_cons, hxm]
    · have hne : x ≠ m := fun h => hx (by rw [h]; exact ⟨rfl, rfl⟩)
      have hmem : m ∈ xs := by
        rcases List.mem_cons.mp hm with h | h
        · exact absurd h.symm hne
        · exact h
      have hfalse : (decide (x.row = m.row) && decide (x.col = m.col)) = false := by
        simpa using hx
      rw [List.find?_cons, hfalse]
      exact ih hmem

theorem find_cell_of_not_mem (opp : List PawnPos) (m : PawnPos) (hm : m ∉ opp) :
    opp.find? (fun oppPos => decide (oppPos.row = m.row) && decide (oppPos.col = m.col)) = none := by
  rw [List.find?_eq_none]
  intro x hx hp
  simp only [Bool.and_eq_true, decide_eq_true_eq] at hp
  apply hm
  have hxm : x = m := by
    obtain ⟨xr, xc⟩ := x
    obtain ⟨mr, mc⟩ := m
    simp only at hp
    rw [hp.1, hp.2]
  rw [← hxm]
  exact hx

theorem any_cell_eq_false (opp : List PawnPos) (m : PawnPos) (hm : m ∉ opp) :
    opp.any (fun oppPos => decide (oppPos.row = m.row) && decide (oppPos.col = m.col)) = false := by
  rw [List.any_eq_false]
  intro x hx hp
  simp only [Bool.and_eq_true, decide_eq_true_eq] at hp
  apply hm
  have hxm : x = m := by
    obtain ⟨xr, xc⟩ := x
    obtain ⟨mr, mc⟩ := m
    simp only at hp
    rw [hp.1, hp.2]
  rw [← hxm]
  exact hx

/-- Over an opponent whose straight jump is open, the only cell pushed is the
jump cell. -/
theorem pawnMovesToward_jump (walls : List Wall) (opp : List PawnPos) (n : Int) (a b : PawnPos)
    (hb : b ∈ opp) (hon : OnBoard n b)
    (hab : isWallBetween walls a.row a.col b.row b.col = false)
    (hjon : OnBoard n (jumpCell a b))
    (hj : isWallBetween walls b.row b.col (jumpCell a b).row (jumpCell a b).col = false) :
    pawnMovesToward walls opp n a.row a.col b = [jumpCell a b] := by
  unfold OnBoard at hon hjon
  unfold jumpCell at hj hjon
  simp only at hj hjon
  unfold pawnMovesToward
  have h1 : ¬(b.row < 0 ∨ b.row ≥ n ∨ b.col < 0 ∨ b.col ≥ n) := by omega
  rw [if_neg h1]
  simp only [find_cell_of_mem opp b hb, hab, Bool.false_eq_true, if_false, hj, Bool.not_false,
    Bool.true_and]
  have h2 : (decide (b.row + (b.row - a.row) ≥ 0) && decide (b.row + (b.row - a.row) < n) &&
      decide (b.col + (b.col - a.col) ≥ 0) && decide (b.col + (b.col - a.col) < n)) = true := by
    simp only [Bool.and_eq_true, decide_eq_true_eq]
    omega
  rw [if_pos h2]
  rfl

/-- Toward a cell that holds no opponent, at most that cell is pushed. -/
theorem pawnMovesToward_free (walls : List Wall) (opp : List PawnPos) (n : Int) (r c : Int)
    (m : PawnPos) (hm : m ∉ opp) (x : PawnPos)
    (hx : x ∈ pawnMovesToward walls opp n r c m) : x = m := by
  unfold pawnMovesToward at hx
  simp only [find_cell_of_not_mem opp m hm] at hx
  split at hx
  · exact absurd hx (List.not_mem_nil x)
  · split at hx
    · exact absurd hx (List.not_mem_nil x)
    · exact List.mem_singleton.mp hx

theorem mem_calculateLegalPawnMoves (pawns : StrMap PawnPos) (walls : List Wall)
    (players : List Player) (active : List String) (idx n : Int) (cur : String) (a : PawnPos)
    (hidx : 0 ≤ idx ∧ idx < active.length) (hcur : vecAt active idx = some cur)
    (ha : StrMap.find pawns cur = some a) (x : PawnPos) :
    x ∈ calculateLegalPawnMoves pawns walls players active idx n ↔
      (∃ m ∈ neighbors a,
        x ∈ pawnMovesToward walls (opponentPositions pawns players active cur) n a.row a.col m) ∧
      removedPawnMove (opponentPositions pawns players active cur) n x = false := by
  have hlt : ¬(idx % 2 ^ 32 ≥ (active.length : Int)) := by
    have h2 : (2 : Int) ^ 32 = 4294967296 := by norm_num
    rw [h2]
    omega
  unfold calculateLegalPawnMoves
  rw [if_neg hlt]
  simp only [hcur, ha, List.mem_filter, List.mem_flatMap, Bool.not_eq_true', neighbors]

/-- C3 (amended): when the mover's pawn A is orthogonally adjacent to the pawn
B of another active roster player with no wall between them, the cell straight
behind B is on the board, unoccupied and not wall-blocked from B, and B is the
only such pawn next to A, then `calculateLegalPawnMoves` contains the
straight-jump cell and neither of the two lateral cells of B. -/
theorem straight_jump_excludes_laterals (pawns : StrMap PawnPos) (walls : List Wall)
    (players : List Player) (active : List String) (idx n : Int) (cur : String) (a b : PawnPos)
    (h : StraightJumpOpen pawns walls players active idx n cur a b)
    (honly : ∀ q ∈ opponentPositions pawns players active cur, q ∈ neighbors a → q = b) :
    jumpCell a b ∈ calculateLegalPawnMoves pawns walls players active idx n ∧
    ∀ l ∈ lateralCells a b, l ∉ calculateLegalPawnMoves pawns walls players active idx n := by
  have hjump := pawnMovesToward_jump walls _ n a b h.other h.onBoard h.open_ab h.jumpOnBoard
    h.open_jump
  constructor
  · rw [mem_calculateLegalPawnMoves pawns walls players active idx n cur a h.index h.mover h.pawn]
    refine ⟨⟨b, h.adjacent, ?_⟩, ?_⟩
    · rw [hjump]; exact List.mem_singleton.mpr rfl
    · have hon := h.jumpOnBoard
      unfold OnBoard at hon
      unfold removedPawnMove
      rw [any_cell_eq_false _ _ h.jumpFree]
      simp only [Bool.false_or, Bool.or_eq_false_iff, decide_eq_false_iff_not]
      omega
  · intro l hl hmem
    rw [mem_calculateLegalPawnMoves pawns walls players active idx n cur a h.index h.mover h.pawn]
      at hmem
    obtain ⟨⟨m, hm, hlm⟩, -⟩ := hmem
    have hadj := h.adjacent
    obtain ⟨ar, ac⟩ := a
    obtain ⟨br, bc⟩ := b
    obtain ⟨lr, lc⟩ := l
    by_cases hmb : m = ⟨br, bc⟩
    · subst hmb
      rw [hjump] at hlm
      simp only [jumpCell, List.mem_singleton, PawnPos.mk.injEq] at hlm
      simp only [neighbors, List.mem_cons, PawnPos.mk.injEq, List.mem_singleton,
        List.not_mem_nil, or_false] at hadj
      unfold lateralCells at hl
      simp only at hl
      split at hl <;>
        simp only [List.mem_cons, PawnPos.mk.injEq, List.mem_singleton, List.not_mem_nil,
          or_false] at hl <;> omega
    · have hfree : m ∉ opponentPositions pawns players active cur :=
        fun hin => hmb (honly m hin hm)
      have hlm' := pawnMovesToward_free walls _ n _ _ m hfree _ hlm
      subst hlm'
      simp only [neighbors, List.mem_cons, PawnPos.mk.injEq, List.mem_singleton,
        List.not_mem_nil, or_false] at hadj hm
      unfold lateralCells at hl
      simp only at hl
      split at hl <;>
        simp only [List.mem_cons, PawnPos.mk.injEq, List.mem_singleton, List.not_mem_nil,
          or_false] at hl <;> omega

/-- C3, in `threeSeatState` with the pawn of "p1" moved next to "p3": "p3" at
(2, 1) to move, "p1" below it at (3, 1). -/
theorem straight_jump_excludes_laterals_witness :
    jumpCell ⟨2, 1⟩ ⟨3, 1⟩ ∈ calculateLegalPawnMoves [("p1", ⟨3, 1⟩), ("p3", ⟨2, 1⟩)] []
      threeSeatRoster ["p1", "p3"] 1 5 ∧
    ∀ l ∈ lateralCells ⟨2, 1⟩ ⟨3, 1⟩, l ∉ calculateLegalPawnMoves
      [("p1", ⟨3, 1⟩), ("p3", ⟨2, 1⟩)] [] threeSeatRoster ["p1", "p3"] 1 5 :=
  straight_jump_excludes_laterals [("p1", ⟨3, 1⟩), ("p3", ⟨2, 1⟩)] [] threeSeatRoster
    ["p1", "p3"] 1 5 "p3" ⟨2, 1⟩ ⟨3, 1⟩
    ⟨by decide, by decide, by decide, by decide, by decide, by unfold OnBoard; decide, by decide,
      by unfold OnBoard; decide, by decide, by decide⟩
    (by decide)

/-! ## Shortest paths -/

theorem mem_arrayCells (p : PawnPos) (h : inArray p.row p.col = true) : p ∈ arrayCells := by
  obtain ⟨r, c⟩ := p
  simp only [inArray, MAX_BOARD_SIZE, Bool.and_eq_true, decide_eq_true_eq] at h
  rw [arrayCells, List.mem_flatMap]
  have hr : r.toNat < 11 := by omega
  have hc : c.toNat < 11 := by omega
  refine ⟨r.toNat, List.mem_range.mpr hr, ?_⟩
  rw [List.mem_map]
  refine ⟨c.toNat, List.mem_range.mpr hc, ?_⟩
  show PawnPos.mk (r.toNat : Int) (c.toNat : Int) = ⟨r, c⟩
  rw [Int.toNat_of_nonneg h.1.1.1, Int.toNat_of_nonneg h.1.2]

theorem marked_length_le (v : Visited) (hnodup : v.Nodup)
    (hin : ∀ p ∈ v, inArray p.row p.col = true) : v.length ≤ 121 := by
  have hsub : v ⊆ arrayCells := fun p hp => mem_arrayCells p (hin p hp)
  have hlen : arrayCells.length = 121 := by rfl
  have := (List.subperm_of_subset hnodup hsub).length_le
  omega

theorem inArray_of_onBoard (n : Int) (hn : n ≤ 11) (p : PawnPos) (h : OnBoard n p) :
    inArray p.row p.col = true := by
  unfold OnBoard at h
  simp only [inArray, MAX_BOARD_SIZE, Bool.and_eq_true, decide_eq_true_eq]
  omega

/-- Under the scan invariant every reachable cell is marked or lies further
than the dequeued cell. -/
theorem ScanInv.frontier {walls : List Wall} {n : Int} {start : PawnPos}
    {goal : Int → Int → Int → Bool} {v : Visited} {u : PawnPos} {d : Int}
    {q : List (PawnPos × Int)} {pending : List PawnPos}
    (inv : ScanInv walls n start goal v u d q pending) (k : Nat) (p : PawnPos)
    (h : Reach walls n start k p) : p ∈ v ∨ d + 1 ≤ k := by
  induction h with
  | zero => exact Or.inl inv.start_mem
  | step hreach hstep ih =>
    rename_i k p w
    rcases ih with hp | hk
    · rcases inv.closed p hp with hu | ⟨e, he, hep⟩ | hcl
      · obtain ⟨ku, hd, -, hmin⟩ := inv.cur_dist
        have := hmin k (hu ▸ hreach)
        right; push_cast; omega
      · obtain ⟨-, ⟨ke, hke, -, hmin⟩, hlo, -⟩ := inv.queued e he
        have := hmin k (hep ▸ hreach)
        right; push_cast; omega
      · exact Or.inl (hcl w hstep)
    · right; push_cast; omega

/-- A neighbour that is not a legal step, or is already marked, is passed over. -/
theorem ScanInv.skip {walls : List Wall} {n : Int} {start : PawnPos}
    {goal : Int → Int → Int → Bool} {v : Visited} {u : PawnPos} {d : Int}
    {q : List (PawnPos × Int)} {nb : PawnPos} {rest : List PawnPos}
    (inv : ScanInv walls n start goal v u d q (nb :: rest))
    (h : StepOk walls n u nb → nb ∈ v) : ScanInv walls n start goal v u d q rest where
  start_mem := inv.start_mem
  marked := inv.marked
  nodup := inv.nodup
  cur_mem := inv.cur_mem
  cur_dist := inv.cur_dist
  queued := inv.queued
  sorted := inv.sorted
  closed := inv.closed
  scanned := by
    intro w hw
    rcases inv.scanned w hw with hmem | hmem
    · rcases List.mem_cons.mp hmem with heq | hr
      · right; subst heq; exact h hw
      · exact Or.inl hr
    · exact Or.inr hmem
  pending_nbrs := fun w hw => inv.pending_nbrs w (List.mem_cons_of_mem _ hw)

/-- A legal, unmarked neighbour that is no goal cell is marked and enqueued at
the next distance. -/
theorem ScanInv.push {walls : List Wall} {n : Int} {start : PawnPos}
    {goal : Int → Int → Int → Bool} {v : Visited} {u : PawnPos} {d : Int}
    {q : List (PawnPos × Int)} {nb : PawnPos} {rest : List PawnPos}
    (inv : ScanInv walls n start goal v u d q (nb :: rest))
    (hstep : StepOk walls n u nb) (hv : nb ∉ v) (hg : goal nb.row nb.col n = false) :
    ScanInv walls n start goal (nb :: v) u d (q ++ [(nb, d + 1)]) rest where
  start_mem := List.mem_cons_of_mem _ inv.start_mem
  marked := by
    intro p hp
    rcases List.mem_cons.mp hp with heq | hp
    · subst heq; exact ⟨hstep.2.1, hg⟩
    · exact inv.marked p hp
  nodup := List.nodup_cons.mpr ⟨hv, inv.nodup⟩
  cur_mem := List.mem_cons_of_mem _ inv.cur_mem
  cur_dist := inv.cur_dist
  queued := by
    intro e he
    rcases List.mem_append.mp he with he | he
    · obtain ⟨h1, h2, h3⟩ := inv.queued e he
      exact ⟨List.mem_cons_of_mem _ h1, h2, h3⟩
    · rw [List.mem_singleton] at he
      subst he
      obtain ⟨ku, hd, hreach, -⟩ := inv.cur_dist
      refine ⟨List.mem_cons_self _ _, ⟨ku + 1, ?_, Reach.step hreach hstep, ?_⟩, ?_, ?_⟩
      · show d + 1 = ((ku + 1 : Nat) : Int)
        push_cast; omega
      · intro k' hk'
        rcases inv.frontier k' nb hk' with hmem | hle
        · exact absurd hmem hv
        · omega
      · show d ≤ d + 1
        omega
      · exact le_refl _
  sorted := by
    rw [List.pairwise_append]
    refine ⟨inv.sorted, List.pairwise_singleton _ _, ?_⟩
    intro e he f hf
    rw [List.mem_singleton] at hf
    subst hf
    exact (inv.queued e he).2.2.2
  closed := by
    intro p hp
    rcases List.mem_cons.mp hp with heq | hp
    · right; left
      exact ⟨(nb, d + 1), List.mem_append_right _ (List.mem_singleton.mpr rfl), heq.symm⟩
    · rcases inv.closed p hp with h | ⟨e, he, hep⟩ | h
      · exact Or.inl h
      · exact Or.inr (Or.inl ⟨e, List.mem_append_left _ he, hep⟩)
      · exact Or.inr (Or.inr (fun w hw => List.mem_cons_of_mem _ (h w hw)))
  scanned := by
    intro w hw
    rcases inv.scanned w hw with hmem | hmem
    · rcases List.mem_cons.mp hmem with heq | hr
      · right; rw [heq]; exact List.mem_cons_self _ _
      · exact Or.inl hr
    · exact Or.inr (List.mem_cons_of_mem _ hmem)
  pending_nbrs := fun w hw => inv.pending_nbrs w (List.mem_cons_of_mem _ hw)

/-- Finding an unmarked goal neighbour ends the search with the right answer. -/
theorem ScanInv.found {walls : List Wall} {n : Int} {start : PawnPos}
    {goal : Int → Int → Int → Bool} {v : Visited} {u : PawnPos} {d : Int}
    {q : List (PawnPos × Int)} {nb : PawnPos} {rest : List PawnPos}
    (inv : ScanInv walls n start goal v u d q (nb :: rest))
    (hstep : StepOk walls n u nb) (hg : goal nb.row nb.col n = true) :
    ShortestPathSpec walls n start goal (d + 1) := by
  obtain ⟨ku, hd, hreach, -⟩ := inv.cur_dist
  right
  refine ⟨ku + 1, by push_cast; omega, ⟨nb, Reach.step hreach hstep, hg⟩, ?_⟩
  intro k' p hk' hgp
  rcases inv.frontier k' p hk' with hmem | hle
  · have := (inv.marked p hmem).2
    rw [hgp] at this
    exact absurd this (by simp)
  · omega

theorem scanNeighbors_spec {walls : List Wall} {n : Int} {start : PawnPos}
    {goal : Int → Int → Int → Bool} (hn : n ≤ 11) (u : PawnPos) (d : Int) :
    ∀ (pending : List PawnPos) (v : Visited) (q : List (PawnPos × Int)),
      ScanInv walls n start goal v u d q pending →
      ∃ res, scanNeighbors goal walls n u d pending v q = some res ∧
        ScanPost walls n start goal v u d q res := by
  intro pending
  induction pending with
  | nil =>
    intro v q inv
    exact ⟨Scan.next v q, rfl, inv, rfl⟩
  | cons nb rest ih =>
    intro v q inv
    rw [scanNeighbors]
    by_cases hc : (decide (nb.row ≥ 0) && decide (nb.row < n) && decide (nb.col ≥ 0) &&
        decide (nb.col < n) && !isWallBetween walls u.row u.col nb.row nb.col) = true
    · rw [if_pos hc]
      simp only [Bool.and_eq_true, decide_eq_true_eq, Bool.not_eq_true'] at hc
      have hstep : StepOk walls n u nb :=
        ⟨inv.pending_nbrs nb (List.mem_cons_self _ _), by omega, hc.2⟩
      have harr := inArray_of_onBoard n hn nb hstep.2.1
      by_cases hv : nb ∈ v
      · have hread : Visited.read v nb.row nb.col = some true := by
          unfold Visited.read
          rw [if_pos harr]
          simp [hv]
        simp only [hread]
        exact ih v q (inv.skip (fun _ => hv))
      · have hread : Visited.read v nb.row nb.col = some false := by
          unfold Visited.read
          rw [if_pos harr]
          simp [hv]
        simp only [hread]
        by_cases hg : goal nb.row nb.col n = true
        · rw [if_pos hg]
          exact ⟨Scan.found (d + 1), rfl, inv.found hstep hg⟩
        · rw [if_neg hg]
          have hmark : Visited.mark v nb.row nb.col = some (nb :: v) := by
            unfold Visited.mark
            rw [if_pos harr]
          simp only [hmark]
          have hg' : goal nb.row nb.col n = false := by simpa using hg
          obtain ⟨res, hres, hpost⟩ := ih (nb :: v) (q ++ [(nb, d + 1)]) (inv.push hstep hv hg')
          refine ⟨res, hres, ?_⟩
          cases res with
          | found r => exact hpost
          | next v1 q1 =>
            refine ⟨hpost.1, ?_⟩
            have := hpost.2
            simp only [List.length_cons, List.length_append, List.length_nil] at this
            omega
    · rw [if_neg hc]
      refine ih v q (inv.skip ?_)
      intro hstep
      exfalso
      apply hc
      obtain ⟨-, ⟨h1, h2, h3, h4⟩, h5⟩ := hstep
      simp only [Bool.and_eq_true, decide_eq_true_eq, Bool.not_eq_true']
      exact ⟨⟨⟨⟨h1, h2⟩, h3⟩, h4⟩, h5⟩

theorem LoopInv.start_scan {walls : List Wall} {n : Int} {start : PawnPos}
    {goal : Int → Int → Int → Bool} {v : Visited} {u : PawnPos} {d : Int}
    {q : List (PawnPos × Int)} (inv : LoopInv walls n start goal v ((u, d) :: q)) :
    ScanInv walls n start goal v u d q (neighbors u) where
  start_mem := inv.start_mem
  marked := inv.marked
  nodup := inv.nodup
  cur_mem := (inv.queued (u, d) (List.mem_cons_self _ _)).1
  cur_dist := (inv.queued (u, d) (List.mem_cons_self _ _)).2
  queued := by
    intro e he
    obtain ⟨h1, h2⟩ := inv.queued e (List.mem_cons_of_mem _ he)
    refine ⟨h1, h2, ?_, ?_⟩
    · exact (List.pairwise_cons.mp inv.sorted).1 e he
    · exact inv.level (u, d) rfl e (List.mem_cons_of_mem _ he)
  sorted := (List.pairwise_cons.mp inv.sorted).2
  closed := by
    intro p hp
    rcases inv.closed p hp with ⟨e, he, hep⟩ | h
    · rcases List.mem_cons.mp he with heq | he
      · left; rw [← hep, heq]
      · exact Or.inr (Or.inl ⟨e, he, hep⟩)
    · exact Or.inr (Or.inr h)
  scanned := fun w hw => Or.inl hw.1
  pending_nbrs := fun _ hw => hw

theorem ScanInv.finish {walls : List Wall} {n : Int} {start : PawnPos}
    {goal : Int → Int → Int → Bool} {v : Visited} {u : PawnPos} {d : Int}
    {q : List (PawnPos × Int)} (inv : ScanInv walls n start goal v u d q []) :
    LoopInv walls n start goal v q where
  start_mem := inv.start_mem
  marked := inv.marked
  nodup := inv.nodup
  queued := fun e he => ⟨(inv.queued e he).1, (inv.queued e he).2.1⟩
  sorted := inv.sorted
  level := by
    intro h hh e he
    have hmem : h ∈ q := by
      cases q with
      | nil => exact absurd hh (by simp)
      | cons x xs =>
        simp only [List.head?_cons, Option.mem_def, Option.some.injEq] at hh
        rw [← hh]; exact List.mem_cons_self _ _
    have h1 := (inv.queued h hmem).2.2.1
    have h2 := (inv.queued e he).2.2.2
    omega
  closed := by
    intro p hp
    rcases inv.closed p hp with h | h | h
    · right
      intro w hw
      rcases inv.scanned w (h ▸ hw) with hnil | hmem
      · exact absurd hnil (List.not_mem_nil w)
      · exact hmem
    · exact Or.inl h
    · exact Or.inr h

theorem LoopInv.exhausted {walls : List Wall} {n : Int} {start : PawnPos}
    {goal : Int → Int → Int → Bool} {v : Visited} (inv : LoopInv walls n start goal v [])
    (k : Nat) (p : PawnPos) (h : Reach walls n start k p) : p ∈ v := by
  induction h with
  | zero => exact inv.start_mem
  | step _ hstep ih =>
    rcases inv.closed _ ih with ⟨e, he, -⟩ | hcl
    · exact absurd he (List.not_mem_nil e)
    · exact hcl _ hstep

theorem bfsLoop_spec {walls : List Wall} {n : Int} {start : PawnPos}
    {goal : Int → Int → Int → Bool} (hn : n ≤ 11) :
    ∀ (fuel : Nat) (v : Visited) (q : List (PawnPos × Int)),
      LoopInv walls n start goal v q → q.length + 121 ≤ fuel + v.length →
      ∃ r, bfsLoop goal walls n fuel v q = some r ∧ ShortestPathSpec walls n start goal r := by
  intro fuel
  induction fuel with
  | zero =>
    intro v q inv hfuel
    have hlen := marked_length_le v inv.nodup
      (fun p hp => inArray_of_onBoard n hn p (inv.marked p hp).1)
    cases q with
    | nil =>
      refine ⟨-1, rfl, Or.inl ⟨rfl, ?_⟩⟩
      rintro ⟨k, p, hreach, hg⟩
      have := (inv.marked p (inv.exhausted k p hreach)).2
      rw [hg] at this
      exact absurd this (by simp)
    | cons e rest =>
      simp only [List.length_cons] at hfuel
      omega
  | succ fuel ih =>
    intro v q inv hfuel
    cases q with
    | nil =>
      refine ⟨-1, rfl, Or.inl ⟨rfl, ?_⟩⟩
      rintro ⟨k, p, hreach, hg⟩
      have := (inv.marked p (inv.exhausted k p hreach)).2
      rw [hg] at this
      exact absurd this (by simp)
    | cons e rest =>
      obtain ⟨u, d⟩ := e
      obtain ⟨res, hres, hpost⟩ := scanNeighbors_spec hn u d (neighbors u) v rest inv.start_scan
      rw [bfsLoop]
      simp only [hres]
      cases res with
      | found r => exact ⟨r, rfl, hpost⟩
      | next v1 q1 =>
        obtain ⟨inv1, hlen⟩ := hpost
        apply ih v1 q1 inv1.finish
        simp only [List.length_cons] at hfuel
        omega

/-- The search is defined on a board that fits the `visited` array, from a
start cell on the board, and its result meets `ShortestPathSpec`. -/
theorem getShortestPathLength_spec (start : PawnPos) (goal : Int → Int → Int → Bool)
    (walls : List Wall) (n : Int) (hn : n ≤ 11) (hstart : OnBoard n start) :
    ∃ r, getShortestPathLength start goal walls n = some r ∧
      (goal start.row start.col n = true → r = 0) ∧ ShortestPathSpec walls n start goal r := by
  unfold getShortestPathLength
  by_cases hg : goal start.row start.col n = true
  · rw [if_pos hg]
    refine ⟨0, rfl, fun _ => rfl, Or.inr ⟨0, rfl, ⟨start, Reach.zero, hg⟩, ?_⟩⟩
    intro k' p _ _
    exact Nat.zero_le k'
  · rw [if_neg hg]
    have hmark : Visited.mark [] start.row start.col = some [start] := by
      unfold Visited.mark
      rw [if_pos (inArray_of_onBoard n hn start hstart)]
    simp only [hmark]
    have inv : LoopInv walls n start goal [start] [(start, 0)] :=
      { start_mem := List.mem_singleton.mpr rfl
        marked := by
          intro p hp
          rw [List.mem_singleton] at hp
          subst hp
          exact ⟨hstart, by simpa using hg⟩
        nodup := List.nodup_singleton _
        queued := by
          intro e he
          rw [List.mem_singleton] at he
          subst he
          exact ⟨List.mem_singleton.mpr rfl, 0, rfl, Reach.zero, fun k' _ => Nat.zero_le k'⟩
        sorted := List.pairwise_singleton _ _
        level := by
          intro h hh e he
          rw [List.mem_singleton] at he
          simp only [List.head?_cons, Option.mem_def, Option.some.injEq] at hh
          subst he hh
          show (0 : Int) ≤ 0 + 1
          omega
        closed := by
          intro p hp
          rw [List.mem_singleton] at hp
          exact Or.inl ⟨(start, 0), List.mem_singleton.mpr rfl, hp.symm⟩ }
    obtain ⟨r, hr, hspec⟩ := bfsLoop_spec hn bfsFuel [start] [(start, 0)] inv
      (by simp [bfsFuel])
    exact ⟨r, hr, fun h => absurd h hg, hspec⟩

/-- C1: for a board of size at most 11 (the size of the `visited` array), any
wall list, any goal predicate and any start cell on the board,
`getShortestPathLength` returns a value `r` such that: `r = 0` when the start
satisfies the goal; `r = -1` exactly when no goal cell can be reached by legal
unit steps; and otherwise `r` is the least number of legal unit steps from the
start to a cell satisfying the goal predicate. -/
theorem getShortestPathLength_correct (start : PawnPos) (goal : Int → Int → Int → Bool)
    (walls : List Wall) (n : Int) (hn : n ≤ 11) (hstart : OnBoard n start) :
    ∃ r, getShortestPathLength start goal walls n = some r ∧
      (goal start.row start.col n = true → r = 0) ∧
      (r = -1 ↔ ¬GoalReachable walls n start goal) ∧
      (r ≠ -1 → ∃ k : Nat, r = k ∧
        (∃ p, Reach walls n start k p ∧ goal p.row p.col n = true) ∧
        ∀ k' p, Reach walls n start k' p → goal p.row p.col n = true → k ≤ k') := by
  have key := getShortestPathLength_spec start goal walls n hn hstart
  obtain ⟨r, hr, h0, hspec⟩ := key
  refine ⟨r, hr, h0, ?_, ?_⟩
  · constructor
    · intro hneg
      rcases hspec with ⟨-, hno⟩ | ⟨k, hk, -, -⟩
      · exact hno
      · omega
    · intro hno
      rcases hspec with ⟨h, -⟩ | ⟨k, -, ⟨p, hp, hg⟩, -⟩
      · exact h
      · exact absurd ⟨k, p, hp, hg⟩ hno
  · intro hne
    rcases hspec with ⟨h, -⟩ | h
    · exact absurd h hne
    · exact h

/-- C1, on the 5 x 5 board from (4, 2) to row 0 behind the wall (3, 1, horizontal). -/
theorem getShortestPathLength_correct_witness :
    (5 : Int) ≤ 11 ∧ OnBoard 5 ⟨4, 2⟩ ∧
    getShortestPathLength ⟨4, 2⟩ (goalOfId "p1") [⟨3, 1, "horizontal"⟩] 5 = some 5 ∧
    ∃ r, getShortestPathLength ⟨4, 2⟩ (goalOfId "p1") [⟨3, 1, "horizontal"⟩] 5 = some r ∧
      (goalOfId "p1" 4 2 5 = true → r = 0) ∧
      (r = -1 ↔ ¬GoalReachable [⟨3, 1, "horizontal"⟩] 5 ⟨4, 2⟩ (goalOfId "p1")) ∧
      (r ≠ -1 → ∃ k : Nat, r = k ∧
        (∃ p, Reach [⟨3, 1, "horizontal"⟩] 5 ⟨4, 2⟩ k p ∧ goalOfId "p1" p.row p.col 5 = true) ∧
        ∀ k' p, Reach [⟨3, 1, "horizontal"⟩] 5 ⟨4, 2⟩ k' p →
          goalOfId "p1" p.row p.col 5 = true → k ≤ k') :=
  ⟨by decide, by unfold OnBoard; decide, by decide,
    getShortestPathLength_correct ⟨4, 2⟩ (goalOfId "p1") [⟨3, 1, "horizontal"⟩] 5 (by decide)
      (by unfold OnBoard; decide)⟩

/-! ## Zobrist hashing -/

theorem xorKeys_shift (l : List (Option Nat)) (h : Nat) :
    Zobrist.xorKeys l h = (Zobrist.xorKeys l 0).map (fun x => h ^^^ x) := by
  induction l generalizing h with
  | nil => simp [Zobrist.xorKeys]
  | cons a rest ih =>
    cases a with
    | none => simp [Zobrist.xorKeys]
    | some k =>
      rw [Zobrist.xorKeys, Zobrist.xorKeys, ih (h ^^^ k), ih (0 ^^^ k)]
      cases Zobrist.xorKeys rest 0 with
      | none => rfl
      | some x => simp [Nat.xor_assoc]

theorem xorKeys_perm {l1 l2 : List (Option Nat)} (hp : l1.Perm l2) (h : Nat) :
    Zobrist.xorKeys l1 h = Zobrist.xorKeys l2 h := by
  induction hp generalizing h with
  | nil => rfl
  | cons a _ ih =>
    cases a with
    | none => rfl
    | some k => exact ih (h ^^^ k)
  | swap a b l =>
    cases a with
    | none => cases b <;> rfl
    | some x =>
      cases b with
      | none => rfl
      | some y =>
        simp only [Zobrist.xorKeys]
        rw [Nat.xor_assoc, Nat.xor_comm y x, ← Nat.xor_assoc]
  | trans _ _ ih1 ih2 => exact (ih1 h).trans (ih2 h)

theorem xorKeys_append_singleton (l : List (Option Nat)) (k : Option Nat) (h : Nat) :
    Zobrist.xorKeys (l ++ [k]) h =
      (Zobrist.xorKeys l h).bind (fun x => k.map (fun y => x ^^^ y)) := by
  induction l generalizing h with
  | nil => cases k <;> simp [Zobrist.xorKeys]
  | cons a rest ih =>
    cases a with
    | none => simp [Zobrist.xorKeys]
    | some x => simpa [Zobrist.xorKeys] using ih (h ^^^ x)

theorem StrMap.entries_filter {α : Type} (m : StrMap α) (k : String) :
    (StrMap.entries m).filter (fun e => !decide (e.1 = k)) =
      StrMap.entries (m.filter (fun e => !decide (e.1 = k))) := by
  induction m with
  | nil => rfl
  | cons e rest ih =>
    obtain ⟨a, b⟩ := e
    by_cases ha : a = k
    · subst ha
      simp only [StrMap.entries, List.filter_cons, decide_True, Bool.not_true, Bool.false_eq_true,
        if_false, List.filter_filter, Bool.and_self]
      exact ih
    · simp only [StrMap.entries, List.filter_cons, ha, decide_False, Bool.not_false, if_true,
        List.filter_filter, ← ih]
      congr 1
      apply List.filter_congr
      intro x _
      exact Bool.and_comm _ _

theorem StrMap.entries_assign {α : Type} (m : StrMap α) (k : String) (v : α) :
    StrMap.entries (StrMap.assign m k v) =
      (k, v) :: StrMap.entries (m.filter (fun e => !decide (e.1 = k))) := by
  unfold StrMap.assign
  rw [StrMap.entries, ← StrMap.entries_filter, List.filter_filter]
  simp only [Bool.and_self]

theorem StrMap.entries_perm_of_find {α : Type} (m : StrMap α) (k : String) (old : α)
    (h : StrMap.find m k = some old) :
    (StrMap.entries m).Perm ((k, old) :: StrMap.entries (m.filter (fun e => !decide (e.1 = k)))) := by
  induction m with
  | nil => exact absurd h (by simp [StrMap.find])
  | cons e rest ih =>
    obtain ⟨a, b⟩ := e
    by_cases ha : a = k
    · subst ha
      have hb : b = old := by simpa [StrMap.find, List.lookup_cons] using h
      subst hb
      rw [StrMap.entries, StrMap.entries_filter]
      simp [List.filter_cons]
    · have hk : (k == a) = false := by simpa using fun h' : k = a => ha h'.symm
      have hrest : StrMap.find rest k = some old := by
        simpa [StrMap.find, List.lookup_cons, hk] using h
      have hp := (ih hrest).filter (fun e => !decide (e.1 = a))
      have hka : ¬k = a := fun h' => ha h'.symm
      rw [List.filter_cons] at hp
      simp only [hka, decide_False, Bool.not_false, if_true] at hp
      rw [StrMap.entries]
      simp only [List.filter_cons, ha, decide_False, Bool.not_false, if_true, StrMap.entries]
      exact (List.Perm.cons _ hp).trans (List.Perm.swap _ _ _)

theorem computeHash_eq_hashOf (s : GameState) :
    Zobrist.computeHash s =
      hashOf s.pawnPositions s.activePlayerIds s.placedWalls s.playerTurnIndex := by
  unfold Zobrist.computeHash hashOf
  cases Zobrist.xorKeys ((StrMap.entries s.pawnPositions).map
      (Zobrist.pawnKeyOf s.activePlayerIds)) 0 with
  | none => rfl
  | some x =>
    simp only [Option.some_bind]
    rw [xorKeys_shift]
    cases Zobrist.xorKeys (s.placedWalls.map Zobrist.wallKey) 0 with
    | none => rfl
    | some w =>
      simp only [Option.map_some', Option.some_bind]
      cases Zobrist.turnKeys s.playerTurnIndex <;> rfl

theorem xor_swap_key (a w kt kOld kNew kIn : Nat) :
    (((0 ^^^ kNew) ^^^ a) ^^^ w) ^^^ kIn =
      ((((((((0 ^^^ kOld) ^^^ a) ^^^ w) ^^^ kt) ^^^ kOld) ^^^ kNew) ^^^ kt) ^^^ kIn) := by
  apply Nat.eq_of_testBit_eq
  intro i
  simp only [Nat.testBit_xor, Nat.zero_testBit]
  cases a.testBit i <;> cases w.testBit i <;> cases kt.testBit i <;> cases kOld.testBit i <;>
    cases kNew.testBit i <;> cases kIn.testBit i <;> rfl

theorem xor_add_key (x w kt k kIn : Nat) :
    (x ^^^ (w ^^^ k)) ^^^ kIn = (((((x ^^^ w) ^^^ kt) ^^^ k) ^^^ kt) ^^^ kIn) := by
  apply Nat.eq_of_testBit_eq
  intro i
  simp only [Nat.testBit_xor]
  cases x.testBit i <;> cases w.testBit i <;> cases kt.testBit i <;> cases k.testBit i <;>
    cases kIn.testBit i <;> rfl

/-- Moving the pawn of `cur` and passing the turn changes the recomputed hash
by the four keys the incremental update XORs in. -/
theorem hashOf_assign (pawns : StrMap PawnPos) (active : List String) (walls : List Wall)
    (idx idx1 : Int) (cur : String) (old new : PawnPos) (h kOld kNew kOut kIn : Nat)
    (hfind : StrMap.find pawns cur = some old)
    (hOld : Zobrist.pawnKeyOf active (cur, old) = some kOld)
    (hNew : Zobrist.pawnKeyOf active (cur, new) = some kNew)
    (hOut : Zobrist.turnKeys idx = some kOut) (hIn : Zobrist.turnKeys idx1 = some kIn)
    (hh : hashOf pawns active walls idx = some h) :
    hashOf (StrMap.assign pawns cur new) active walls idx1 =
      some ((((h ^^^ kOld) ^^^ kNew) ^^^ kOut) ^^^ kIn) := by
  unfold hashOf at hh ⊢
  have hperm := (StrMap.entries_perm_of_find pawns cur old hfind).map (Zobrist.pawnKeyOf active)
  rw [xorKeys_perm hperm 0, List.map_cons, hOld, Zobrist.xorKeys, xorKeys_shift] at hh
  rw [StrMap.entries_assign, List.map_cons, hNew, Zobrist.xorKeys, xorKeys_shift]
  cases hA : Zobrist.xorKeys ((StrMap.entries (pawns.filter (fun e => !decide (e.1 = cur)))).map
      (Zobrist.pawnKeyOf active)) 0 with
  | none => rw [hA] at hh; exact absurd hh (by simp)
  | some a =>
    rw [hA] at hh
    cases hW : Zobrist.xorKeys (walls.map Zobrist.wallKey) 0 with
    | none => rw [hW] at hh; exact absurd hh (by simp)
    | some w =>
      rw [hW, hOut] at hh
      simp only [Option.map_some', Option.some_bind, Option.some.injEq] at hh
      simp only [Option.map_some', Option.some_bind, hIn, Option.some.injEq]
      rw [← hh]
      exact xor_swap_key a w kOut kOld kNew kIn

/-- Appending a wall and passing the turn changes the recomputed hash by the
three keys the incremental update XORs in. -/
theorem hashOf_wall (pawns : StrMap PawnPos) (active : List String) (walls : List Wall)
    (idx idx1 : Int) (wall : Wall) (h k kOut kIn : Nat)
    (hk : Zobrist.wallKey wall = some k)
    (hOut : Zobrist.turnKeys idx = some kOut) (hIn : Zobrist.turnKeys idx1 = some kIn)
    (hh : hashOf pawns active walls idx = some h) :
    hashOf pawns active (walls ++ [wall]) idx1 = some (((h ^^^ k) ^^^ kOut) ^^^ kIn) := by
  unfold hashOf at hh ⊢
  rw [List.map_append, List.map_singleton, xorKeys_append_singleton, hk]
  cases hA : Zobrist.xorKeys ((StrMap.entries pawns).map (Zobrist.pawnKeyOf active)) 0 with
  | none => rw [hA] at hh; exact absurd hh (by simp)
  | some x =>
    rw [hA] at hh
    cases hW : Zobrist.xorKeys (walls.map Zobrist.wallKey) 0 with
    | none => rw [hW] at hh; exact absurd hh (by simp)
    | some w =>
      rw [hW, hOut] at hh
      simp only [Option.map_some', Option.some_bind, Option.some.injEq] at hh
      simp only [Option.map_some', Option.some_bind, hIn, Option.some.injEq]
      rw [← hh]
      exact xor_add_key x w kOut k kIn

theorem switchTurn_some (g s1 : GameState) (h : switchTurn g = some s1) :
    ∃ kOut kIn, Zobrist.turnKeys g.playerTurnIndex = some kOut ∧
      Zobrist.turnKeys s1.playerTurnIndex = some kIn ∧
      s1.zobristHash = (g.zobristHash ^^^ kOut) ^^^ kIn ∧
      s1.pawnPositions = g.pawnPositions ∧ s1.placedWalls = g.placedWalls ∧
      s1.activePlayerIds = g.activePlayerIds := by
  unfold switchTurn at h
  split at h
  · exact absurd h (by simp)
  · rename_i kOut hOut
    split at h
    · exact absurd h (by simp)
    · simp only at h
      split at h
      · rename_i id kIn hid hIn
        simp only [Option.some.injEq] at h
        subst h
        exact ⟨kOut, kIn, hOut, hIn, rfl, rfl, rfl, rfl⟩
      · exact absurd h (by simp)

theorem playerIndexOf_turn (active : List String) (idx : Int) (cur : String)
    (hturn : vecAt active idx = some cur) (hnodup : active.Nodup) :
    Zobrist.playerIndexOf active cur = idx := by
  unfold vecAt at hturn
  split at hturn
  · rename_i h0
    rw [List.get?_eq_some] at hturn
    obtain ⟨hlt, hget⟩ := hturn
    unfold Zobrist.playerIndexOf
    have : List.indexOf cur active = idx.toNat := by
      rw [← hget]
      exact List.get_indexOf hnodup ⟨idx.toNat, hlt⟩
    rw [this]
    exact Int.toNat_of_nonneg h0
  · exact absurd hturn (by simp)

/-- C4 (amended): for a state whose `zobristHash` equals `computeHash`, whose
`playerTurn` is `activePlayerIds[playerTurnIndex]`, whose active ids are
pairwise distinct and whose mover has a pawn, every move on which `applyMove`
is defined yields a state whose `zobristHash` equals `computeHash` recomputed
from scratch. -/
theorem applyMove_hash_consistent (s : GameState) (m : Move) (players : List Player)
    (s1 : GameState)
    (hhash : Zobrist.computeHash s = some s.zobristHash)
    (hturn : vecAt s.activePlayerIds s.playerTurnIndex = some s.playerTurn)
    (hnodup : s.activePlayerIds.Nodup)
    (hpawn : ∃ old, StrMap.find s.pawnPositions s.playerTurn = some old)
    (happ : applyMove s m players = some s1) :
    Zobrist.computeHash s1 = some s1.zobristHash := by
  rw [computeHash_eq_hashOf] at hhash ⊢
  have hidx := playerIndexOf_turn _ _ _ hturn hnodup
  unfold applyMove at happ
  split at happ
  · -- pawn move
    obtain ⟨old, hold⟩ := hpawn
    unfold applyPawnMove at happ
    simp only [hold, Option.getD_some] at happ
    split at happ
    · rename_i kOld kNew currentPlayer hOld hNew _
      have hOld' : Zobrist.pawnKeyOf s.activePlayerIds (s.playerTurn, old) = some kOld := by
        unfold Zobrist.pawnKeyOf; rw [hidx]; exact hOld
      have hNew' : Zobrist.pawnKeyOf s.activePlayerIds (s.playerTurn, m.pos) = some kNew := by
        unfold Zobrist.pawnKeyOf; rw [hidx]; exact hNew
      split at happ
      · simp only [Option.some.injEq] at happ
        subst happ
        obtain ⟨kt, hkt⟩ : ∃ kt, Zobrist.turnKeys s.playerTurnIndex = some kt := by
          unfold hashOf at hhash
          cases hk : Zobrist.turnKeys s.playerTurnIndex with
          | none =>
            rw [hk] at hhash
            cases Zobrist.xorKeys ((StrMap.entries s.pawnPositions).map
              (Zobrist.pawnKeyOf s.activePlayerIds)) 0 <;>
            cases Zobrist.xorKeys (s.placedWalls.map Zobrist.wallKey) 0 <;>
            simp at hhash
          | some kt => exact ⟨kt, rfl⟩
        have := hashOf_assign s.pawnPositions s.activePlayerIds s.placedWalls s.playerTurnIndex
          s.playerTurnIndex s.playerTurn old m.pos s.zobristHash kOld kNew kt kt hold hOld' hNew'
          hkt hkt hhash
        rw [Nat.xor_cancel_right] at this
        exact this
      · obtain ⟨kOut, kIn, hOut, hIn, hz, hp, hw, ha⟩ := switchTurn_some _ _ happ
        rw [hz, hp, hw, ha]
        exact hashOf_assign s.pawnPositions s.activePlayerIds s.placedWalls s.playerTurnIndex
          s1.playerTurnIndex s.playerTurn old m.pos s.zobristHash kOld kNew kOut kIn hold hOld'
          hNew' hOut hIn hhash
    · exact absurd happ (by simp)
  · split at happ
    · -- wall move
      unfold applyWallPlacement at happ
      split at happ
      · exact absurd happ (by simp)
      · rename_i k hk
        obtain ⟨kOut, kIn, hOut, hIn, hz, hp, hw, ha⟩ := switchTurn_some _ _ happ
        rw [hz, hp, hw, ha]
        exact hashOf_wall s.pawnPositions s.activePlayerIds s.placedWalls s.playerTurnIndex
          s1.playerTurnIndex m.wall s.zobristHash k kOut kIn hk hOut hIn hhash
    · simp only [Option.some.injEq] at happ
      subst happ
      exact hhash

/-- C4, at the first pawn move of `twoSeatState`. -/
theorem applyMove_hash_consistent_witness :
    ∃ s1, applyMove twoSeatState (Move.cell ⟨3, 2⟩) twoSeatRoster = some s1 ∧
      Zobrist.computeHash s1 = some s1.zobristHash := by
  cases h : applyMove twoSeatState (Move.cell ⟨3, 2⟩) twoSeatRoster with
  | none => exact absurd h (by decide)
  | some s1 =>
    exact ⟨s1, rfl, applyMove_hash_consistent twoSeatState (Move.cell ⟨3, 2⟩) twoSeatRoster s1
      (by decide) (by decide) (by decide) ⟨⟨4, 2⟩, by decide⟩ h⟩

/-- C4 (counterexample): `noPawnState` has the hash `computeHash` gives, its
`playerTurn` is `activePlayerIds[playerTurnIndex]` and its only pawn belongs
to an active player; the mover has no pawn.  After the pawn move to (1, 1) the
incrementally updated hash differs from the recomputed one: `operator[]`
creates the missing pawn at (0, 0) and the key of that cell is XORed in. -/
theorem applyMove_hash_mismatch :
    Zobrist.computeHash noPawnState = some noPawnState.zobristHash ∧
    vecAt noPawnState.activePlayerIds noPawnState.playerTurnIndex = some noPawnState.playerTurn ∧
    (∀ pair ∈ StrMap.entries noPawnState.pawnPositions, pair.1 ∈ noPawnState.activePlayerIds) ∧
    (applyMove noPawnState (Move.cell ⟨1, 1⟩) [playerOfId "p1", playerOfId "p2"]).map
      (fun s1 => (s1.zobristHash, Zobrist.computeHash s1)) =
      some (7278667492915241622, some 3187020294116156198) := by
  refine ⟨by decide, by decide, by decide, by decide⟩

/-! ## Search -/

theorem negamaxUpTo_eq (players : List Player) (flags : Flags) (d : Nat) :
    negamaxUpTo players flags d =
      negamax players flags d :: (List.range d).reverse.map (negamax players flags) := by
  induction d with
  | zero => rfl
  | succ d ih =>
    have hneg : negamax players flags (d + 1) =
        negamaxNode players flags ((d : Int) + 1) (negamax players flags d)
          (((List.range d).reverse.map (negamax players flags)).get? 2) := by
      conv_lhs => unfold negamax
      rw [negamaxUpTo, ih]
    rw [hneg, List.range_succ, List.reverse_append, List.reverse_singleton, List.singleton_append,
      List.map_cons, negamaxUpTo, ih]

theorem negamax_zero_eq (players : List Player) (flags : Flags) :
    negamax players flags 0 = negamaxZero players flags := rfl

theorem negamax_succ_eq (players : List Player) (flags : Flags) (d : Nat) :
    negamax players flags (d + 1) =
      negamaxNode players flags ((d : Int) + 1) (negamax players flags d)
        (((List.range d).reverse.map (negamax players flags)).get? 2) := by
  conv_lhs => unfold negamax
  rw [negamaxUpTo, negamaxUpTo_eq]

theorem negamax_zero_plain (players : List Player) (ab : Bool) (s : GameState)
    (α β c ply : Int) (tbl : Table) :
    negamax players ⟨ab, false, false⟩ 0 s α β c ply tbl = negamaxLeaf s players c ply tbl := by
  rw [negamax_zero_eq]
  simp [negamaxZero, probeTable]

theorem negamax_succ_plain (players : List Player) (ab : Bool) (d : Nat) (s : GameState)
    (α β c ply : Int) (tbl : Table) :
    negamax players ⟨ab, false, false⟩ (d + 1) s α β c ply tbl =
      if s.status = "ended" then negamaxLeaf s players c ply tbl
      else
        match generateAndOrderMoves s players with
        | none => none
        | some moves =>
          if moves.isEmpty then (evaluate s players).map (fun e => (c * e, tbl))
          else
            negamaxLoop
              (fun nextState a b t =>
                negamax players ⟨ab, false, false⟩ d nextState a b (-c) (ply + 1) t)
              s players ab β moves α (-INT_MAX) tbl := by
  rw [negamax_succ_eq]
  have hnull : ∀ ns, nullMovePrune ⟨ab, false, false⟩ ns s β c ply tbl = some (false, tbl) := by
    intro ns
    cases ns <;> simp [nullMovePrune]
  simp only [negamaxNode, probeTable, Bool.false_eq_true, if_false, storeTable, hnull]
  by_cases hend : s.status = "ended"
  · rw [if_pos hend, if_pos hend]
  · rw [if_neg hend, if_neg hend]
    cases generateAndOrderMoves s players with
    | none => rfl
    | some moves =>
      simp only
      by_cases hemp : moves.isEmpty = true
      · rw [if_pos hemp, if_pos hemp]
      · rw [if_neg hemp, if_neg hemp]
        cases negamaxLoop
          (fun nextState a b t =>
            negamax players ⟨ab, false, false⟩ d nextState a b (-c) (ply + 1) t)
          s players ab β moves α (-INT_MAX) tbl with
        | none => rfl
        | some r => rfl

theorem plyAdjust_tame (e ply : Int) (ht : tameEval e = true) (h0 : 0 ≤ ply)
    (h1 : ply ≤ INT_MAX) :
    plyAdjust e ply =
      (if (if e = INT_MAX then e - ply else e) = -INT_MAX
        then (if e = INT_MAX then e - ply else e) + ply
        else (if e = INT_MAX then e - ply else e)) ∧
    -INT_MAX ≤ plyAdjust e ply ∧ plyAdjust e ply ≤ INT_MAX := by
  unfold tameEval at ht
  unfold plyAdjust
  simp only [INT_MAX, Bool.or_eq_true, Bool.and_eq_true, decide_eq_true_eq] at *
  split_ifs <;> omega

theorem leaf_agree (players : List Player) (s : GameState) (c ply v : Int) (tbl : Table)
    (ht : tameNode players s = true) (h0 : 0 ≤ ply) (h1 : ply ≤ INT_MAX)
    (hv : minimaxLeaf s players ply = some v) :
    negamaxLeaf s players c ply tbl = some (c * v, tbl) ∧ -INT_MAX ≤ v ∧ v ≤ INT_MAX := by
  unfold minimaxLeaf at hv
  unfold negamaxLeaf
  unfold tameNode at ht
  cases he : evaluate s players with
  | none => rw [he] at hv; exact absurd hv (by simp)
  | some e =>
    rw [he] at hv ht
    simp only at ht
    obtain ⟨h2, h3, h4⟩ := plyAdjust_tame e ply ht h0 h1
    simp only [Option.map_some', Option.some.injEq] at hv
    rw [← h2] at hv
    subst hv
    exact ⟨rfl, h3, h4⟩

theorem minimaxLoop_mono (child : GameState → Option Int) (s : GameState)
    (players : List Player) (mx : Bool) :
    ∀ (moves : List Move) (acc v : Int),
      minimaxLoop child s players mx moves acc = some v →
      if mx then acc ≤ v else v ≤ acc := by
  intro moves
  induction moves with
  | nil =>
    intro acc v h
    simp only [minimaxLoop, Option.some.injEq] at h
    subst h
    split <;> exact le_refl _
  | cons mv rest ih =>
    intro acc v h
    rw [minimaxLoop] at h
    cases happ : applyMove s mv players with
    | none => rw [happ] at h; exact absurd h (by simp)
    | some ns =>
      rw [happ] at h
      simp only at h
      cases hch : child ns with
      | none => rw [hch] at h; exact absurd h (by simp)
      | some ev =>
        rw [hch] at h
        simp only at h
        have := ih _ v h
        cases mx
        · simp only [Bool.false_eq_true, if_false] at this ⊢
          have := min_le_left acc ev
          omega
        · simp only [if_true] at this ⊢
          have := le_max_left acc ev
          omega

theorem minimaxLoop_bounds (child : GameState → Option Int) (s : GameState)
    (players : List Player) (mx : Bool) :
    ∀ (moves : List Move) (acc v : Int),
      (∀ mv ∈ moves, ∀ ns, applyMove s mv players = some ns → ∀ ev, child ns = some ev →
        -INT_MAX ≤ ev ∧ ev ≤ INT_MAX) →
      -INT_MAX ≤ acc ∧ acc ≤ INT_MAX →
      minimaxLoop child s players mx moves acc = some v → -INT_MAX ≤ v ∧ v ≤ INT_MAX := by
  intro moves
  induction moves with
  | nil =>
    intro acc v _ hacc h
    simp only [minimaxLoop, Option.some.injEq] at h
    subst h
    exact hacc
  | cons mv rest ih =>
    intro acc v hchild hacc h
    rw [minimaxLoop] at h
    cases happ : applyMove s mv players with
    | none => rw [happ] at h; exact absurd h (by simp)
    | some ns =>
      rw [happ] at h
      simp only at h
      cases hch : child ns with
      | none => rw [hch] at h; exact absurd h (by simp)
      | some ev =>
        rw [hch] at h
        simp only at h
        have hev := hchild mv (List.mem_cons_self _ _) ns happ ev hch
        refine ih _ v (fun mv1 hmv1 => hchild mv1 (List.mem_cons_of_mem _ hmv1)) ?_ h
        cases mx
        · simp only [Bool.false_eq_true, if_false, min_def]
          split_ifs <;> omega
        · simp only [if_true, max_def]
          split_ifs <;> omega

theorem negamaxLoop_failSoft (players : List Player) (d : Nat) (s : GameState) (mx : Bool)
    (α β ply : Int) (tbl : Table) (hα : -INT_MAX ≤ α) (hβ : β ≤ INT_MAX)
    (hchild : ∀ ns α1 β1 v1, -INT_MAX ≤ α1 → α1 < β1 → β1 ≤ INT_MAX →
      tameTree players d ns = true → minimax players d ns (!mx) (ply + 1) = some v1 →
      ∃ r, negamax players alphaBetaOnly d ns α1 β1 (-colorOf mx) (ply + 1) tbl = some (r, tbl) ∧
        FailSoft α1 β1 (-colorOf mx * v1) r) :
    ∀ (moves : List Move) (a m acc v : Int),
      (∀ mv ∈ moves, ∀ ns, applyMove s mv players = some ns → tameTree players d ns = true) →
      minimaxLoop (fun ns => minimax players d ns (!mx) (ply + 1)) s players mx moves acc = some v →
      a = max α m → a < β → (m ≤ α → colorOf mx * acc ≤ m) → (α < m → m = colorOf mx * acc) →
      ∃ r, negamaxLoop
          (fun ns a b t => negamax players alphaBetaOnly d ns a b (-colorOf mx) (ply + 1) t)
          s players true β moves a m tbl = some (r, tbl) ∧
        FailSoft α β (colorOf mx * v) r := by
  intro moves
  induction moves with
  | nil =>
    intro a m acc v _ h ha hab hlow hexact
    simp only [minimaxLoop, Option.some.injEq] at h
    subst h
    refine ⟨m, rfl, hlow, ?_, fun h1 _ => hexact h1⟩
    intro h1
    have := le_max_right α m
    omega
  | cons mv rest ih =>
    intro a m acc v htame h ha hab hlow hexact
    rw [minimaxLoop] at h
    cases happ : applyMove s mv players with
    | none => rw [happ] at h; exact absurd h (by simp)
    | some ns =>
      rw [happ] at h
      simp only at h
      cases hch : minimax players d ns (!mx) (ply + 1) with
      | none => rw [hch] at h; exact absurd h (by simp)
      | some ev =>
        rw [hch] at h
        simp only at h
        have haα : α ≤ a := by rw [ha]; exact le_max_left α m
        have hma : m ≤ a := by rw [ha]; exact le_max_right α m
        obtain ⟨r0, hr0, hf1, hf2, hf3⟩ := hchild ns (-β) (-a) ev (by omega) (by omega) (by omega)
          (htame mv (List.mem_cons_self _ _) ns happ) hch
        have hmono := minimaxLoop_mono _ s players mx rest _ v h
        rw [negamaxLoop]
        simp only [happ, if_true, hr0, Bool.true_and, decide_eq_true_eq]
        by_cases hcut : max a (-r0) ≥ β
        · rw [if_pos hcut]
          refine ⟨_, rfl, ?_⟩
          have hval : β ≤ -r0 := by
            rcases le_total a (-r0) with h1 | h1
            · rw [max_eq_right h1] at hcut; exact hcut
            · rw [max_eq_left h1] at hcut; omega
          have hmax : max m (-r0) = -r0 := max_eq_right (by omega)
          rw [hmax]
          have hV := hf1 (by omega)
          refine ⟨fun h1 => by omega, fun _ => ?_, fun _ h2 => by omega⟩
          cases mx
          · simp only [colorOf, Bool.false_eq_true, if_false] at hV hmono ⊢
            have := min_le_right acc ev
            omega
          · simp only [colorOf, if_true] at hV hmono ⊢
            have := le_max_right acc ev
            omega
        · rw [if_neg hcut]
          have hlt : max a (-r0) < β := by omega
          have hvalβ : -r0 < β := lt_of_le_of_lt (le_max_right a (-r0)) hlt
          refine ih (max a (-r0)) (max m (-r0)) _ v
            (fun mv1 hmv1 => htame mv1 (List.mem_cons_of_mem _ hmv1)) h ?_ hlt ?_ ?_
          · rw [ha, max_assoc]
          · intro h1
            have hm1 : m ≤ α := le_trans (le_max_left m (-r0)) h1
            have hv1 : -r0 ≤ α := le_trans (le_max_right m (-r0)) h1
            have hV := hf2 (by omega)
            have hlow1 := hlow hm1
            cases mx
            · simp only [colorOf, Bool.false_eq_true, if_false] at hV hlow1 ⊢
              simp only [min_def, max_def]
              split_ifs <;> omega
            · simp only [colorOf, if_true] at hV hlow1 ⊢
              simp only [max_def]
              split_ifs <;> omega
          · intro h1
            by_cases hva : -r0 ≤ a
            · have hV := hf2 (by omega)
              have hαm : α < m := by
                by_contra hcon
                have : a = α := by rw [ha]; exact max_eq_left (by omega)
                have h2 : max m (-r0) ≤ α := max_le (by omega) (by omega)
                omega
              have hex := hexact hαm
              have ham : a = m := by rw [ha]; exact max_eq_right (by omega)
              cases mx
              · simp only [colorOf, Bool.false_eq_true, if_false] at hV hex ⊢
                simp only [min_def, max_def]
                split_ifs <;> omega
              · simp only [colorOf, if_true] at hV hex ⊢
                simp only [max_def]
                split_ifs <;> omega
            · have hV := hf3 (by omega) (by omega)
              have hM : colorOf mx * acc ≤ a := by
                by_cases hαm : α < m
                · have := hexact hαm; omega
                · have := hlow (by omega); omega
              cases mx
              · simp only [colorOf, Bool.false_eq_true, if_false] at hV hM ⊢
                simp only [min_def, max_def]
                split_ifs <;> omega
              · simp only [colorOf, if_true] at hV hM ⊢
                simp only [max_def]
                split_ifs <;> omega

theorem tameEval_bounds (e : Int) (h : tameEval e = true) : -INT_MAX ≤ e ∧ e ≤ INT_MAX := by
  unfold tameEval at h
  simp only [INT_MAX, Bool.or_eq_true, Bool.and_eq_true, decide_eq_true_eq] at *
  omega

theorem failSoft_exact (α β x : Int) : FailSoft α β x x :=
  ⟨fun _ => le_refl x, fun _ => le_refl x, fun _ _ => rfl⟩

theorem tameTree_succ (players : List Player) (d : Nat) (s : GameState) (moves : List Move)
    (h : tameTree players (d + 1) s = true)
    (hgen : generateAndOrderMoves s players = some moves) :
    tameNode players s = true ∧
      ∀ mv ∈ moves, ∀ ns, applyMove s mv players = some ns → tameTree players d ns = true := by
  rw [tameTree, hgen] at h
  simp only [Bool.and_eq_true, List.all_eq_true] at h
  refine ⟨h.1, ?_⟩
  intro mv hmv ns happ
  have := h.2 mv hmv
  rw [happ] at this
  exact this

theorem tameTree_node (players : List Player) (d : Nat) (s : GameState)
    (h : tameTree players d s = true) : tameNode players s = true := by
  cases d with
  | zero => exact h
  | succ d =>
    rw [tameTree] at h
    simp only [Bool.and_eq_true] at h
    exact h.1

/-- Alpha-beta `negamax` against `minimax` at every node: the result obeys the
fail-soft contract for the exact value `color * minimax`, which lies within
`[-INT_MAX, INT_MAX]`. -/
theorem negamax_failSoft_minimax (players : List Player) :
    ∀ (d : Nat) (s : GameState) (mx : Bool) (α β ply : Int) (tbl : Table) (v : Int),
      -INT_MAX ≤ α → α < β → β ≤ INT_MAX → 0 ≤ ply → ply + d ≤ INT_MAX →
      tameTree players d s = true → minimax players d s mx ply = some v →
      (∃ r, negamax players alphaBetaOnly d s α β (colorOf mx) ply tbl = some (r, tbl) ∧
        FailSoft α β (colorOf mx * v) r) ∧ -INT_MAX ≤ v ∧ v ≤ INT_MAX := by
  intro d
  induction d with
  | zero =>
    intro s mx α β ply tbl v _ _ _ h0 h1 ht hv
    rw [minimax] at hv
    obtain ⟨h2, h3, h4⟩ := leaf_agree players s (colorOf mx) ply v tbl ht h0
      (by simpa using h1) hv
    refine ⟨⟨_, ?_, failSoft_exact α β _⟩, h3, h4⟩
    unfold alphaBetaOnly
    rw [negamax_zero_plain]
    exact h2
  | succ d ih =>
    intro s mx α β ply tbl v hα hαβ hβ h0 h1 ht hv
    have hply : ply ≤ INT_MAX := by push_cast at h1; omega
    unfold alphaBetaOnly
    rw [negamax_succ_plain]
    rw [minimax] at hv
    by_cases hend : s.status = "ended"
    · rw [if_pos hend] at hv ⊢
      obtain ⟨h2, h3, h4⟩ := leaf_agree players s (colorOf mx) ply v tbl
        (tameTree_node players _ s ht) h0 hply hv
      exact ⟨⟨_, h2, failSoft_exact α β _⟩, h3, h4⟩
    · rw [if_neg hend] at hv ⊢
      cases hgen : generateAndOrderMoves s players with
      | none => rw [hgen] at hv; exact absurd hv (by simp)
      | some moves =>
        rw [hgen] at hv
        simp only at hv ⊢
        obtain ⟨htn, htc⟩ := tameTree_succ players d s moves ht hgen
        by_cases hemp : moves.isEmpty = true
        · rw [if_pos hemp] at hv ⊢
          rw [hv]
          unfold tameNode at htn
          rw [hv] at htn
          exact ⟨⟨_, rfl, failSoft_exact α β _⟩, tameEval_bounds v htn⟩
        · rw [if_neg hemp] at hv ⊢
          have hchildB : ∀ ns v1, minimax players d ns (!mx) (ply + 1) = some v1 →
              tameTree players d ns = true → -INT_MAX ≤ v1 ∧ v1 ≤ INT_MAX := by
            intro ns v1 hv1 htns
            exact (ih ns (!mx) (-INT_MAX) INT_MAX (ply + 1) tbl v1 (le_refl _)
              (by simp [INT_MAX]) (le_refl _) (by omega) (by push_cast at h1; omega) htns hv1).2
          have hchild : ∀ ns α1 β1 v1, -INT_MAX ≤ α1 → α1 < β1 → β1 ≤ INT_MAX →
              tameTree players d ns = true → minimax players d ns (!mx) (ply + 1) = some v1 →
              ∃ r, negamax players alphaBetaOnly d ns α1 β1 (-colorOf mx) (ply + 1) tbl =
                  some (r, tbl) ∧ FailSoft α1 β1 (-colorOf mx * v1) r := by
            intro ns α1 β1 v1 h1' h2' h3' htns hv1
            have hc : colorOf (!mx) = -colorOf mx := by cases mx <;> rfl
            have := (ih ns (!mx) α1 β1 (ply + 1) tbl v1 h1' h2' h3' (by omega)
              (by push_cast at h1; omega) htns hv1).1
            rw [hc] at this
            exact this
          have hinit : colorOf mx * (if mx = true then -INT_MAX else INT_MAX) = -INT_MAX := by
            cases mx <;> simp [colorOf]
          have hloop := negamaxLoop_failSoft players d s mx α β ply tbl hα hβ hchild moves α
            (-INT_MAX) (if mx = true then -INT_MAX else INT_MAX) v htc hv
            (by rw [max_eq_left hα]) hαβ (fun _ => by rw [hinit]) (fun _ => hinit.symm)
          refine ⟨hloop, ?_⟩
          refine minimaxLoop_bounds _ s players mx moves _ v ?_ ?_ hv
          · intro mv hmv ns happ ev hev
            exact hchildB ns ev hev (htc mv hmv ns happ)
          · cases mx <;> simp [INT_MAX]

/-- C5 (amended): for every state, roster and depth between 0 and `INT_MAX` for
which `minimax` is defined and in whose search tree no static evaluation lies
in the mate range of `negamax` without being a mate score `±INT_MAX`,
`negamax(state, depth, -INT_MAX, INT_MAX, 1, ply = 0)` with alpha-beta
enabled, null-move pruning disabled and the table disabled returns the value
of `minimax(state, depth, true, ply = 0)` and leaves the table alone. -/
theorem negamax_alphaBeta_eq_minimax (players : List Player) (depth : Nat) (state : GameState)
    (table : Table) (v : Int) (hdepth : (depth : Int) ≤ INT_MAX)
    (htame : tameTree players depth state = true)
    (hmm : minimax players depth state true 0 = some v) :
    negamax players alphaBetaOnly depth state (-INT_MAX) INT_MAX 1 0 table = some (v, table) := by
  obtain ⟨⟨r, hr, hf1, hf2, hf3⟩, hlo, hhi⟩ := negamax_failSoft_minimax players depth state true
    (-INT_MAX) INT_MAX 0 table v (le_refl _) (by simp [INT_MAX]) (le_refl _) (le_refl _)
    (by omega) htame hmm
  have hc : colorOf true = 1 := rfl
  rw [hc] at hr hf1 hf2 hf3
  rw [hr]
  have hrv : r = v := by
    by_cases h1 : r ≤ -INT_MAX
    · have := hf1 h1; omega
    · by_cases h2 : INT_MAX ≤ r
      · have := hf2 h2; omega
      · have := hf3 (by omega) (by omega); omega
  rw [hrv]

/-- C5, at depth 2 in `twoSeatState`. -/
theorem negamax_alphaBeta_eq_minimax_witness :
    minimax twoSeatRoster 2 twoSeatState true 0 = some 22 ∧
    negamax twoSeatRoster alphaBetaOnly 2 twoSeatState (-INT_MAX) INT_MAX 1 0 [] = some (22, []) :=
  ⟨by decide!, negamax_alphaBeta_eq_minimax twoSeatRoster 2 twoSeatState [] 22 (by decide)
    (by decide!) (by decide!)⟩

/-- C5 (counterexample): in `richState` the static evaluation 2020000 of the
positions one ply down lies in the mate range of `negamax` (above 900000), so
`negamax` lowers it by the ply while `minimax`, which adjusts only the exact
mate score `INT_MAX`, does not: at depth 1 the two values differ. -/
theorem negamax_alphaBeta_ne_minimax :
    minimax twoSeatRoster 1 richState true 0 = some 2020000 ∧
    negamax twoSeatRoster alphaBetaOnly 1 richState (-INT_MAX) INT_MAX 1 0 [] =
      some (2019999, []) := by
  constructor <;> decide!

/-! ## Transposition table -/

/-- C14: for every state, roster and initial table, `findBestMove` called with
a target depth of 0 or less returns what it returns with target depth 4. -/
theorem findBestMove_default_depth (snapshot : GameState) (players : List Player)
    (targetDepth : Int) (table : Table) (h : targetDepth ≤ 0) :
    findBestMove snapshot players targetDepth table = findBestMove snapshot players 4 table := by
  unfold findBestMove
  cases jsToCppState snapshot with
  | none => rfl
  | some state =>
    simp only
    unfold findBestMoveWith
    have h1 : ¬targetDepth > 0 := by omega
    simp only [h1, if_false]
    rfl

/-- C14, at target depth -3 in `twoSeatState`. -/
theorem findBestMove_default_depth_witness :
    findBestMove twoSeatState twoSeatRoster (-3) [] = findBestMove twoSeatState twoSeatRoster 4 [] :=
  findBestMove_default_depth twoSeatState twoSeatRoster (-3) [] (by decide)

/-! ## Turn rotation -/

/-- C20: for a state whose turn index addresses `activePlayerIds` (and the
four turn keys), `switchTurn` returns a state with
`playerTurnIndex = (playerTurnIndex + 1) mod |activePlayerIds|` and
`playerTurn = activePlayerIds[playerTurnIndex]`; and whenever
`playerTurn = activePlayerIds[playerTurnIndex]` holds before `applyMove`, it
holds, with the index in range, in the state `applyMove` returns. -/
theorem switchTurn_keeps_turn_consistent (state : GameState) (hturn : TurnOk state) :
    (∃ s, switchTurn state = some s ∧
      s.playerTurnIndex =
        (state.playerTurnIndex + 1) % (state.activePlayerIds.length : Int) ∧
      vecAt state.activePlayerIds s.playerTurnIndex = some s.playerTurn ∧
      s.activePlayerIds = state.activePlayerIds) ∧
    ∀ (m : Move) (players : List Player) (s1 : GameState),
      vecAt state.activePlayerIds state.playerTurnIndex = some state.playerTurn →
      applyMove state m players = some s1 →
      vecAt s1.activePlayerIds s1.playerTurnIndex = some s1.playerTurn ∧
        0 ≤ s1.playerTurnIndex ∧ s1.playerTurnIndex < (s1.activePlayerIds.length : Int) := by
  have hrange : ∀ (g s : GameState), TurnOk g → switchTurn g = some s →
      vecAt s.activePlayerIds s.playerTurnIndex = some s.playerTurn ∧
        0 ≤ s.playerTurnIndex ∧ s.playerTurnIndex < (s.activePlayerIds.length : Int) := by
    intro g s hg hs
    obtain ⟨s', _, _, hs', _, _, _, hidx, hid, _, _, _, _, ha, _, _⟩ := switchTurn_spec g hg
    rw [hs] at hs'
    cases hs'
    obtain ⟨h0, hl, _⟩ := hg
    have hpos : (0 : Int) < g.activePlayerIds.length := by omega
    rw [ha]
    refine ⟨hid, ?_, ?_⟩
    · rw [hidx]; exact Int.emod_nonneg _ (ne_of_gt hpos)
    · rw [hidx]; exact Int.emod_lt_of_pos _ hpos
  constructor
  · obtain ⟨s, _, _, hs, _, _, _, hidx, hid, _, _, _, _, ha, _, _⟩ := switchTurn_spec state hturn
    exact ⟨s, hs, hidx, hid, ha⟩
  · intro m players s1 hinv happ
    unfold applyMove at happ
    split at happ
    · unfold applyPawnMove at happ
      simp only at happ
      split at happ
      · split at happ
        · simp only [Option.some.injEq] at happ
          subst happ
          exact ⟨hinv, hturn.1, hturn.2.1⟩
        · refine hrange _ _ ?_ happ
          exact hturn
      · exact absurd happ (by simp)
    · split at happ
      · unfold applyWallPlacement at happ
        split at happ
        · exact absurd happ (by simp)
        · simp only at happ
          refine hrange _ _ ?_ happ
          exact hturn
      · simp only [Option.some.injEq] at happ
        subst happ
        exact ⟨hinv, hturn.1, hturn.2.1⟩

/-- C20, in `twoSeatState`. -/
theorem switchTurn_keeps_turn_consistent_witness :
    (switchTurn twoSeatState).map (fun s => (s.playerTurnIndex, s.playerTurn)) = some (1, "p3") ∧
    ∃ s, switchTurn twoSeatState = some s ∧
      s.playerTurnIndex =
        (twoSeatState.playerTurnIndex + 1) % (twoSeatState.activePlayerIds.length : Int) ∧
      vecAt twoSeatState.activePlayerIds s.playerTurnIndex = some s.playerTurn ∧
      s.activePlayerIds = twoSeatState.activePlayerIds :=
  ⟨by decide, (switchTurn_keeps_turn_consistent twoSeatState (by unfold TurnOk; decide)).1⟩

/-! ## Destinations of pawn moves -/

/-- C11 (counterexample): with the roster "p1", "p2", "p3" of which only "p1"
and "p3" are active, the mover "p1" at (3, 1) is offered the cell (2, 1), which
the pawn of "p2" occupies in `pawnPositions`: only the pawns of active
players are filtered out. -/
theorem pawn_move_onto_inactive_pawn :
    StrMap.find idlePawnPositions "p2" = some ⟨2, 1⟩ ∧
    (⟨2, 1⟩ : PawnPos) ∈
      calculateLegalPawnMoves idlePawnPositions [] threeSeatRoster ["p1", "p3"] 0 5 := by
  constructor <;> decide

/-- No cell pushed for a neighbour of the pawn is the pawn's own cell. -/
theorem pawnMovesToward_ne_self (walls : List Wall) (opp : List PawnPos) (n : Int)
    (a m x : PawnPos) (hm : m ∈ neighbors a)
    (hx : x ∈ pawnMovesToward walls opp n a.row a.col m) : x ≠ a := by
  obtain ⟨ar, ac⟩ := a
  obtain ⟨mr, mc⟩ := m
  obtain ⟨xr, xc⟩ := x
  simp only [neighbors, List.mem_cons, PawnPos.mk.injEq, List.mem_singleton, List.not_mem_nil,
    or_false] at hm
  unfold pawnMovesToward at hx
  simp only at hx
  intro heq
  simp only [PawnPos.mk.injEq] at heq
  obtain ⟨h1, h2⟩ := heq
  subst h1 h2
  split at hx
  · exact absurd hx (List.not_mem_nil _)
  · split at hx
    · exact absurd hx (List.not_mem_nil _)
    · split at hx
      · rename_i o ho
        have hp := List.find?_some ho
        simp only [Bool.and_eq_true, decide_eq_true_eq] at hp
        obtain ⟨or_, oc⟩ := o
        simp only at hp hx
        obtain ⟨hp1, hp2⟩ := hp
        subst hp1 hp2
        split at hx
        · simp only [List.mem_singleton, PawnPos.mk.injEq] at hx
          omega
        · split at hx
          · simp only [List.mem_append] at hx
            rcases hx with hx | hx <;> split at hx <;>
              simp only [List.mem_singleton, PawnPos.mk.injEq, List.not_mem_nil] at hx <;> omega
          · simp only [List.mem_append] at hx
            rcases hx with hx | hx <;> split at hx <;>
              simp only [List.mem_singleton, PawnPos.mk.injEq, List.not_mem_nil] at hx <;> omega
      · simp only [List.mem_singleton, PawnPos.mk.injEq] at hx
        omega

/-- C11 (amended): every cell returned by `calculateLegalPawnMoves` lies inside
the board, is not the cell of the mover's own pawn and is not the cell of the
pawn of any other roster player that is active. -/
theorem legal_pawn_moves_on_board_and_free (pawns : StrMap PawnPos) (walls : List Wall)
    (players : List Player) (active : List String) (idx n : Int) (x : PawnPos)
    (hx : x ∈ calculateLegalPawnMoves pawns walls players active idx n) :
    OnBoard n x ∧
    ∃ cur, vecAt active idx = some cur ∧ StrMap.find pawns cur ≠ some x ∧
      ∀ player ∈ players, player.id ≠ cur → player.id ∈ active →
        StrMap.find pawns player.id ≠ some x := by
  unfold calculateLegalPawnMoves at hx
  split at hx
  · exact absurd hx (List.not_mem_nil _)
  · split at hx
    · exact absurd hx (List.not_mem_nil _)
    · rename_i cur hcur
      split at hx
      · exact absurd hx (List.not_mem_nil _)
      · rename_i a ha
        simp only [List.mem_filter, List.mem_flatMap, Bool.not_eq_true'] at hx
        obtain ⟨⟨m, hm, hxm⟩, hrem⟩ := hx
        unfold removedPawnMove at hrem
        simp only [Bool.or_eq_false_iff, decide_eq_false_iff_not, List.any_eq_false,
          Bool.and_eq_true, decide_eq_true_eq, not_and] at hrem
        obtain ⟨⟨⟨⟨hopp, h1⟩, h2⟩, h3⟩, h4⟩ := hrem
        refine ⟨⟨by omega, by omega, by omega, by omega⟩, cur, hcur, ?_, ?_⟩
        · rw [ha]
          intro heq
          have hne := pawnMovesToward_ne_self walls _ n a m x hm hxm
          exact hne (Option.some.inj heq).symm
        · intro player hpl hne hact hfind
          have hmem : x ∈ opponentPositions pawns players active cur := by
            unfold opponentPositions
            rw [List.mem_filterMap]
            refine ⟨player, hpl, ?_⟩
            rw [if_pos ⟨hne, hact⟩]
            exact hfind
          exact hopp x hmem rfl rfl

/-- C11, at the jump of "p3" over "p1" in a two-pawn position. -/
theorem legal_pawn_moves_on_board_and_free_witness :
    (⟨4, 1⟩ : PawnPos) ∈ calculateLegalPawnMoves [("p1", ⟨3, 1⟩), ("p3", ⟨2, 1⟩)] []
      threeSeatRoster ["p1", "p3"] 1 5 ∧
    OnBoard 5 ⟨4, 1⟩ ∧
    ∃ cur, vecAt ["p1", "p3"] 1 = some cur ∧
      StrMap.find [("p1", (⟨3, 1⟩ : PawnPos)), ("p3", ⟨2, 1⟩)] cur ≠ some ⟨4, 1⟩ ∧
      ∀ player ∈ threeSeatRoster, player.id ≠ cur → player.id ∈ ["p1", "p3"] →
        StrMap.find [("p1", (⟨3, 1⟩ : PawnPos)), ("p3", ⟨2, 1⟩)] player.id ≠ some ⟨4, 1⟩ :=
  ⟨by decide, legal_pawn_moves_on_board_and_free [("p1", ⟨3, 1⟩), ("p3", ⟨2, 1⟩)] []
    threeSeatRoster ["p1", "p3"] 1 5 ⟨4, 1⟩ (by decide)⟩

/-! ## Pawn moves and solvability -/

theorem isWallBetween_symm (walls : List Wall) (r1 c1 r2 c2 : Int) :
    isWallBetween walls r1 c1 r2 c2 = isWallBetween walls r2 c2 r1 c1 := by
  unfold isWallBetween
  by_cases hc : c1 = c2
  · subst hc
    simp only [if_true, min_comm]
  · have hc' : ¬c2 = c1 := fun h => hc h.symm
    rw [if_neg hc, if_neg hc']
    by_cases hr : r1 = r2
    · subst hr
      simp only [if_true, min_comm]
    · have hr' : ¬r2 = r1 := fun h => hr h.symm
      rw [if_neg hr, if_neg hr']

theorem StepOk.symm {walls : List Wall} {n : Int} {p q : PawnPos} (h : StepOk walls n p q)
    (hp : OnBoard n p) : StepOk walls n q p := by
  obtain ⟨hnb, -, hw⟩ := h
  refine ⟨?_, hp, ?_⟩
  · obtain ⟨pr, pc⟩ := p
    obtain ⟨qr, qc⟩ := q
    simp only [neighbors, List.mem_cons, PawnPos.mk.injEq, List.mem_singleton, List.not_mem_nil,
      or_false] at hnb ⊢
    omega
  · rw [isWallBetween_symm]
    exact hw

theorem Reach.trans {walls : List Wall} {n : Int} {s p q : PawnPos} {k j : Nat}
    (h1 : Reach walls n s k p) (h2 : Reach walls n p j q) : Reach walls n s (k + j) q := by
  induction h2 with
  | zero => exact h1
  | step _ hstep ih => exact Reach.step ih hstep

/-- A cell pushed for the neighbour `m` of the pawn at `a` is one legal step
from `a`, or one legal step from `m`, itself one legal step from `a`. -/
theorem pawnMovesToward_connected (walls : List Wall) (opp : List PawnPos) (n : Int)
    (a m x : PawnPos) (hm : m ∈ neighbors a)
    (hx : x ∈ pawnMovesToward walls opp n a.row a.col m) (hon : OnBoard n x) :
    StepOk walls n a x ∨ (StepOk walls n a m ∧ StepOk walls n m x) := by
  obtain ⟨ar, ac⟩ := a
  obtain ⟨mr, mc⟩ := m
  obtain ⟨xr, xc⟩ := x
  have hm' := hm
  simp only [neighbors, List.mem_cons, PawnPos.mk.injEq, List.mem_singleton, List.not_mem_nil,
    or_false] at hm'
  unfold pawnMovesToward at hx
  simp only at hx
  split at hx
  · exact absurd hx (List.not_mem_nil _)
  · rename_i hin
    have hmon : OnBoard n ⟨mr, mc⟩ := by
      unfold OnBoard
      simp only at hin ⊢
      omega
    split at hx
    · exact absurd hx (List.not_mem_nil _)
    · rename_i hwall
      have hstep : StepOk walls n ⟨ar, ac⟩ ⟨mr, mc⟩ := ⟨hm, hmon, by simpa using hwall⟩
      split at hx
      · rename_i o ho
        have hp := List.find?_some ho
        simp only [Bool.and_eq_true, decide_eq_true_eq] at hp
        obtain ⟨or_, oc⟩ := o
        simp only at hp hx
        obtain ⟨hp1, hp2⟩ := hp
        subst hp1 hp2
        refine Or.inr ⟨hstep, ?_⟩
        split at hx
        · rename_i hj
          simp only [List.mem_singleton, PawnPos.mk.injEq] at hx
          obtain ⟨h1, h2⟩ := hx
          subst h1 h2
          simp only [Bool.and_eq_true, Bool.not_eq_true', decide_eq_true_eq] at hj
          refine ⟨?_, hon, hj.1.1.1.1⟩
          simp only [neighbors, List.mem_cons, PawnPos.mk.injEq, List.mem_singleton,
            List.not_mem_nil, or_false]
          omega
        · split at hx
          · simp only [List.mem_append] at hx
            rcases hx with hx | hx <;> split at hx
            all_goals first
              | exact absurd hx (List.not_mem_nil _)
              | (rename_i hw
                 simp only [List.mem_singleton, PawnPos.mk.injEq] at hx
                 obtain ⟨h1, h2⟩ := hx
                 subst h1 h2
                 refine ⟨?_, hon, by simpa using hw⟩
                 simp [neighbors])
          · simp only [List.mem_append] at hx
            rcases hx with hx | hx <;> split at hx
            all_goals first
              | exact absurd hx (List.not_mem_nil _)
              | (rename_i hw
                 simp only [List.mem_singleton, PawnPos.mk.injEq] at hx
                 obtain ⟨h1, h2⟩ := hx
                 subst h1 h2
                 refine ⟨?_, hon, by simpa using hw⟩
                 simp [neighbors])
      · simp only [List.mem_singleton, PawnPos.mk.injEq] at hx
        obtain ⟨h1, h2⟩ := hx
        subst h1 h2
        exact Or.inl hstep

/-- A finite shortest path from a board cell means that a goal cell is reachable. -/
theorem goalReachable_iff_finitePath (pos : PawnPos) (goal : Int → Int → Int → Bool)
    (walls : List Wall) (n : Int) (hn : n ≤ 11) (hpos : OnBoard n pos) :
    FinitePath pos goal walls n ↔ GoalReachable walls n pos goal := by
  obtain ⟨r, hr, -, hspec⟩ := getShortestPathLength_spec pos goal walls n hn hpos
  unfold FinitePath
  rw [hr]
  constructor
  · rintro ⟨d, hd, hne⟩
    simp only [Option.some.injEq] at hd
    subst hd
    rcases hspec with ⟨h, -⟩ | ⟨k, -, ⟨p, hp, hg⟩, -⟩
    · exact absurd h hne
    · exact ⟨k, p, hp, hg⟩
  · intro hreach
    refine ⟨r, rfl, ?_⟩
    rcases hspec with ⟨-, hno⟩ | ⟨k, hk, -, -⟩
    · exact absurd hreach hno
    · omega

/-- C12: in a state whose board fits the `visited` array, whose turn index is
valid for the rotation and the roster and whose mover has a pawn on the board,
every destination `d` returned by `calculateLegalPawnMoves` has a finite
shortest path to every goal that the mover's pawn has a finite shortest path
to; and `applyMove` of the cell move to `d` returns a state in which the pawn
and the shortest path length of every other player are unchanged. -/
theorem pawn_move_keeps_paths (state : GameState) (players : List Player)
    (hn : state.boardSize ≤ 11) (hturn : TurnOk state)
    (hroster : state.playerTurnIndex < players.length)
    (hcur : vecAt state.activePlayerIds state.playerTurnIndex = some state.playerTurn)
    (a : PawnPos) (ha : StrMap.find state.pawnPositions state.playerTurn = some a)
    (hboard : OnBoard state.boardSize a) (d : PawnPos)
    (hd : d ∈ calculateLegalPawnMoves state.pawnPositions state.placedWalls players
      state.activePlayerIds state.playerTurnIndex state.boardSize) :
    (∀ goal : Int → Int → Int → Bool,
      FinitePath a goal state.placedWalls state.boardSize →
      FinitePath d goal state.placedWalls state.boardSize) ∧
    ∃ s1, applyMove state (Move.cell d) players = some s1 ∧
      ∀ (id : String) (goal : Int → Int → Int → Bool), id ≠ state.playerTurn →
        StrMap.find s1.pawnPositions id = StrMap.find state.pawnPositions id ∧
        (StrMap.find s1.pawnPositions id).bind
            (fun pos => getShortestPathLength pos goal s1.placedWalls s1.boardSize) =
          (StrMap.find state.pawnPositions id).bind
            (fun pos => getShortestPathLength pos goal state.placedWalls state.boardSize) := by
  obtain ⟨h0, hl, h4⟩ := hturn
  rw [mem_calculateLegalPawnMoves _ _ _ _ _ _ _ a ⟨h0, hl⟩ hcur ha] at hd
  obtain ⟨⟨m, hm, hxm⟩, hrem⟩ := hd
  have hon : OnBoard state.boardSize d := by
    unfold removedPawnMove at hrem
    simp only [Bool.or_eq_false_iff, decide_eq_false_iff_not] at hrem
    unfold OnBoard
    omega
  constructor
  · intro goal hpath
    rw [goalReachable_iff_finitePath _ _ _ _ hn hboard] at hpath
    rw [goalReachable_iff_finitePath _ _ _ _ hn hon]
    obtain ⟨k, p, hreach, hg⟩ := hpath
    have hback : ∃ j, Reach state.placedWalls state.boardSize d j a := by
      rcases pawnMovesToward_connected _ _ _ a m d hm hxm hon with h | ⟨h1, h2⟩
      · exact ⟨1, Reach.step Reach.zero (h.symm hboard)⟩
      · exact ⟨2, Reach.step (Reach.step Reach.zero (h2.symm h1.2.1)) (h1.symm hboard)⟩
    obtain ⟨j, hj⟩ := hback
    exact ⟨j + k, p, hj.trans hreach, hg⟩
  · have hpos : (0 : Int) ≤ state.playerTurnIndex ∧ state.playerTurnIndex < 4 := by omega
    obtain ⟨kOld, hOld⟩ := pawnKeys_some state.playerTurnIndex a.row a.col hpos
      (by unfold OnBoard at hboard; omega) (by unfold OnBoard at hboard; omega)
    obtain ⟨kNew, hNew⟩ := pawnKeys_some state.playerTurnIndex d.row d.col hpos
      (by unfold OnBoard at hon; omega) (by unfold OnBoard at hon; omega)
    obtain ⟨pl, hpl⟩ := vecAt_some players state.playerTurnIndex h0 hroster
    have hmove : applyMove state (Move.cell d) players = applyPawnMove state d players := by
      unfold applyMove Move.cell
      simp
    rw [hmove]
    unfold applyPawnMove
    simp only [ha, Option.getD_some, hOld, hNew, hpl]
    split
    · refine ⟨_, rfl, ?_⟩
      intro id goal hid
      have hf := StrMap.find_assign_ne state.pawnPositions state.playerTurn id d hid
      simp only
      rw [hf]
      exact ⟨rfl, rfl⟩
    · obtain ⟨s, kOut, kIn, hs, -, -, -, -, -, hb, hp, -, hw, -, -, -⟩ :=
        switchTurn_spec { state with
          zobristHash := (state.zobristHash ^^^ kOld) ^^^ kNew
          pawnPositions := StrMap.assign state.pawnPositions state.playerTurn d } ⟨h0, hl, h4⟩
      refine ⟨s, hs, ?_⟩
      intro id goal hid
      have hf := StrMap.find_assign_ne state.pawnPositions state.playerTurn id d hid
      rw [hb, hp, hw]
      simp only
      rw [hf]
      exact ⟨rfl, rfl⟩

/-- C12, at the step of "p1" from (4, 2) to (3, 2) in the two-seat opening. -/
theorem pawn_move_keeps_paths_witness :
    (⟨3, 2⟩ : PawnPos) ∈ calculateLegalPawnMoves twoSeatState.pawnPositions
      twoSeatState.placedWalls twoSeatRoster twoSeatState.activePlayerIds
      twoSeatState.playerTurnIndex twoSeatState.boardSize ∧
    FinitePath ⟨4, 2⟩ (goalOfId "p1") twoSeatState.placedWalls twoSeatState.boardSize ∧
    ((∀ goal : Int → Int → Int → Bool,
      FinitePath ⟨4, 2⟩ goal twoSeatState.placedWalls twoSeatState.boardSize →
      FinitePath ⟨3, 2⟩ goal twoSeatState.placedWalls twoSeatState.boardSize) ∧
    ∃ s1, applyMove twoSeatState (Move.cell ⟨3, 2⟩) twoSeatRoster = some s1 ∧
      ∀ (id : String) (goal : Int → Int → Int → Bool), id ≠ twoSeatState.playerTurn →
        StrMap.find s1.pawnPositions id = StrMap.find twoSeatState.pawnPositions id ∧
        (StrMap.find s1.pawnPositions id).bind
            (fun pos => getShortestPathLength pos goal s1.placedWalls s1.boardSize) =
          (StrMap.find twoSeatState.pawnPositions id).bind
            (fun pos => getShortestPathLength pos goal twoSeatState.placedWalls
              twoSeatState.boardSize)) :=
  ⟨by decide, ⟨4, by decide, by decide⟩,
    pawn_move_keeps_paths twoSeatState twoSeatRoster (by decide)
      (by unfold TurnOk; decide) (by decide) (by decide) ⟨4, 2⟩ (by decide)
      (by unfold OnBoard; decide) ⟨3, 2⟩ (by decide)⟩

/-! ## Move ordering -/

theorem scanNeighbors_labels (goal : Int → Int → Int → Bool) (walls : List Wall) (n : Int)
    (u : PawnPos) (d : Int) :
    ∀ (pending : List PawnPos) (v : Visited) (q : List (PawnPos × Int)) (res : Scan),
      scanNeighbors goal walls n u d pending v q = some res →
      match res with
      | Scan.found x => x = d + 1
      | Scan.next _ q1 => ∀ e ∈ q1, e ∈ q ∨ e.2 = d + 1 := by
  intro pending
  induction pending with
  | nil =>
    intro v q res h
    simp only [scanNeighbors, Option.some.injEq] at h
    subst h
    intro e he
    exact Or.inl he
  | cons w rest ih =>
    intro v q res h
    rw [scanNeighbors] at h
    split at h
    · split at h
      · exact absurd h (by simp)
      · exact ih v q res h
      · split at h
        · simp only [Option.some.injEq] at h
          subst h
          rfl
        · split at h
          · exact absurd h (by simp)
          · rename_i v1 _
            have := ih v1 (q ++ [(w, d + 1)]) res h
            cases res with
            | found x => exact this
            | next v2 q2 =>
              intro e he
              rcases this e he with h1 | h1
              · rw [List.mem_append, List.mem_singleton] at h1
                rcases h1 with h1 | h1
                · exact Or.inl h1
                · exact Or.inr (by rw [h1])
              · exact Or.inr h1
    · exact ih v q res h

theorem bfsLoop_range (goal : Int → Int → Int → Bool) (walls : List Wall) (n : Int) (bound : Int) :
    ∀ (fuel : Nat) (v : Visited) (q : List (PawnPos × Int)) (r : Int),
      (∀ e ∈ q, 0 ≤ e.2 ∧ e.2 + fuel ≤ bound) → 0 ≤ bound →
      bfsLoop goal walls n fuel v q = some r → -1 ≤ r ∧ r ≤ bound := by
  intro fuel
  induction fuel with
  | zero =>
    intro v q r hq hb h
    cases q with
    | nil =>
      simp only [bfsLoop, Option.some.injEq] at h
      omega
    | cons e rest => simp [bfsLoop] at h
  | succ fuel ih =>
    intro v q r hq hb h
    cases q with
    | nil =>
      simp only [bfsLoop, Option.some.injEq] at h
      omega
    | cons e rest =>
      obtain ⟨u, d⟩ := e
      have hd := hq (u, d) (List.mem_cons_self _ _)
      simp only [Nat.cast_add, Nat.cast_one] at hd
      rw [bfsLoop] at h
      split at h
      · exact absurd h (by simp)
      · rename_i x hscan
        have := scanNeighbors_labels goal walls n u d _ _ _ _ hscan
        simp only at this
        simp only [Option.some.injEq] at h
        omega
      · rename_i v1 q1 hscan
        have hl := scanNeighbors_labels goal walls n u d _ _ _ _ hscan
        simp only at hl
        apply ih v1 q1 r _ hb h
        intro e he
        rcases hl e he with h1 | h1
        · have := hq e (List.mem_cons_of_mem _ h1)
          simp only [Nat.cast_add, Nat.cast_one] at this
          omega
        · omega

/-- Every result of the search is -1 or a distance of at most 122. -/
theorem getShortestPathLength_range (start : PawnPos) (goal : Int → Int → Int → Bool)
    (walls : List Wall) (n : Int) (r : Int)
    (h : getShortestPathLength start goal walls n = some r) : -1 ≤ r ∧ r ≤ 122 := by
  unfold getShortestPathLength at h
  split at h
  · simp only [Option.some.injEq] at h
    omega
  · split at h
    · exact absurd h (by simp)
    · apply bfsLoop_range goal walls n 122 bfsFuel _ _ r _ (by omega) h
      intro e he
      rw [List.mem_singleton] at he
      subst he
      simp [bfsFuel]

theorem insertScored_perm (x : Move × Int) (l : List (Move × Int)) :
    (insertScored x l).Perm (x :: l) := by
  induction l with
  | nil => exact List.Perm.refl _
  | cons y ys ih =>
    rw [insertScored]
    split
    · exact (List.Perm.cons y ih).trans (List.Perm.swap x y ys)
    · exact List.Perm.refl _

theorem sortScored_perm (l : List (Move × Int)) : (sortScored l).Perm l := by
  induction l with
  | nil => exact List.Perm.refl _
  | cons x xs ih =>
    show (insertScored x (sortScored xs)).Perm (x :: xs)
    exact (insertScored_perm x _).trans (List.Perm.cons x ih)

theorem insertScored_sorted (x : Move × Int) (l : List (Move × Int))
    (h : l.Pairwise (fun a b => b.2 ≤ a.2)) :
    (insertScored x l).Pairwise (fun a b => b.2 ≤ a.2) := by
  induction l with
  | nil => exact List.pairwise_singleton _ _
  | cons y ys ih =>
    rw [insertScored]
    rw [List.pairwise_cons] at h
    split
    · rename_i hgt
      rw [List.pairwise_cons]
      refine ⟨?_, ih h.2⟩
      intro b hb
      have hb1 := (insertScored_perm x ys).mem_iff.mp hb
      rw [List.mem_cons] at hb1
      rcases hb1 with hb1 | hb1
      · subst hb1
        omega
      · exact h.1 b hb1
    · rename_i hle
      rw [List.pairwise_cons]
      refine ⟨?_, List.pairwise_cons.mpr h⟩
      intro b hb
      rw [List.mem_cons] at hb
      rcases hb with hb | hb
      · subst hb
        omega
      · have := h.1 b hb
        omega

/-- The sorted list is in descending order of score. -/
theorem sortScored_sorted (l : List (Move × Int)) :
    (sortScored l).Pairwise (fun a b => b.2 ≤ a.2) := by
  induction l with
  | nil => exact List.Pairwise.nil
  | cons x xs ih => exact insertScored_sorted x _ ih

theorem findPlayer_foldl (id : String) (players : List Player) :
    ∀ (init : Option Player) (p : Player),
      players.foldl (fun found q => if q.id = id then some q else found) init = some p →
      init = some p ∨ (p ∈ players ∧ p.id = id) := by
  induction players with
  | nil =>
    intro init p h
    exact Or.inl h
  | cons q rest ih =>
    intro init p h
    rw [List.foldl_cons] at h
    rcases ih _ p h with h1 | ⟨h1, h2⟩
    · split at h1
      · rename_i hq
        simp only [Option.some.injEq] at h1
        subst h1
        exact Or.inr ⟨List.mem_cons_self _ _, hq⟩
      · exact Or.inl h1
    · exact Or.inr ⟨List.mem_cons_of_mem _ h1, h2⟩

/-- The roster entry found for an id carries that id. -/
theorem findPlayer_id (players : List Player) (id : String) (p : Player)
    (h : findPlayer players id = some p) : p.id = id := by
  rcases findPlayer_foldl id players none p h with h1 | ⟨-, h2⟩
  · exact absurd h1 (by simp)
  · exact h2

theorem scorePawnMoves_spec (state : GameState) (myPlayer : Player) (initialMyPath : Int) :
    ∀ (l : List PawnPos) (scored : List (Move × Int)),
      scorePawnMoves state myPlayer initialMyPath l = some scored →
      (∀ e ∈ scored, ∃ pos ∈ l, ∃ newMyPath, e.1 = Move.cell pos ∧
        getShortestPathLength pos myPlayer.goalCondition state.placedWalls state.boardSize =
          some newMyPath ∧
        e.2 = if myPlayer.goalCondition pos.row pos.col state.boardSize then INT_MAX
          else 10000 + (initialMyPath - newMyPath) * 100) ∧
      ∀ pos ∈ l, ∃ e ∈ scored, e.1 = Move.cell pos := by
  intro l
  induction l with
  | nil =>
    intro scored h
    simp only [scorePawnMoves, Option.some.injEq] at h
    subst h
    exact ⟨fun e he => absurd he (List.not_mem_nil _), fun p hp => absurd hp (List.not_mem_nil _)⟩
  | cons pos rest ih =>
    intro scored h
    rw [scorePawnMoves] at h
    split at h
    · exact absurd h (by simp)
    · rename_i newMyPath hnew
      split at h
      · exact absurd h (by simp)
      · rename_i tail htail
        obtain ⟨ih1, ih2⟩ := ih tail htail
        have hscored : scored = (Move.cell pos,
            if myPlayer.goalCondition pos.row pos.col state.boardSize then INT_MAX
            else 10000 + (initialMyPath - newMyPath) * 100) :: tail := by
          split at h <;> rename_i hg <;> simp only [Option.some.injEq] at h <;> rw [← h]
          · rw [if_pos hg]
          · rw [if_neg hg]
        subst hscored
        constructor
        · intro e he
          rw [List.mem_cons] at he
          rcases he with he | he
          · subst he
            exact ⟨pos, List.mem_cons_self _ _, newMyPath, rfl, hnew, rfl⟩
          · obtain ⟨p, hp, rest1⟩ := ih1 e he
            exact ⟨p, List.mem_cons_of_mem _ hp, rest1⟩
        · intro p hp
          rw [List.mem_cons] at hp
          rcases hp with hp | hp
          · subst hp
            exact ⟨_, List.mem_cons_self _ _, rfl⟩
          · obtain ⟨e, he, h1⟩ := ih2 p hp
            exact ⟨e, List.mem_cons_of_mem _ he, h1⟩

theorem scoreWallMoves_spec (state : GameState) (players : List Player) (myPos : PawnPos)
    (myPlayer : Player) (initialMyPath : Int) (opponentId : String) (opponentPlayer : Player)
    (initialOpponentPath : Int) :
    ∀ (l : List Wall) (scored : List (Move × Int)),
      scoreWallMoves state players myPos myPlayer initialMyPath opponentId opponentPlayer
        initialOpponentPath l = some scored →
      ∀ e ∈ scored, ∃ wall ∈ l, WallEntry state players myPos myPlayer initialMyPath opponentId
        opponentPlayer initialOpponentPath wall e := by
  intro l
  induction l with
  | nil =>
    intro scored h
    simp only [scoreWallMoves, Option.some.injEq] at h
    subst h
    exact fun e he => absurd he (List.not_mem_nil _)
  | cons wall rest ih =>
    intro scored h
    have lift : ∀ tail : List (Move × Int),
        (∀ e ∈ tail, ∃ w ∈ rest, WallEntry state players myPos myPlayer initialMyPath opponentId
          opponentPlayer initialOpponentPath w e) →
        ∀ e ∈ tail, ∃ w ∈ wall :: rest, WallEntry state players myPos myPlayer initialMyPath
          opponentId opponentPlayer initialOpponentPath w e := by
      intro tail ht e he
      obtain ⟨w, hw, rest1⟩ := ht e he
      exact ⟨w, List.mem_cons_of_mem _ hw, rest1⟩
    rw [scoreWallMoves] at h
    simp only at h
    split at h
    · exact absurd h (by simp)
    · exact lift scored (ih scored h)
    · rename_i hlegal
      split at h
      · exact absurd h (by simp)
      · rename_i newMyPath hmy
        split at h
        · exact lift scored (ih scored h)
        · rename_i hkeep
          split at h
          · exact absurd h (by simp)
          · rename_i oppPos hopp
            split at h
            · exact absurd h (by simp)
            · rename_i newOpponentPath hnewOpp
              split at h
              · rename_i hinc
                rw [Option.map_eq_some'] at h
                obtain ⟨tail, htail, hscored⟩ := h
                subst hscored
                intro e he
                rw [List.mem_cons] at he
                rcases he with he | he
                · subst he
                  refine ⟨wall, List.mem_cons_self _ _, newMyPath, oppPos, newOpponentPath, rfl,
                    hlegal, hmy, ?_, ?_, hopp, hnewOpp, hinc.1, ?_, rfl⟩
                  · omega
                  · omega
                  · omega
                · exact lift tail (ih tail htail) e he
              · exact lift scored (ih scored h)

theorem threatLoop_spec (state : GameState) (players : List Player) (myId : String) :
    ∀ (ids : List String) (acc res : Int × String × Option Player),
      (∀ id ∈ ids, id ∈ state.activePlayerIds) →
      threatLoop state players myId ids acc = some res →
      res.1 ≤ acc.1 ∧
      (res = acc ∨ ∃ player, res.2.2 = some player ∧
        Opponent state players myId res.2.1 player res.1) ∧
      ∀ id ∈ ids, ∀ player path, Opponent state players myId id player path → res.1 ≤ path := by
  intro ids
  induction ids with
  | nil =>
    intro acc res _ h
    simp only [threatLoop, Option.some.injEq] at h
    subst h
    exact ⟨le_refl _, Or.inl rfl, fun id hid => absurd hid (List.not_mem_nil _)⟩
  | cons id rest ih =>
    intro acc res hact h
    have hrest : ∀ x ∈ rest, x ∈ state.activePlayerIds :=
      fun x hx => hact x (List.mem_cons_of_mem _ hx)
    rw [threatLoop] at h
    split at h
    · rename_i hme
      obtain ⟨h1, h2, h3⟩ := ih acc res hrest h
      refine ⟨h1, h2, ?_⟩
      intro x hx player path hopp
      rw [List.mem_cons] at hx
      rcases hx with hx | hx
      · subst hx
        exact absurd hme hopp.2.1
      · exact h3 x hx player path hopp
    · rename_i hme
      split at h
      · rename_i tempOpponent pos hfind hpos
        split at h
        · exact absurd h (by simp)
        · rename_i path hpath
          obtain ⟨h1, h2, h3⟩ := ih _ res hrest h
          by_cases hc : path ≠ -1 ∧ path < acc.1
          · rw [if_pos hc] at h1 h2
            simp only at h1
            refine ⟨by omega, ?_, ?_⟩
            · rcases h2 with h2 | h2
              · refine Or.inr ⟨tempOpponent, by rw [h2], ?_⟩
                rw [h2]
                exact ⟨hact id (List.mem_cons_self _ _), hme, hfind, pos, hpos, hpath, hc.1⟩
              · exact Or.inr h2
            · intro x hx player path1 hopp
              rw [List.mem_cons] at hx
              rcases hx with hx | hx
              · subst hx
                obtain ⟨-, -, hf, pos1, hp1, hg1, -⟩ := hopp
                rw [hfind] at hf
                simp only [Option.some.injEq] at hf
                subst hf
                rw [hpos] at hp1
                simp only [Option.some.injEq] at hp1
                subst hp1
                rw [hpath] at hg1
                simp only [Option.some.injEq] at hg1
                omega
              · exact h3 x hx player path1 hopp
          · rw [if_neg hc] at h1 h2
            refine ⟨h1, h2, ?_⟩
            intro x hx player path1 hopp
            rw [List.mem_cons] at hx
            rcases hx with hx | hx
            · subst hx
              obtain ⟨-, -, hf, pos1, hp1, hg1, hne⟩ := hopp
              rw [hfind] at hf
              simp only [Option.some.injEq] at hf
              subst hf
              rw [hpos] at hp1
              simp only [Option.some.injEq] at hp1
              subst hp1
              rw [hpath] at hg1
              simp only [Option.some.injEq] at hg1
              subst hg1
              have : ¬path < acc.1 := fun hlt => hc ⟨hne, hlt⟩
              omega
            · exact h3 x hx player path1 hopp
      · rename_i hnone
        obtain ⟨h1, h2, h3⟩ := ih acc res hrest h
        refine ⟨h1, h2, ?_⟩
        intro x hx player path hopp
        rw [List.mem_cons] at hx
        rcases hx with hx | hx
        · subst hx
          obtain ⟨-, -, hf, pos1, hp1, -, -⟩ := hopp
          exact (hnone player pos1 hf hp1).elim
        · exact h3 x hx player path hopp

theorem getShortestPathLength_defined (start : PawnPos) (goal : Int → Int → Int → Bool)
    (walls : List Wall) (n : Int) (hn : n ≤ 11) (hstart : OnBoard n start) :
    ∃ r, getShortestPathLength start goal walls n = some r := by
  obtain ⟨r, hr, -⟩ := getShortestPathLength_spec start goal walls n hn hstart
  exact ⟨r, hr⟩

theorem threatLoop_defined (state : GameState) (players : List Player) (myId : String)
    (hn : state.boardSize ≤ 11) :
    ∀ (ids : List String) (acc : Int × String × Option Player),
      (∀ id ∈ ids, ∀ pos, StrMap.find state.pawnPositions id = some pos →
        OnBoard state.boardSize pos) →
      ∃ res, threatLoop state players myId ids acc = some res := by
  intro ids
  induction ids with
  | nil =>
    intro acc _
    exact ⟨acc, rfl⟩
  | cons id rest ih =>
    intro acc hon
    have hrest : ∀ x ∈ rest, ∀ pos, StrMap.find state.pawnPositions x = some pos →
        OnBoard state.boardSize pos := fun x hx => hon x (List.mem_cons_of_mem _ hx)
    rw [threatLoop]
    split
    · exact ih acc hrest
    · split
      · rename_i tempOpponent pos hfind hpos
        obtain ⟨r, hr⟩ := getShortestPathLength_defined pos tempOpponent.goalCondition
          state.placedWalls state.boardSize hn (hon id (List.mem_cons_self _ _) pos hpos)
        simp only [hr]
        exact ih _ hrest
      · exact ih acc hrest

theorem allPathsExist_defined (pawns : StrMap PawnPos) (players : List Player)
    (walls : List Wall) (n : Int) (hn : n ≤ 11) :
    ∀ ids : List String,
      (∀ id ∈ ids, ∀ pos, StrMap.find pawns id = some pos → OnBoard n pos) →
      ∃ b, allPathsExist pawns players walls n ids = some b := by
  intro ids
  induction ids with
  | nil =>
    intro _
    exact ⟨true, rfl⟩
  | cons id rest ih =>
    intro hon
    have hrest : ∀ x ∈ rest, ∀ pos, StrMap.find pawns x = some pos → OnBoard n pos :=
      fun x hx => hon x (List.mem_cons_of_mem _ hx)
    rw [allPathsExist]
    split
    · exact ih hrest
    · rename_i player hfind
      have hid := findPlayer_id players id player hfind
      split
      · exact ih hrest
      · rename_i pos hpos
        rw [hid] at hpos
        have hb := hon id (List.mem_cons_self _ _) pos hpos
        obtain ⟨r, hr⟩ := getShortestPathLength_defined pos player.goalCondition walls n hn hb
        have hrow : ¬pos.row = -1 := by
          unfold OnBoard at hb
          omega
        have hpe : pathExistsFor pos player.goalCondition walls n = some (r != -1) := by
          unfold pathExistsFor
          rw [if_neg hrow, hr]
          rfl
        rw [hpe]
        cases hc : (r != -1) with
        | false => exact ⟨false, rfl⟩
        | true => exact ih hrest

theorem isWallPlacementLegal_defined (w : Wall) (state : GameState) (players : List Player)
    (hn : state.boardSize ≤ 11) (hon : ActivePawnsOnBoard state) (left : Int)
    (hleft : StrMap.find state.wallsLeft state.playerTurn = some left) :
    ∃ b, isWallPlacementLegal w state players = some b := by
  unfold isWallPlacementLegal
  simp only [hleft]
  split
  · exact ⟨false, rfl⟩
  · split
    · exact ⟨false, rfl⟩
    · split
      · exact ⟨false, rfl⟩
      · exact allPathsExist_defined _ _ _ _ hn _ hon

theorem calculateLegalPawnMoves_onBoard (pawns : StrMap PawnPos) (walls : List Wall)
    (players : List Player) (active : List String) (idx n : Int) (x : PawnPos)
    (hx : x ∈ calculateLegalPawnMoves pawns walls players active idx n) : OnBoard n x := by
  unfold calculateLegalPawnMoves at hx
  split at hx
  · exact absurd hx (List.not_mem_nil _)
  · split at hx
    · exact absurd hx (List.not_mem_nil _)
    · split at hx
      · exact absurd hx (List.not_mem_nil _)
      · simp only [List.mem_filter, Bool.not_eq_true'] at hx
        have hrem := hx.2
        unfold removedPawnMove at hrem
        simp only [Bool.or_eq_false_iff, decide_eq_false_iff_not] at hrem
        unfold OnBoard
        omega

theorem scorePawnMoves_defined (state : GameState) (myPlayer : Player) (initialMyPath : Int)
    (hn : state.boardSize ≤ 11) :
    ∀ l : List PawnPos, (∀ pos ∈ l, OnBoard state.boardSize pos) →
      ∃ scored, scorePawnMoves state myPlayer initialMyPath l = some scored := by
  intro l
  induction l with
  | nil =>
    intro _
    exact ⟨[], rfl⟩
  | cons pos rest ih =>
    intro hon
    obtain ⟨tail, htail⟩ := ih (fun p hp => hon p (List.mem_cons_of_mem _ hp))
    obtain ⟨r, hr⟩ := getShortestPathLength_defined pos myPlayer.goalCondition
      state.placedWalls state.boardSize hn (hon pos (List.mem_cons_self _ _))
    rw [scorePawnMoves]
    simp only [hr, htail]
    split
    · exact ⟨_, rfl⟩
    · exact ⟨_, rfl⟩

theorem scoreWallMoves_defined (state : GameState) (players : List Player) (myPos : PawnPos)
    (myPlayer : Player) (initialMyPath : Int) (opponentId : String) (opponentPlayer : Player)
    (initialOpponentPath : Int) (hn : state.boardSize ≤ 11) (hon : ActivePawnsOnBoard state)
    (left : Int) (hleft : StrMap.find state.wallsLeft state.playerTurn = some left)
    (hmy : OnBoard state.boardSize myPos) (oppPos : PawnPos)
    (hopp : StrMap.find state.pawnPositions opponentId = some oppPos)
    (hoppOn : OnBoard state.boardSize oppPos) :
    ∀ l : List Wall, ∃ scored,
      scoreWallMoves state players myPos myPlayer initialMyPath opponentId opponentPlayer
        initialOpponentPath l = some scored := by
  intro l
  induction l with
  | nil => exact ⟨[], rfl⟩
  | cons wall rest ih =>
    obtain ⟨tail, htail⟩ := ih
    obtain ⟨b, hb⟩ := isWallPlacementLegal_defined wall state players hn hon left hleft
    obtain ⟨r1, hr1⟩ := getShortestPathLength_defined myPos myPlayer.goalCondition
      (state.placedWalls ++ [wall]) state.boardSize hn hmy
    obtain ⟨r2, hr2⟩ := getShortestPathLength_defined oppPos opponentPlayer.goalCondition
      (state.placedWalls ++ [wall]) state.boardSize hn hoppOn
    rw [scoreWallMoves]
    simp only [hb, htail, hr1, hopp, hr2]
    cases b with
    | false => exact ⟨_, rfl⟩
    | true =>
      simp only
      split
      · exact ⟨_, rfl⟩
      · split
        · exact ⟨_, rfl⟩
        · exact ⟨_, rfl⟩

/-- The list returned by `generateAndOrderMoves` is the projection of a list of
scored entries in descending order of score, each pushed by the pawn loop or
by the wall loop for the opponent of least path length, and every legal pawn
destination has an entry. -/
theorem generateAndOrderMoves_scored (state : GameState) (players : List Player)
    (myPlayer : Player) (moves : List Move)
    (hme : findPlayer players state.playerTurn = some myPlayer)
    (h : generateAndOrderMoves state players = some moves) :
    ∃ (initialOpponentPath : Int) (opponentId : String) (myPos : PawnPos) (initialMyPath : Int)
      (scored : List (Move × Int)),
      StrMap.find state.pawnPositions state.playerTurn = some myPos ∧
      getShortestPathLength myPos myPlayer.goalCondition state.placedWalls state.boardSize =
        some initialMyPath ∧
      (∀ id player path, Opponent state players state.playerTurn id player path →
        initialOpponentPath ≤ path) ∧
      moves = scored.map (fun sm => sm.1) ∧
      scored.Pairwise (fun a b => b.2 ≤ a.2) ∧
      (∀ e ∈ scored, PawnEntry state players myPlayer initialMyPath e ∨
        ∃ opponentPlayer wall,
          Opponent state players state.playerTurn opponentId opponentPlayer initialOpponentPath ∧
          WallEntry state players myPos myPlayer initialMyPath opponentId opponentPlayer
            initialOpponentPath wall e) ∧
      ∀ pos ∈ calculateLegalPawnMoves state.pawnPositions state.placedWalls players
          state.activePlayerIds state.playerTurnIndex state.boardSize,
        ∃ e ∈ scored, e.1 = Move.cell pos := by
  unfold generateAndOrderMoves at h
  simp only [hme] at h
  split at h
  · exact absurd h (by simp)
  · rename_i initialOpponentPath opponentId opponent hthreat
    obtain ⟨-, hres, hmin⟩ := threatLoop_spec state players state.playerTurn
      state.activePlayerIds _ _ (fun id hid => hid) hthreat
    simp only at hres
    split at h
    · exact absurd h (by simp)
    · rename_i myPos hpos
      split at h
      · exact absurd h (by simp)
      · rename_i initialMyPath hpath
        split at h
        · exact absurd h (by simp)
        · rename_i pawnScored hpawn
          obtain ⟨hp1, hp2⟩ := scorePawnMoves_spec state myPlayer initialMyPath _ _ hpawn
          split at h
          · exact absurd h (by simp)
          · rename_i wallScored hwall
            simp only [Option.some.injEq] at h
            have hwalls : ∀ e ∈ wallScored, ∃ opponentPlayer wall,
                Opponent state players state.playerTurn opponentId opponentPlayer
                  initialOpponentPath ∧
                WallEntry state players myPos myPlayer initialMyPath opponentId opponentPlayer
                  initialOpponentPath wall e := by
              intro e he
              split at hwall
              · rename_i left opponentPlayer hleft
                split at hwall
                · obtain ⟨wall, -, hentry⟩ := scoreWallMoves_spec state players myPos myPlayer
                    initialMyPath opponentId opponentPlayer initialOpponentPath _ _ hwall e he
                  refine ⟨opponentPlayer, wall, ?_, hentry⟩
                  rcases hres with hres | ⟨player, hpl, hopp⟩
                  · simp only [Prod.mk.injEq] at hres
                    exact absurd hres.2.2 (by simp)
                  · simp only [Option.some.injEq] at hpl
                    subst hpl
                    exact hopp
                · simp only [Option.some.injEq] at hwall
                  subst hwall
                  exact absurd he (List.not_mem_nil _)
              · simp only [Option.some.injEq] at hwall
                subst hwall
                exact absurd he (List.not_mem_nil _)
            refine ⟨initialOpponentPath, opponentId, myPos, initialMyPath,
              sortScored (pawnScored ++ wallScored), hpos, hpath, ?_, h.symm,
              sortScored_sorted _, ?_, ?_⟩
            · intro id player path hopp
              exact hmin id hopp.1 player path hopp
            · intro e he
              have he1 := (sortScored_perm _).mem_iff.mp he
              rw [List.mem_append] at he1
              rcases he1 with he1 | he1
              · exact Or.inl (hp1 e he1)
              · exact Or.inr (hwalls e he1)
            · intro pos hposmem
              obtain ⟨e, he, h1⟩ := hp2 pos hposmem
              exact ⟨e, (sortScored_perm _).mem_iff.mpr (List.mem_append_left _ he), h1⟩

/-- The move list is defined when the board fits the `visited` array, the
pawns of the active players are on the board and the mover, if on the roster,
has a pawn on the board. -/
theorem generateAndOrderMoves_defined (state : GameState) (players : List Player)
    (hn : state.boardSize ≤ 11) (hon : ActivePawnsOnBoard state)
    (hmine : ∃ pos, StrMap.find state.pawnPositions state.playerTurn = some pos ∧
      OnBoard state.boardSize pos) :
    ∃ moves, generateAndOrderMoves state players = some moves := by
  obtain ⟨myPos, hpos, hmyOn⟩ := hmine
  unfold generateAndOrderMoves
  simp only
  split
  · exact ⟨[], rfl⟩
  · rename_i myPlayer hme
    obtain ⟨res, hthreat⟩ := threatLoop_defined state players state.playerTurn hn
      state.activePlayerIds (MAX_EXPECTED_PATH + 1, "", none) hon
    obtain ⟨-, hres, -⟩ := threatLoop_spec state players state.playerTurn
      state.activePlayerIds _ _ (fun id hid => hid) hthreat
    obtain ⟨initialOpponentPath, opponentId, opponent⟩ := res
    simp only at hres
    obtain ⟨initialMyPath, hpath⟩ := getShortestPathLength_defined myPos myPlayer.goalCondition
      state.placedWalls state.boardSize hn hmyOn
    obtain ⟨pawnScored, hpawn⟩ := scorePawnMoves_defined state myPlayer initialMyPath hn
      (calculateLegalPawnMoves state.pawnPositions state.placedWalls players
        state.activePlayerIds state.playerTurnIndex state.boardSize)
      (fun pos hp => calculateLegalPawnMoves_onBoard _ _ _ _ _ _ pos hp)
    simp only [hthreat, hpos, hpath, hpawn]
    cases opponent with
    | none =>
      cases hleft : StrMap.find state.wallsLeft state.playerTurn <;> exact ⟨_, rfl⟩
    | some opponentPlayer =>
      cases hleft : StrMap.find state.wallsLeft state.playerTurn with
      | none => exact ⟨_, rfl⟩
      | some left =>
        simp only
        by_cases hl : left > 0
        · rw [if_pos hl]
          rcases hres with hres | ⟨player, hpl, hopp⟩
          · simp only [Prod.mk.injEq] at hres
            exact absurd hres.2.2 (by simp)
          · simp only [Option.some.injEq] at hpl
            subst hpl
            obtain ⟨hact, -, -, oppPos, hoppPos, -, -⟩ := hopp
            obtain ⟨wallScored, hw⟩ := scoreWallMoves_defined state players myPos myPlayer
              initialMyPath opponentId opponentPlayer initialOpponentPath hn hon left hleft hmyOn
              oppPos hoppPos (hon opponentId hact oppPos hoppPos) (candidateWalls state.boardSize)
            rw [hw]
            exact ⟨_, rfl⟩
        · rw [if_neg hl]
          exact ⟨_, rfl⟩

theorem pawnEntry_bound (state : GameState) (players : List Player) (myPlayer : Player)
    (myPos : PawnPos) (initialMyPath : Int) (e : Move × Int)
    (hinit : getShortestPathLength myPos myPlayer.goalCondition state.placedWalls
      state.boardSize = some initialMyPath)
    (he : PawnEntry state players myPlayer initialMyPath e) :
    e.1.type = "cell" ∧
    (WinningMove myPlayer.goalCondition state.boardSize e.1 → e.2 = INT_MAX) ∧
    (¬WinningMove myPlayer.goalCondition state.boardSize e.1 → e.2 ≤ 22300) := by
  obtain ⟨pos, -, newMyPath, h1, h2, h3⟩ := he
  have hr1 := getShortestPathLength_range _ _ _ _ _ hinit
  have hr2 := getShortestPathLength_range _ _ _ _ _ h2
  rw [h1]
  refine ⟨rfl, ?_, ?_⟩
  · rintro ⟨-, hg⟩
    simp only [Move.cell] at hg
    rw [h3, if_pos hg]
  · intro hnot
    have hg : ¬myPlayer.goalCondition pos.row pos.col state.boardSize = true :=
      fun hg => hnot ⟨rfl, hg⟩
    rw [h3, if_neg hg]
    omega

theorem wallEntry_bound (state : GameState) (players : List Player) (myPlayer : Player)
    (myPos : PawnPos) (initialMyPath : Int) (opponentId : String) (opponentPlayer : Player)
    (initialOpponentPath : Int) (wall : Wall) (e : Move × Int)
    (hopp : Opponent state players state.playerTurn opponentId opponentPlayer
      initialOpponentPath)
    (he : WallEntry state players myPos myPlayer initialMyPath opponentId opponentPlayer
      initialOpponentPath wall e) :
    e.1.type = "wall" ∧ e.2 ≤ 173000 ∧ (initialOpponentPath ≤ 2 → 51000 ≤ e.2) := by
  obtain ⟨newMyPath, oppPos, newOpponentPath, h1, -, -, -, -, -, h2, -, h3, h4⟩ := he
  obtain ⟨-, -, -, pos, -, hp, hne⟩ := hopp
  have hr1 := getShortestPathLength_range _ _ _ _ _ hp
  have hr2 := getShortestPathLength_range _ _ _ _ _ h2
  rw [h1]
  refine ⟨rfl, ?_, ?_⟩
  · rw [h4]
    split <;> omega
  · intro hle
    rw [h4, if_pos hle]
    omega

/-! ## Order of the generated moves -/

/-- An entry scores `INT_MAX` or more exactly when it is a winning pawn move. -/
theorem entry_winning (state : GameState) (players : List Player) (myPlayer : Player)
    (myPos : PawnPos) (initialMyPath initialOpponentPath : Int) (opponentId : String)
    (e : Move × Int)
    (hinit : getShortestPathLength myPos myPlayer.goalCondition state.placedWalls
      state.boardSize = some initialMyPath)
    (he : PawnEntry state players myPlayer initialMyPath e ∨
      ∃ opponentPlayer wall,
        Opponent state players state.playerTurn opponentId opponentPlayer initialOpponentPath ∧
        WallEntry state players myPos myPlayer initialMyPath opponentId opponentPlayer
          initialOpponentPath wall e) :
    (WinningMove myPlayer.goalCondition state.boardSize e.1 → e.2 = INT_MAX) ∧
    (INT_MAX ≤ e.2 → WinningMove myPlayer.goalCondition state.boardSize e.1 ∧
      ∃ pos, e.1 = Move.cell pos) := by
  rcases he with he | ⟨opponentPlayer, wall, hopp, he⟩
  · obtain ⟨-, h1, h2⟩ := pawnEntry_bound state players myPlayer myPos initialMyPath e hinit he
    refine ⟨h1, ?_⟩
    intro hmax
    obtain ⟨pos, -, -, hcell, -, -⟩ := he
    refine ⟨?_, pos, hcell⟩
    by_contra hnot
    have := h2 hnot
    unfold INT_MAX at hmax
    omega
  · obtain ⟨h1, h2, -⟩ := wallEntry_bound state players myPlayer myPos initialMyPath opponentId
      opponentPlayer initialOpponentPath wall e hopp he
    constructor
    · rintro ⟨hcell, -⟩
      rw [h1] at hcell
      exact absurd hcell (by decide)
    · intro hmax
      unfold INT_MAX at hmax
      omega

/-- C17: when some destination of `calculateLegalPawnMoves` satisfies the goal
predicate of the mover's roster entry, every list returned by
`generateAndOrderMoves` starts with a cell move whose destination satisfies
that predicate, and no move follows a later winning pawn move without being a
winning pawn move itself; the list is returned whenever the board fits the
`visited` array and the pawns of the mover and of the active players are on
the board. -/
theorem winning_pawn_moves_first (state : GameState) (players : List Player)
    (myPlayer : Player) (hme : findPlayer players state.playerTurn = some myPlayer)
    (d : PawnPos)
    (hd : d ∈ calculateLegalPawnMoves state.pawnPositions state.placedWalls players
      state.activePlayerIds state.playerTurnIndex state.boardSize)
    (hwin : myPlayer.goalCondition d.row d.col state.boardSize = true) :
    (state.boardSize ≤ 11 → ActivePawnsOnBoard state →
      (∃ pos, StrMap.find state.pawnPositions state.playerTurn = some pos ∧
        OnBoard state.boardSize pos) →
      ∃ moves, generateAndOrderMoves state players = some moves) ∧
    ∀ moves, generateAndOrderMoves state players = some moves →
      (∃ pos rest, moves = Move.cell pos :: rest ∧
        myPlayer.goalCondition pos.row pos.col state.boardSize = true) ∧
      moves.Pairwise (fun m1 m2 =>
        WinningMove myPlayer.goalCondition state.boardSize m2 →
        WinningMove myPlayer.goalCondition state.boardSize m1) := by
  refine ⟨generateAndOrderMoves_defined state players, ?_⟩
  intro moves hgen
  obtain ⟨initialOpponentPath, opponentId, myPos, initialMyPath, scored, -, hinit, -, hmoves,
    hsorted, hentries, hall⟩ := generateAndOrderMoves_scored state players myPlayer moves hme hgen
  have hwinning := fun e he => entry_winning state players myPlayer myPos initialMyPath
    initialOpponentPath opponentId e hinit (hentries e he)
  obtain ⟨e0, he0, hcell0⟩ := hall d hd
  have hmax0 : e0.2 = INT_MAX := by
    apply (hwinning e0 he0).1
    rw [hcell0]
    exact ⟨rfl, hwin⟩
  subst hmoves
  constructor
  · cases scored with
    | nil => exact absurd he0 (List.not_mem_nil _)
    | cons first rest =>
      have hfirst : INT_MAX ≤ first.2 := by
        rw [List.mem_cons] at he0
        rcases he0 with he0 | he0
        · rw [← he0, hmax0]
        · have := (List.pairwise_cons.mp hsorted).1 e0 he0
          omega
      obtain ⟨hw, pos, hpos⟩ := (hwinning first (List.mem_cons_self _ _)).2 hfirst
      refine ⟨pos, rest.map (fun sm => sm.1), ?_, ?_⟩
      · rw [List.map_cons, hpos]
      · have := hw.2
        rw [hpos] at this
        exact this
  · rw [List.pairwise_map]
    refine hsorted.imp_of_mem ?_
    intro a b ha hb hle hwb
    have := (hwinning b hb).1 hwb
    exact ((hwinning a ha).2 (by omega)).1

/-- C17, on the 5 x 5 position in which "p1" stands one step from row 0. -/
theorem winning_pawn_moves_first_witness :
    (generateAndOrderMoves nearGoalState twoSeatRoster).map (fun l => l.head?) =
      some (some (Move.cell ⟨0, 2⟩)) ∧
    ((nearGoalState.boardSize ≤ 11 → ActivePawnsOnBoard nearGoalState →
      (∃ pos, StrMap.find nearGoalState.pawnPositions nearGoalState.playerTurn = some pos ∧
        OnBoard nearGoalState.boardSize pos) →
      ∃ moves, generateAndOrderMoves nearGoalState twoSeatRoster = some moves) ∧
    ∀ moves, generateAndOrderMoves nearGoalState twoSeatRoster = some moves →
      (∃ pos rest, moves = Move.cell pos :: rest ∧
        (playerOfId "p1").goalCondition pos.row pos.col nearGoalState.boardSize = true) ∧
      moves.Pairwise (fun m1 m2 =>
        WinningMove (playerOfId "p1").goalCondition nearGoalState.boardSize m2 →
        WinningMove (playerOfId "p1").goalCondition nearGoalState.boardSize m1)) :=
  ⟨by decide, winning_pawn_moves_first nearGoalState twoSeatRoster (playerOfId "p1") rfl ⟨0, 2⟩
    (by decide) rfl⟩

/-- C18: every wall move in a list returned by `generateAndOrderMoves` is a
placement that `isWallPlacementLegal` accepts, with which the mover's
shortest path is found and not longer than without it, and with which the
shortest path of the most threatening opponent, the measured opponent of
least path length, is found and strictly longer than without it; the list is
returned whenever the board fits the `visited` array and the pawns of the
mover and of the active players are on the board. -/
theorem wall_moves_legal_and_blocking (state : GameState) (players : List Player) :
    (state.boardSize ≤ 11 → ActivePawnsOnBoard state →
      (∃ pos, StrMap.find state.pawnPositions state.playerTurn = some pos ∧
        OnBoard state.boardSize pos) →
      ∃ moves, generateAndOrderMoves state players = some moves) ∧
    ∀ moves, generateAndOrderMoves state players = some moves →
      ∀ m ∈ moves, m.type = "wall" →
        isWallPlacementLegal m.wall state players = some true ∧
        (∃ myPlayer myPos initialMyPath newMyPath,
          findPlayer players state.playerTurn = some myPlayer ∧
          StrMap.find state.pawnPositions state.playerTurn = some myPos ∧
          getShortestPathLength myPos myPlayer.goalCondition state.placedWalls
            state.boardSize = some initialMyPath ∧
          getShortestPathLength myPos myPlayer.goalCondition (state.placedWalls ++ [m.wall])
            state.boardSize = some newMyPath ∧
          newMyPath ≠ -1 ∧ newMyPath ≤ initialMyPath) ∧
        ∃ opponentId opponentPlayer oppPos initialOpponentPath newOpponentPath,
          Opponent state players state.playerTurn opponentId opponentPlayer
            initialOpponentPath ∧
          (∀ id player path, Opponent state players state.playerTurn id player path →
            initialOpponentPath ≤ path) ∧
          StrMap.find state.pawnPositions opponentId = some oppPos ∧
          getShortestPathLength oppPos opponentPlayer.goalCondition
            (state.placedWalls ++ [m.wall]) state.boardSize = some newOpponentPath ∧
          newOpponentPath ≠ -1 ∧ initialOpponentPath < newOpponentPath := by
  refine ⟨generateAndOrderMoves_defined state players, ?_⟩
  intro moves hgen m hm hwall
  cases hme : findPlayer players state.playerTurn with
  | none =>
    unfold generateAndOrderMoves at hgen
    simp only [hme, Option.some.injEq] at hgen
    subst hgen
    exact absurd hm (List.not_mem_nil _)
  | some myPlayer =>
    obtain ⟨initialOpponentPath, opponentId, myPos, initialMyPath, scored, hpos, hinit, hmin,
      hmoves, -, hentries, -⟩ := generateAndOrderMoves_scored state players myPlayer moves hme hgen
    subst hmoves
    rw [List.mem_map] at hm
    obtain ⟨e, he, hem⟩ := hm
    rcases hentries e he with hp | ⟨opponentPlayer, wall, hopp, hw⟩
    · obtain ⟨h1, -, -⟩ := pawnEntry_bound state players myPlayer myPos initialMyPath e hinit hp
      rw [hem, hwall] at h1
      exact absurd h1 (by decide)
    · obtain ⟨newMyPath, oppPos, newOpponentPath, h1, h2, h3, h4, h5, h6, h7, h8, h9, -⟩ := hw
      have hmw : m.wall = wall := by
        rw [← hem, h1]
        rfl
      rw [hmw]
      exact ⟨h2, ⟨myPlayer, myPos, initialMyPath, newMyPath, rfl, hpos, hinit, h3, h4, h5⟩,
        opponentId, opponentPlayer, oppPos, initialOpponentPath, newOpponentPath, hopp, hmin,
        h6, h7, h8, h9⟩

/-- C19: when some measured opponent stands at most two steps from its goal,
no pawn move whose destination fails the mover's goal predicate precedes a
wall move in a list returned by `generateAndOrderMoves`; the list is returned
whenever the board fits the `visited` array and the pawns of the mover and of
the active players are on the board. -/
theorem emergency_walls_before_pawn_moves (state : GameState) (players : List Player)
    (myPlayer : Player) (hme : findPlayer players state.playerTurn = some myPlayer)
    (id : String) (player : Player) (path : Int)
    (hopp : Opponent state players state.playerTurn id player path) (hnear : path ≤ 2) :
    (state.boardSize ≤ 11 → ActivePawnsOnBoard state →
      (∃ pos, StrMap.find state.pawnPositions state.playerTurn = some pos ∧
        OnBoard state.boardSize pos) →
      ∃ moves, generateAndOrderMoves state players = some moves) ∧
    ∀ moves, generateAndOrderMoves state players = some moves →
      moves.Pairwise (fun m1 m2 => m2.type = "wall" →
        ¬(m1.type = "cell" ∧
          myPlayer.goalCondition m1.pos.row m1.pos.col state.boardSize = false)) := by
  refine ⟨generateAndOrderMoves_defined state players, ?_⟩
  intro moves hgen
  obtain ⟨initialOpponentPath, opponentId, myPos, initialMyPath, scored, -, hinit, hmin, hmoves,
    hsorted, hentries, -⟩ := generateAndOrderMoves_scored state players myPlayer moves hme hgen
  have hle : initialOpponentPath ≤ 2 := le_trans (hmin id player path hopp) hnear
  subst hmoves
  rw [List.pairwise_map]
  refine hsorted.imp_of_mem ?_
  intro a b ha hb hab hwall
  rintro ⟨hcell, hgoal⟩
  have hb51 : 51000 ≤ b.2 := by
    rcases hentries b hb with hp | ⟨opponentPlayer, wall, hopp1, hw⟩
    · obtain ⟨h1, -, -⟩ := pawnEntry_bound state players myPlayer myPos initialMyPath b hinit hp
      rw [hwall] at h1
      exact absurd h1 (by decide)
    · exact (wallEntry_bound state players myPlayer myPos initialMyPath opponentId
        opponentPlayer initialOpponentPath wall b hopp1 hw).2.2 hle
  have ha22 : a.2 ≤ 22300 := by
    rcases hentries a ha with hp | ⟨opponentPlayer, wall, hopp1, hw⟩
    · refine (pawnEntry_bound state players myPlayer myPos initialMyPath a hinit hp).2.2 ?_
      rintro ⟨-, hg⟩
      rw [hgoal] at hg
      exact absurd hg (by decide)
    · have h1 := (wallEntry_bound state players myPlayer myPos initialMyPath opponentId
        opponentPlayer initialOpponentPath wall a hopp1 hw).1
      rw [hcell] at h1
      exact absurd h1 (by decide)
  omega

/-- C18, at the wall (2, 0, horizontal) that "p1" can place in front of "p3". -/
theorem wall_moves_legal_and_blocking_witness :
    (generateAndOrderMoves nearGoalState twoSeatRoster).map
        (fun l => decide (Move.wallMove ⟨2, 0, "horizontal"⟩ ∈ l)) = some true ∧
    ((nearGoalState.boardSize ≤ 11 → ActivePawnsOnBoard nearGoalState →
      (∃ pos, StrMap.find nearGoalState.pawnPositions nearGoalState.playerTurn = some pos ∧
        OnBoard nearGoalState.boardSize pos) →
      ∃ moves, generateAndOrderMoves nearGoalState twoSeatRoster = some moves) ∧
    ∀ moves, generateAndOrderMoves nearGoalState twoSeatRoster = some moves →
      ∀ m ∈ moves, m.type = "wall" →
        isWallPlacementLegal m.wall nearGoalState twoSeatRoster = some true ∧
        (∃ myPlayer myPos initialMyPath newMyPath,
          findPlayer twoSeatRoster nearGoalState.playerTurn = some myPlayer ∧
          StrMap.find nearGoalState.pawnPositions nearGoalState.playerTurn = some myPos ∧
          getShortestPathLength myPos myPlayer.goalCondition nearGoalState.placedWalls
            nearGoalState.boardSize = some initialMyPath ∧
          getShortestPathLength myPos myPlayer.goalCondition
            (nearGoalState.placedWalls ++ [m.wall]) nearGoalState.boardSize = some newMyPath ∧
          newMyPath ≠ -1 ∧ newMyPath ≤ initialMyPath) ∧
        ∃ opponentId opponentPlayer oppPos initialOpponentPath newOpponentPath,
          Opponent nearGoalState twoSeatRoster nearGoalState.playerTurn opponentId
            opponentPlayer initialOpponentPath ∧
          (∀ id player path,
            Opponent nearGoalState twoSeatRoster nearGoalState.playerTurn id player path →
            initialOpponentPath ≤ path) ∧
          StrMap.find nearGoalState.pawnPositions opponentId = some oppPos ∧
          getShortestPathLength oppPos opponentPlayer.goalCondition
            (nearGoalState.placedWalls ++ [m.wall]) nearGoalState.boardSize =
              some newOpponentPath ∧
          newOpponentPath ≠ -1 ∧ initialOpponentPath < newOpponentPath) :=
  ⟨by decide, wall_moves_legal_and_blocking nearGoalState twoSeatRoster⟩

/-- C19, on the 5 x 5 position in which "p3" stands two steps from row 4. -/
theorem emergency_walls_before_pawn_moves_witness :
    Opponent nearGoalState twoSeatRoster nearGoalState.playerTurn "p3" (playerOfId "p3") 2 ∧
    (generateAndOrderMoves nearGoalState twoSeatRoster).map (fun l => l.map (fun m => m.type)) =
      some ["cell", "wall", "wall", "cell", "cell", "cell"] ∧
    ((nearGoalState.boardSize ≤ 11 → ActivePawnsOnBoard nearGoalState →
      (∃ pos, StrMap.find nearGoalState.pawnPositions nearGoalState.playerTurn = some pos ∧
        OnBoard nearGoalState.boardSize pos) →
      ∃ moves, generateAndOrderMoves nearGoalState twoSeatRoster = some moves) ∧
    ∀ moves, generateAndOrderMoves nearGoalState twoSeatRoster = some moves →
      moves.Pairwise (fun m1 m2 => m2.type = "wall" →
        ¬(m1.type = "cell" ∧
          (playerOfId "p1").goalCondition m1.pos.row m1.pos.col nearGoalState.boardSize =
            false))) :=
  ⟨⟨by decide, by decide, rfl, ⟨2, 0⟩, rfl, by decide, by decide⟩, by decide,
    emergency_walls_before_pawn_moves nearGoalState twoSeatRoster (playerOfId "p1") rfl "p3"
      (playerOfId "p3") 2 ⟨by decide, by decide, rfl, ⟨2, 0⟩, rfl, by decide, by decide⟩
      (by decide)⟩

/-! ## Resignation -/

theorem StrMap.mem_entries_of_find {α : Type} (m : StrMap α) (k : String) (v : α)
    (h : StrMap.find m k = some v) : (k, v) ∈ StrMap.entries m := by
  induction m with
  | nil => exact absurd h (by simp [StrMap.find])
  | cons e rest ih =>
    obtain ⟨a, b⟩ := e
    rw [StrMap.entries]
    by_cases ha : k = a
    · subst ha
      have hb : b = v := by simpa [StrMap.find, List.lookup_cons] using h
      subst hb
      exact List.mem_cons_self _ _
    · have hrest : StrMap.find rest k = some v := by
        have hne : (k == a) = false := by simpa using ha
        simpa [StrMap.find, List.lookup_cons, hne] using h
      refine List.mem_cons_of_mem _ ?_
      rw [List.mem_filter]
      exact ⟨ih hrest, by simpa using ha⟩

theorem StrMap.find_of_mem_entries {α : Type} (m : StrMap α) (e : String × α)
    (h : e ∈ StrMap.entries m) : StrMap.find m e.1 = some e.2 := by
  induction m with
  | nil => exact absurd h (List.not_mem_nil _)
  | cons x rest ih =>
    obtain ⟨a, b⟩ := x
    rw [StrMap.entries, List.mem_cons] at h
    rcases h with h | h
    · subst h
      simp [StrMap.find, List.lookup_cons]
    · rw [List.mem_filter] at h
      have hne : (e.1 == a) = false := by simpa using h.2
      have := ih h.1
      simpa [StrMap.find, List.lookup_cons, hne] using this

theorem xorKeys_defined (l : List (Option Nat)) (hall : ∀ k ∈ l, ∃ v, k = some v) :
    ∀ h : Nat, ∃ r, Zobrist.xorKeys l h = some r := by
  induction l with
  | nil =>
    intro h
    exact ⟨h, rfl⟩
  | cons k rest ih =>
    intro h
    obtain ⟨v, hv⟩ := hall k (List.mem_cons_self _ _)
    subst hv
    rw [Zobrist.xorKeys]
    exact ih (fun x hx => hall x (List.mem_cons_of_mem _ hx)) _

/-- The conversion of a snapshot that meets `SnapshotOk` is defined; it sets
the hash and leaves `winner` empty. -/
theorem jsToCppState_defined (snapshot : GameState) (hok : SnapshotOk snapshot) :
    ∃ h, jsToCppState snapshot = some { snapshot with zobristHash := h, winner := "" } := by
  obtain ⟨hn, ⟨h0, hl, h4⟩, hpawns, hwalls⟩ := hok
  have h1 : ∃ r, Zobrist.xorKeys ((StrMap.entries snapshot.pawnPositions).map
      (Zobrist.pawnKeyOf snapshot.activePlayerIds)) 0 = some r := by
    apply xorKeys_defined
    intro k hk
    rw [List.mem_map] at hk
    obtain ⟨e, he, hek⟩ := hk
    obtain ⟨hact, hon⟩ := hpawns e he
    subst hek
    unfold Zobrist.pawnKeyOf Zobrist.playerIndexOf
    have hidx := List.indexOf_lt_length.mpr hact
    unfold OnBoard at hon
    exact pawnKeys_some _ _ _ ⟨by omega, by omega⟩ (by omega) (by omega)
  obtain ⟨r1, hr1⟩ := h1
  have h2 : ∃ r, Zobrist.xorKeys (snapshot.placedWalls.map Zobrist.wallKey) r1 = some r := by
    apply xorKeys_defined
    intro k hk
    rw [List.mem_map] at hk
    obtain ⟨w, hw, hwk⟩ := hk
    subst hwk
    have := hwalls w hw
    exact wallKey_some w ⟨this.1, this.2.1⟩ ⟨this.2.2.1, this.2.2.2⟩
  obtain ⟨r2, hr2⟩ := h2
  obtain ⟨k, hk⟩ := turnKeys_some snapshot.playerTurnIndex h0 (by omega)
  refine ⟨r2 ^^^ k, ?_⟩
  unfold jsToCppState Zobrist.computeHash
  simp only [hr1, hr2, hk, Option.map_some']

/-- No move is generated when the mover has no pawn destination and no wall
placement is legal. -/
theorem generateAndOrderMoves_empty (state : GameState) (players : List Player)
    (hn : state.boardSize ≤ 11) (hon : ActivePawnsOnBoard state)
    (hmine : ∃ pos, StrMap.find state.pawnPositions state.playerTurn = some pos ∧
      OnBoard state.boardSize pos)
    (hnopawn : calculateLegalPawnMoves state.pawnPositions state.placedWalls players
      state.activePlayerIds state.playerTurnIndex state.boardSize = [])
    (hnowall : ∀ w, isWallPlacementLegal w state players ≠ some true) :
    generateAndOrderMoves state players = some [] := by
  obtain ⟨moves, hgen⟩ := generateAndOrderMoves_defined state players hn hon hmine
  rw [hgen]
  cases hme : findPlayer players state.playerTurn with
  | none =>
    unfold generateAndOrderMoves at hgen
    simp only [hme] at hgen
    exact hgen.symm
  | some myPlayer =>
    obtain ⟨initialOpponentPath, opponentId, myPos, initialMyPath, scored, -, -, -, hmoves, -,
      hentries, -⟩ := generateAndOrderMoves_scored state players myPlayer moves hme hgen
    have hnil : scored = [] := by
      rw [List.eq_nil_iff_forall_not_mem]
      intro e he
      rcases hentries e he with ⟨pos, hpos, -⟩ | ⟨opponentPlayer, wall, -, hw⟩
      · rw [hnopawn] at hpos
        exact absurd hpos (List.not_mem_nil _)
      · obtain ⟨-, -, -, -, hlegal, -⟩ := hw
        exact hnowall wall hlegal
    rw [hmoves, hnil]
    rfl

/-- C13: the mover "p1" of `pawnlessState` is on the roster but
has no entry in `pawnPositions`; it has no pawn destination and no legal wall
placement, and `findBestMove` fails at `pawnPositions.at(myId)` instead of
returning the resign move. -/
theorem findBestMove_without_pawn_fails :
    calculateLegalPawnMoves pawnlessState.pawnPositions pawnlessState.placedWalls cornerRoster
      pawnlessState.activePlayerIds pawnlessState.playerTurnIndex pawnlessState.boardSize = [] ∧
    (∀ w, isWallPlacementLegal w pawnlessState cornerRoster = some false) ∧
    ∀ (targetDepth : Int) (table : Table),
      findBestMove pawnlessState cornerRoster targetDepth table = none := by
  refine ⟨by decide, fun w => rfl, ?_⟩
  intro targetDepth table
  have h1 : jsToCppState pawnlessState =
      some { pawnlessState with zobristHash := 6072378777679754269 } := by decide
  have h2 : generateAndOrderMoves { pawnlessState with zobristHash := 6072378777679754269 }
      cornerRoster = none := by decide
  unfold findBestMove
  rw [h1]
  unfold findBestMoveWith
  simp only [h2]

/-! ## Evaluation -/

theorem tdiv_abs_le (a b K : Int) (hb : 0 < b) (h1 : a ≤ K * b) (h2 : -(K * b) ≤ a)
    (hK : 0 ≤ K) : -K ≤ a.tdiv b ∧ a.tdiv b ≤ K := by
  by_cases ha : 0 ≤ a
  · rw [Int.tdiv_eq_ediv ha hb.le]
    have hlow := Int.ediv_nonneg ha hb.le
    have hup := Int.ediv_le_of_le_mul hb h1
    omega
  · have hna : a = -(-a) := by omega
    rw [hna, Int.neg_tdiv, Int.tdiv_eq_ediv (by omega) hb.le]
    have hlow := Int.ediv_nonneg (show 0 ≤ -a by omega) hb.le
    have hup : -a / b ≤ K := Int.ediv_le_of_le_mul hb (by omega)
    omega

theorem int32_of_range (x : Int) (h : InInt32 x) : int32 x = x := by
  unfold InInt32 at h
  unfold int32
  omega

theorem int32_sub_left (a b : Int) : int32 (int32 a - b) = int32 (a - b) := by
  unfold int32
  omega

theorem wallsFold_eq (l : List (String × Int)) :
    ∀ a : Int, l.foldl (fun total pair => int32 (total - pair.2)) (int32 a) =
      int32 (a - (l.map (fun pair => pair.2)).sum) := by
  induction l with
  | nil =>
    intro a
    simp
  | cons x xs ih =>
    intro a
    rw [List.foldl_cons, int32_sub_left, ih, List.map_cons, List.sum_cons]
    congr 1
    ring

/-- The wrapped running difference of `evaluate` is the walls consumed of the
specification, wrapped once. -/
theorem wallsOnBoard_eq (state : GameState) :
    wallsOnBoard state = int32 (wallsConsumed state) := by
  unfold wallsOnBoard wallsConsumed
  exact wallsFold_eq _ _

/-- Where the walls consumed, `40 - consumed`, the wall score and the sum are
representable, the 32-bit score is the exact one. -/
theorem score32_exact (pathPart left consumed : Int) (hc : InInt32 consumed)
    (hd : InInt32 (40 - consumed))
    (hw : InInt32 (left * (5 + Int.tdiv (40 - consumed) 4)))
    (hs : InInt32 (pathPart + left * (5 + Int.tdiv (40 - consumed) 4))) :
    score32 pathPart left consumed = pathPart + left * (5 + Int.tdiv (40 - consumed) 4) := by
  have hq := tdiv_abs_le (40 - consumed) 4 536870912 (by norm_num)
    (by unfold InInt32 at hd; omega) (by unfold InInt32 at hd; omega) (by norm_num)
  unfold score32
  rw [int32_of_range _ hc, int32_of_range _ hd,
    int32_of_range (5 + Int.tdiv (40 - consumed) 4) (by unfold InInt32; omega),
    int32_of_range _ hw, int32_of_range _ hs]

theorem truncToZero_div (a b : Int) (hb : 0 < b) :
    truncToZero ((a : ℚ) / (b : ℚ)) = Int.tdiv a b := by
  obtain ⟨d, rfl⟩ : ∃ d : ℕ, b = d := ⟨b.toNat, by omega⟩
  have hbq : (0 : ℚ) < ((d : ℤ) : ℚ) := by exact_mod_cast hb
  unfold truncToZero
  by_cases ha : 0 ≤ a
  · have hq : (0 : ℚ) ≤ (a : ℚ) / ((d : ℤ) : ℚ) :=
      div_nonneg (by exact_mod_cast ha) hbq.le
    rw [if_pos hq, Int.tdiv_eq_ediv ha hb.le]
    have := Rat.floor_intCast_div_natCast a d
    simpa using this
  · have hneg : (a : ℚ) < 0 := by exact_mod_cast (not_le.mp ha)
    have hq : ¬(0 : ℚ) ≤ (a : ℚ) / ((d : ℤ) : ℚ) :=
      not_le.mpr (div_neg_of_neg_of_pos hneg hbq)
    rw [if_neg hq]
    have h1 : (a : ℚ) / ((d : ℤ) : ℚ) = -(((-a : ℤ) : ℚ) / (d : ℚ)) := by
      push_cast
      ring
    rw [h1, Int.ceil_neg, Rat.floor_intCast_div_natCast]
    have h2 : a = -(-a) := by omega
    conv_rhs => rw [h2, Int.neg_tdiv, Int.tdiv_eq_ediv (by omega) hb.le]

theorem truncToZero_small (q : ℚ) (h1 : -1 < q) (h2 : q < 1) : truncToZero q = 0 := by
  unfold truncToZero
  split
  · rw [Int.floor_eq_iff]
    constructor
    · simpa using ‹0 ≤ q›
    · simpa using h2
  · rename_i hq
    rw [Int.ceil_eq_iff]
    constructor
    · simpa using h1
    · simpa using (not_le.mp hq).le

theorem truncToZero_int_sub (X : Int) (Y : ℚ) (hX : 1 ≤ X) (h0 : 0 < Y) (h1 : Y ≤ 1) :
    truncToZero ((X : ℚ) - Y) = X - 1 := by
  have hXq : (1 : ℚ) ≤ (X : ℚ) := by exact_mod_cast hX
  unfold truncToZero
  rw [if_pos (by linarith), Int.floor_eq_iff]
  constructor
  · push_cast
    linarith
  · push_cast
    linarith

theorem two_zpow_le_one (e : Int) (he : e ≤ 0) : (0 : ℚ) < 2 ^ e ∧ (2 : ℚ) ^ e ≤ 1 :=
  ⟨zpow_pos (by norm_num) e, zpow_le_one_of_nonpos₀ (by norm_num) he⟩

theorem two_zpow_split (a c : ℕ) (x : Int) (h : x = (a : Int) - c) :
    (2 : ℚ) ^ x = (((2 : Int) ^ a : Int) : ℚ) / (((2 : Int) ^ c : Int) : ℚ) := by
  subst h
  rw [zpow_sub₀ (by norm_num : (2 : ℚ) ≠ 0), zpow_natCast, zpow_natCast]
  push_cast
  rfl

/-- The double computation of the path score is exact when the two path
lengths differ by less than 54. -/
theorem pathScore_exact (myPath threatPath : Int) (h1 : myPath - threatPath < 54)
    (h2 : threatPath - myPath < 54) :
    pathScore myPath threatPath =
      truncToZero ((2 : ℚ) ^ (16 - myPath) - (2 : ℚ) ^ (16 - threatPath)) := by
  unfold pathScore
  simp only [MAX_EXPECTED_PATH]
  have hm : ∃ m : Int, m = min (min (16 - myPath) (16 - threatPath)) 0 := ⟨_, rfl⟩
  obtain ⟨m, hm⟩ := hm
  rw [← hm]
  have hm0 : m ≤ 0 := by omega
  have hmx : m ≤ 16 - myPath := by omega
  have hmy : m ≤ 16 - threatPath := by omega
  rw [if_neg (by omega), if_neg (by omega)]
  rw [two_zpow_split (16 - myPath - m).toNat (-m).toNat (16 - myPath) (by omega),
    two_zpow_split (16 - threatPath - m).toNat (-m).toNat (16 - threatPath) (by omega),
    ← sub_div, ← Int.cast_sub, truncToZero_div _ _ (by positivity)]

/-- With the threat path at the initial value 17 of the loop, the path score
is what the specification gives for any threat path of 16 or more. -/
theorem pathScore_capped (myPath threatPath : Int) (hmy : -1 ≤ myPath)
    (ht : 16 ≤ threatPath) :
    pathScore myPath 17 =
      truncToZero ((2 : ℚ) ^ (16 - myPath) - (2 : ℚ) ^ (16 - threatPath)) := by
  obtain ⟨hY0, hY1⟩ := two_zpow_le_one (16 - threatPath) (by omega)
  by_cases hlow : myPath ≤ 16
  · rw [pathScore_exact myPath 17 (by omega) (by omega)]
    have hX : (2 : ℚ) ^ (16 - myPath) = (((2 : Int) ^ (16 - myPath).toNat : Int) : ℚ) := by
      rw [two_zpow_split (16 - myPath).toNat 0 (16 - myPath) (by omega)]
      simp
    have hX1 : (1 : Int) ≤ (2 : Int) ^ (16 - myPath).toNat := by
      have : (0 : Int) < 2 ^ (16 - myPath).toNat := by positivity
      omega
    obtain ⟨hZ0, hZ1⟩ := two_zpow_le_one (16 - 17) (by omega)
    rw [hX, truncToZero_int_sub _ _ hX1 hZ0 hZ1, truncToZero_int_sub _ _ hX1 hY0 hY1]
  · obtain ⟨hX0, hX1⟩ := two_zpow_le_one (16 - myPath) (by omega)
    rw [truncToZero_small _ (by linarith) (by linarith)]
    unfold pathScore
    simp only [MAX_EXPECTED_PATH]
    have hm : min (min (16 - myPath) (16 - 17)) 0 = 16 - myPath := by omega
    rw [hm, if_neg (by omega)]
    have ha : (16 - myPath - (16 - myPath)).toNat = 0 := by omega
    have hb : ((16 : Int) - 17 - (16 - myPath)).toNat = (myPath - 17).toNat := by omega
    have hc : (-(16 - myPath)).toNat = (myPath - 17).toNat + 1 := by omega
    rw [ha, hb, hc]
    have hp : (0 : Int) < 2 ^ (myPath - 17).toNat := by positivity
    have hlt : (2 : Int) ^ (myPath - 17).toNat < 2 ^ ((myPath - 17).toNat + 1) := by
      rw [pow_succ]
      omega
    split
    · rw [Int.neg_tdiv, Int.tdiv_eq_zero_of_lt hp.le hlt]
      rfl
    · have : (2 : Int) ^ 0 - 2 ^ (myPath - 17).toNat = -(2 ^ (myPath - 17).toNat - 1) := by
        simp
      rw [this, Int.neg_tdiv, Int.tdiv_eq_zero_of_lt (by omega) (by omega)]
      rfl

theorem threatPathLoop_spec (state : GameState) (players : List Player) (myId : String) :
    ∀ (ids : List String) (best res : Int),
      (∀ id ∈ ids, id ∈ state.activePlayerIds) →
      threatPathLoop state players myId ids best = some res →
      res ≤ best ∧
      (res = best ∨ ∃ id player, Opponent state players myId id player res) ∧
      ∀ id ∈ ids, ∀ player path, Opponent state players myId id player path → res ≤ path := by
  intro ids
  induction ids with
  | nil =>
    intro best res _ h
    simp only [threatPathLoop, Option.some.injEq] at h
    subst h
    exact ⟨le_refl _, Or.inl rfl, fun id hid => absurd hid (List.not_mem_nil _)⟩
  | cons id rest ih =>
    intro best res hact h
    have hrest : ∀ x ∈ rest, x ∈ state.activePlayerIds :=
      fun x hx => hact x (List.mem_cons_of_mem _ hx)
    rw [threatPathLoop] at h
    split at h
    · rename_i hme
      obtain ⟨h1, h2, h3⟩ := ih best res hrest h
      refine ⟨h1, h2, ?_⟩
      intro x hx player path hopp
      rw [List.mem_cons] at hx
      rcases hx with hx | hx
      · subst hx
        exact absurd hme hopp.2.1
      · exact h3 x hx player path hopp
    · rename_i hme
      split at h
      · rename_i opponentPlayer pos hfind hpos
        split at h
        · exact absurd h (by simp)
        · rename_i opponentPath hpath
          obtain ⟨h1, h2, h3⟩ := ih _ res hrest h
          have hhead : ∀ player path, Opponent state players myId id player path →
              path = opponentPath ∧ opponentPath ≠ -1 := by
            intro player path hopp
            obtain ⟨-, -, hf, pos1, hp1, hg1, hne⟩ := hopp
            rw [hfind] at hf
            simp only [Option.some.injEq] at hf
            subst hf
            rw [hpos] at hp1
            simp only [Option.some.injEq] at hp1
            subst hp1
            rw [hpath] at hg1
            simp only [Option.some.injEq] at hg1
            subst hg1
            exact ⟨rfl, hne⟩
          by_cases hc : opponentPath ≠ -1
          · rw [if_pos hc] at h1 h2
            refine ⟨by omega, ?_, ?_⟩
            · rcases h2 with h2 | h2
              · by_cases hlt : opponentPath ≤ best
                · refine Or.inr ⟨id, opponentPlayer, ?_⟩
                  have : res = opponentPath := by omega
                  rw [this]
                  exact ⟨hact id (List.mem_cons_self _ _), hme, hfind, pos, hpos, hpath, hc⟩
                · exact Or.inl (by omega)
              · exact Or.inr h2
            · intro x hx player path1 hopp
              rw [List.mem_cons] at hx
              rcases hx with hx | hx
              · subst hx
                obtain ⟨heq, -⟩ := hhead player path1 hopp
                omega
              · exact h3 x hx player path1 hopp
          · rw [if_neg hc] at h1 h2
            refine ⟨h1, h2, ?_⟩
            intro x hx player path1 hopp
            rw [List.mem_cons] at hx
            rcases hx with hx | hx
            · subst hx
              exact absurd (hhead player path1 hopp).2 hc
            · exact h3 x hx player path1 hopp
      · rename_i hnone
        obtain ⟨h1, h2, h3⟩ := ih best res hrest h
        refine ⟨h1, h2, ?_⟩
        intro x hx player path hopp
        rw [List.mem_cons] at hx
        rcases hx with hx | hx
        · subst hx
          obtain ⟨-, -, hf, pos1, hp1, -, -⟩ := hopp
          exact (hnone player pos1 hf hp1).elim
        · exact h3 x hx player path hopp

theorem threatPathLoop_defined (state : GameState) (players : List Player) (myId : String)
    (hn : state.boardSize ≤ 11) :
    ∀ (ids : List String) (best : Int),
      (∀ id ∈ ids, ∀ pos, StrMap.find state.pawnPositions id = some pos →
        OnBoard state.boardSize pos) →
      ∃ res, threatPathLoop state players myId ids best = some res := by
  intro ids
  induction ids with
  | nil =>
    intro best _
    exact ⟨best, rfl⟩
  | cons id rest ih =>
    intro best hon
    have hrest : ∀ x ∈ rest, ∀ pos, StrMap.find state.pawnPositions x = some pos →
        OnBoard state.boardSize pos := fun x hx => hon x (List.mem_cons_of_mem _ hx)
    rw [threatPathLoop]
    split
    · exact ih best hrest
    · split
      · rename_i opponentPlayer pos hfind hpos
        obtain ⟨r, hr⟩ := getShortestPathLength_defined pos opponentPlayer.goalCondition
          state.placedWalls state.boardSize hn (hon id (List.mem_cons_self _ _) pos hpos)
        simp only [hr]
        exact ih _ hrest
      · exact ih best hrest

/-- A result of the threat loop below its initial value is the threat path of
the specification. -/
theorem threatPath_of_loop (state : GameState) (players : List Player) (t : Int)
    (h : threatPathLoop state players state.playerTurn state.activePlayerIds
      (MAX_EXPECTED_PATH + 1) = some t)
    (hlt : t < MAX_EXPECTED_PATH + 1) : ThreatPath state players t := by
  obtain ⟨-, h2, h3⟩ := threatPathLoop_spec state players state.playerTurn
    state.activePlayerIds _ t (fun id hid => hid) h
  rcases h2 with h2 | ⟨id, player, hopp⟩
  · omega
  · exact Or.inl ⟨id, player, hopp, fun id1 player1 path1 h1 => h3 id1 h1.1 player1 path1 h1⟩

theorem activePawnsOnBoard_of_entries (state : GameState)
    (h : ∀ e ∈ StrMap.entries state.pawnPositions, OnBoard state.boardSize e.2) :
    ActivePawnsOnBoard state := by
  intro id _ pos hpos
  exact h (id, pos) (StrMap.mem_entries_of_find _ _ _ hpos)

/-- C16 (amended): for a state that has not ended, whose board fits the
`visited` array and whose active pawns are on the board, with the mover on the
roster, `myPath` its shortest path length, `threatPath` the threat path of the
specification and `left` its walls left, if `myPath - threatPath` is less than
54 then `evaluate` returns the formula with the wall score and the sum in
32-bit `int`; and it returns the value of the formula in exact arithmetic
when the walls consumed, `40 - consumed`, the wall score and the sum are
representable as 32-bit `int`. -/
theorem evaluate_formula (state : GameState) (players : List Player)
    (hstatus : state.status ≠ "ended") (hn : state.boardSize ≤ 11)
    (hon : ActivePawnsOnBoard state) (myPlayer : Player) (myPos : PawnPos)
    (myPath threatPath left : Int)
    (hme : findPlayer players state.playerTurn = some myPlayer)
    (hpos : StrMap.find state.pawnPositions state.playerTurn = some myPos)
    (hpath : getShortestPathLength myPos myPlayer.goalCondition state.placedWalls
      state.boardSize = some myPath)
    (hleft : StrMap.find state.wallsLeft state.playerTurn = some left)
    (hthreat : ThreatPath state players threatPath) (hgap : myPath - threatPath < 54) :
    evaluate state players =
      some (score32 (truncToZero ((2 : ℚ) ^ (16 - myPath) - (2 : ℚ) ^ (16 - threatPath)))
        left (wallsConsumed state)) ∧
    (InInt32 (wallsConsumed state) → InInt32 (40 - wallsConsumed state) →
      InInt32 (left * (5 + Int.tdiv (40 - wallsConsumed state) 4)) →
      InInt32 (evaluateFormula myPath threatPath left (wallsConsumed state)) →
      evaluate state players =
        some (evaluateFormula myPath threatPath left (wallsConsumed state))) := by
  obtain ⟨t, ht⟩ := threatPathLoop_defined state players state.playerTurn hn
    state.activePlayerIds (MAX_EXPECTED_PATH + 1) hon
  obtain ⟨h1, h2, h3⟩ := threatPathLoop_spec state players state.playerTurn
    state.activePlayerIds _ t (fun id hid => hid) ht
  have hrange := getShortestPathLength_range _ _ _ _ _ hpath
  have hscore : pathScore myPath t =
      truncToZero ((2 : ℚ) ^ (16 - myPath) - (2 : ℚ) ^ (16 - threatPath)) := by
    unfold MAX_EXPECTED_PATH at h1 h2
    rcases h2 with h2 | ⟨id, player, hopp⟩
    · have h17 : t = 17 := by omega
      have h16 : 16 ≤ threatPath := by
        rcases hthreat with ⟨id, player, hopp, -⟩ | ⟨-, heq⟩
        · have := h3 id hopp.1 player threatPath hopp
          omega
        · unfold MAX_EXPECTED_PATH at heq
          omega
      rw [h17]
      exact pathScore_capped myPath threatPath hrange.1 h16
    · rcases hthreat with ⟨id1, player1, hopp1, hmin⟩ | ⟨hno, -⟩
      · have hle1 := h3 id1 hopp1.1 player1 threatPath hopp1
        have hle2 := hmin id player t hopp
        have heq : t = threatPath := by omega
        rw [heq]
        exact pathScore_exact myPath threatPath hgap (by omega)
      · exact absurd ⟨id, player, t, hopp⟩ hno
  have hval : evaluate state players =
      some (score32 (truncToZero ((2 : ℚ) ^ (16 - myPath) - (2 : ℚ) ^ (16 - threatPath)))
        left (wallsConsumed state)) := by
    unfold evaluate
    rw [if_neg hstatus]
    simp only [hme, hpos, hpath, ht, hleft, hscore, wallsOnBoard_eq]
    rfl
  refine ⟨hval, fun hc hd hw hs => ?_⟩
  rw [hval, score32_exact _ _ _ hc hd hw hs]
  rfl

/-- C16, on the 5 x 5 opening of the seats "p1" and "p3". -/
theorem evaluate_formula_witness :
    evaluate twoSeatState twoSeatRoster = some 22 ∧
    evaluateFormula 4 4 2 (wallsConsumed twoSeatState) = 22 ∧
    evaluate twoSeatState twoSeatRoster =
      some (evaluateFormula 4 4 2 (wallsConsumed twoSeatState)) :=
  have hc : wallsConsumed twoSeatState = 16 := by decide
  have hf : evaluateFormula 4 4 2 (wallsConsumed twoSeatState) = 22 := by
    rw [hc]
    unfold evaluateFormula truncToZero
    norm_num
    decide
  ⟨by decide, hf, (evaluate_formula twoSeatState twoSeatRoster (by decide) (by decide)
    (activePawnsOnBoard_of_entries _ (by simp only [OnBoard]; decide))
    (playerOfId "p1") ⟨4, 2⟩ 4 4 2 rfl rfl (by decide) rfl
    (threatPath_of_loop _ _ 4 (by decide) (by decide)) (by decide)).2
    ⟨by decide, by decide⟩ ⟨by decide, by decide⟩ ⟨by decide, by decide⟩
    (by rw [hf]; exact ⟨by decide, by decide⟩)⟩

/-- C16 (counterexample): in `mazeState` the mover's path has length 56 and the
threat path length 1; the double difference of 2^(-40) and 2^15 rounds to
-32768, so `evaluate` returns -32768 + 36 where the formula gives -32767 + 36.
In `hoardState`, with equal paths and 100000 walls left each, the wall score
100000 * 50010 exceeds the range of `int`: `evaluate` returns 706032704 where
the formula gives 5001000000. -/
theorem evaluate_departs_from_formula :
    (mazeState.status ≠ "ended" ∧
      getShortestPathLength ⟨8, 0⟩ (goalOfId "p1") mazeState.placedWalls mazeState.boardSize =
        some 56 ∧
      ThreatPath mazeState fourSeatRoster 1 ∧
      evaluate mazeState fourSeatRoster = some (-32732) ∧
      evaluateFormula 56 1 4 (wallsConsumed mazeState) = -32731) ∧
    (hoardState.status ≠ "ended" ∧
      getShortestPathLength ⟨4, 2⟩ (goalOfId "p1") hoardState.placedWalls hoardState.boardSize =
        some 4 ∧
      ThreatPath hoardState twoSeatRoster 4 ∧
      evaluate hoardState twoSeatRoster = some 706032704 ∧
      evaluateFormula 4 4 100000 (wallsConsumed hoardState) = 5001000000) := by
  constructor
  · refine ⟨by decide, by decide, threatPath_of_loop _ _ 1 (by decide) (by decide), by decide,
      ?_⟩
    have hc : wallsConsumed mazeState = 24 := by decide
    rw [hc]
    unfold evaluateFormula
    have ht : truncToZero ((2 : ℚ) ^ ((16 : Int) - 56) - (2 : ℚ) ^ ((16 : Int) - 1)) =
        -32767 := by
      unfold truncToZero
      rw [if_neg (by norm_num), Int.ceil_eq_iff]
      norm_num
    rw [ht]
    decide
  · refine ⟨by decide, by decide, threatPath_of_loop _ _ 4 (by decide) (by decide), by decide,
      ?_⟩
    have hc : wallsConsumed hoardState = -199980 := by decide
    rw [hc]
    unfold evaluateFormula truncToZero
    norm_num
    decide

/-! ## Walls left -/

theorem switchTurn_fields (g s : GameState) (h : switchTurn g = some s) :
    s.boardSize = g.boardSize ∧ s.pawnPositions = g.pawnPositions ∧
      s.wallsLeft = g.wallsLeft ∧ s.placedWalls = g.placedWalls ∧
      s.activePlayerIds = g.activePlayerIds ∧ s.status = g.status ∧ s.winner = g.winner := by
  unfold switchTurn at h
  split at h
  · exact absurd h (by simp)
  · split at h
    · exact absurd h (by simp)
    · simp only at h
      split at h
      · simp only [Option.some.injEq] at h
        subst h
        exact ⟨rfl, rfl, rfl, rfl, rfl, rfl, rfl⟩
      · exact absurd h (by simp)

/-- A wall that `isWallPlacementLegal` accepts lies in the range of the
placements and the mover has a wall left. -/
theorem isWallPlacementLegal_true (w : Wall) (state : GameState) (players : List Player)
    (h : isWallPlacementLegal w state players = some true) :
    (∃ left, StrMap.find state.wallsLeft state.playerTurn = some left ∧ 0 < left) ∧
      0 ≤ w.row ∧ w.row ≤ state.boardSize - 2 ∧ 0 ≤ w.col ∧ w.col ≤ state.boardSize - 2 := by
  unfold isWallPlacementLegal at h
  split at h
  · exact absurd h (by simp)
  · rename_i left hleft
    split at h
    · exact absurd h (by simp)
    · split at h
      · exact absurd h (by simp)
      · rename_i hpos hin
        exact ⟨⟨left, hleft, by omega⟩, by omega, by omega, by omega, by omega⟩

/-- Every generated move is a cell move to a legal pawn destination or a wall
move that `isWallPlacementLegal` accepts. -/
theorem generateAndOrderMoves_mem (state : GameState) (players : List Player)
    (moves : List Move) (h : generateAndOrderMoves state players = some moves) (m : Move)
    (hm : m ∈ moves) :
    (∃ pos ∈ calculateLegalPawnMoves state.pawnPositions state.placedWalls players
        state.activePlayerIds state.playerTurnIndex state.boardSize, m = Move.cell pos) ∨
    (∃ wall, m = Move.wallMove wall ∧ isWallPlacementLegal wall state players = some true) := by
  cases hme : findPlayer players state.playerTurn with
  | none =>
    unfold generateAndOrderMoves at h
    simp only [hme, Option.some.injEq] at h
    subst h
    exact absurd hm (List.not_mem_nil _)
  | some myPlayer =>
    obtain ⟨_, _, _, _, scored, -, -, -, hmoves, -, hentries, -⟩ :=
      generateAndOrderMoves_scored state players myPlayer moves hme h
    subst hmoves
    rw [List.mem_map] at hm
    obtain ⟨e, he, hem⟩ := hm
    rcases hentries e he with ⟨pos, hpos, _, hcell, -⟩ | ⟨_, wall, -, hw⟩
    · exact Or.inl ⟨pos, hpos, by rw [← hem, hcell]⟩
    · obtain ⟨_, _, _, h1, h2, -⟩ := hw
      exact Or.inr ⟨wall, by rw [← hem, h1], h2⟩

/-- C21: in a state in which every `wallsLeft` entry is non-negative, every
move of a list returned by `generateAndOrderMoves` is a wall move only if the
mover has a wall left, `applyMove` of it leaves every `wallsLeft` entry
non-negative, and `applyMove` returns a state when the board fits the
`visited` array, the turn index is valid for the rotation and the roster and
the mover's pawn is on the board. -/
theorem generated_moves_keep_wallsLeft_nonneg (state : GameState) (players : List Player)
    (hnonneg : ∀ id v, StrMap.find state.wallsLeft id = some v → 0 ≤ v)
    (moves : List Move) (hgen : generateAndOrderMoves state players = some moves)
    (m : Move) (hm : m ∈ moves) :
    (m.type = "wall" →
      ∃ left, StrMap.find state.wallsLeft state.playerTurn = some left ∧ 0 < left) ∧
    (state.boardSize ≤ 11 → TurnOk state → state.playerTurnIndex < players.length →
      (∃ pos, StrMap.find state.pawnPositions state.playerTurn = some pos ∧
        OnBoard state.boardSize pos) →
      ∃ s1, applyMove state m players = some s1) ∧
    ∀ s1, applyMove state m players = some s1 →
      ∀ id v, StrMap.find s1.wallsLeft id = some v → 0 ≤ v := by
  rcases generateAndOrderMoves_mem state players moves hgen m hm with
    ⟨pos, hpos, rfl⟩ | ⟨wall, rfl, hlegal⟩
  · refine ⟨fun h => absurd (show "cell" = "wall" from h) (by decide), ?_, ?_⟩
    · intro hn hturn hroster ⟨a, ha, hboard⟩
      obtain ⟨h0, hl, h4⟩ := hturn
      have hon := calculateLegalPawnMoves_onBoard _ _ _ _ _ _ pos hpos
      have hidx : (0 : Int) ≤ state.playerTurnIndex ∧ state.playerTurnIndex < 4 := by omega
      obtain ⟨kOld, hOld⟩ := pawnKeys_some state.playerTurnIndex a.row a.col hidx
        (by unfold OnBoard at hboard; omega) (by unfold OnBoard at hboard; omega)
      obtain ⟨kNew, hNew⟩ := pawnKeys_some state.playerTurnIndex pos.row pos.col hidx
        (by unfold OnBoard at hon; omega) (by unfold OnBoard at hon; omega)
      obtain ⟨pl, hpl⟩ := vecAt_some players state.playerTurnIndex h0 hroster
      have hmove : applyMove state (Move.cell pos) players = applyPawnMove state pos players := by
        unfold applyMove Move.cell
        simp
      rw [hmove]
      unfold applyPawnMove
      simp only [ha, Option.getD_some, hOld, hNew, hpl]
      split
      · exact ⟨_, rfl⟩
      · obtain ⟨s, _, _, hs, -⟩ := switchTurn_spec { state with
          zobristHash := (state.zobristHash ^^^ kOld) ^^^ kNew
          pawnPositions := StrMap.assign state.pawnPositions state.playerTurn pos } ⟨h0, hl, h4⟩
        exact ⟨s, hs⟩
    · intro s1 happ id v hv
      have hmove : applyMove state (Move.cell pos) players = applyPawnMove state pos players := by
        unfold applyMove Move.cell
        simp
      rw [hmove] at happ
      unfold applyPawnMove at happ
      simp only at happ
      split at happ
      · split at happ
        · simp only [Option.some.injEq] at happ
          subst happ
          exact hnonneg id v hv
        · have hf := (switchTurn_fields _ _ happ).2.2.1
          rw [hf] at hv
          exact hnonneg id v hv
      · exact absurd happ (by simp)
  · obtain ⟨⟨left, hleft, hpos⟩, hr0, hr1, hc0, hc1⟩ :=
      isWallPlacementLegal_true wall state players hlegal
    have hmove : applyMove state (Move.wallMove wall) players =
        applyWallPlacement state wall := by
      unfold applyMove Move.wallMove
      simp
    refine ⟨fun _ => ⟨left, hleft, hpos⟩, ?_, ?_⟩
    · intro hn hturn _ _
      obtain ⟨k, hk⟩ := wallKey_some wall ⟨hr0, by omega⟩ ⟨hc0, by omega⟩
      rw [hmove]
      unfold applyWallPlacement
      simp only [hk]
      obtain ⟨s, _, _, hs, -⟩ := switchTurn_spec { state with
        zobristHash := state.zobristHash ^^^ k
        placedWalls := state.placedWalls ++ [wall]
        wallsLeft := StrMap.assign state.wallsLeft state.playerTurn
          ((StrMap.find state.wallsLeft state.playerTurn).getD 0 - 1) } hturn
      exact ⟨s, hs⟩
    · intro s1 happ id v hv
      rw [hmove] at happ
      unfold applyWallPlacement at happ
      split at happ
      · exact absurd happ (by simp)
      · simp only at happ
        have hf := (switchTurn_fields _ _ happ).2.2.1
        rw [hf] at hv
        simp only [hleft, Option.getD_some] at hv
        by_cases hid : id = state.playerTurn
        · subst hid
          rw [StrMap.find_assign_self] at hv
          simp only [Option.some.injEq] at hv
          omega
        · rw [StrMap.find_assign_ne _ _ _ _ hid] at hv
          exact hnonneg id v hv

/-- C21, at the wall (2, 0, horizontal) that "p1" places in `nearGoalState`. -/
theorem generated_moves_keep_wallsLeft_nonneg_witness :
    (applyMove nearGoalState (Move.wallMove ⟨2, 0, "horizontal"⟩) twoSeatRoster).map
        (fun s => s.wallsLeft) = some [("p1", 1), ("p3", 2)] ∧
    ((Move.wallMove ⟨2, 0, "horizontal"⟩).type = "wall" →
      ∃ left, StrMap.find nearGoalState.wallsLeft nearGoalState.playerTurn = some left ∧
        0 < left) ∧
    (nearGoalState.boardSize ≤ 11 → TurnOk nearGoalState →
      nearGoalState.playerTurnIndex < twoSeatRoster.length →
      (∃ pos, StrMap.find nearGoalState.pawnPositions nearGoalState.playerTurn = some pos ∧
        OnBoard nearGoalState.boardSize pos) →
      ∃ s1, applyMove nearGoalState (Move.wallMove ⟨2, 0, "horizontal"⟩) twoSeatRoster =
        some s1) ∧
    ∀ s1, applyMove nearGoalState (Move.wallMove ⟨2, 0, "horizontal"⟩) twoSeatRoster = some s1 →
      ∀ id v, StrMap.find s1.wallsLeft id = some v → 0 ≤ v :=
  ⟨by decide,
    generated_moves_keep_wallsLeft_nonneg nearGoalState twoSeatRoster
      (by
        intro id v hv
        have := StrMap.mem_entries_of_find _ _ _ hv
        have hall : ∀ e ∈ StrMap.entries nearGoalState.wallsLeft, 0 ≤ e.2 := by decide
        exact hall _ this)
      [Move.cell ⟨0, 2⟩, Move.wallMove ⟨2, 0, "horizontal"⟩, Move.wallMove ⟨3, 0, "horizontal"⟩,
        Move.cell ⟨1, 1⟩, Move.cell ⟨1, 3⟩, Move.cell ⟨2, 2⟩] (by decide)
      (Move.wallMove ⟨2, 0, "horizontal"⟩) (by decide)⟩

/-! ## Terminal nodes -/

theorem plyAdjust_eq_towardZero (e ply : Int) (h0 : 0 ≤ ply) (h1 : ply ≤ 900000) :
    plyAdjust e ply = towardZero e ply := by
  unfold plyAdjust towardZero
  simp only
  split <;> split <;> first | rfl | omega

theorem towardZero_max (p : Int) : towardZero INT_MAX p = INT_MAX - p := by
  unfold towardZero
  rw [if_pos (by unfold INT_MAX; omega)]

theorem towardZero_min (p : Int) : towardZero (-INT_MAX) p = -INT_MAX + p := by
  unfold towardZero
  rw [if_neg (by unfold INT_MAX; omega), if_pos (by unfold INT_MAX; omega)]

theorem abs_win_lt (c p p2 : Int) (hc : c = 1 ∨ c = -1) (h0 : 0 ≤ p) (hlt : p < p2)
    (hle : p2 ≤ 900000) : |c * (INT_MAX - p2)| < |c * (INT_MAX - p)| := by
  have hI : INT_MAX = 2147483647 := rfl
  rw [abs_mul, abs_mul]
  have hc1 : |c| = 1 := by
    rcases hc with h | h <;> subst h <;> simp
  rw [hc1, one_mul, one_mul, abs_of_nonneg (by omega), abs_of_nonneg (by omega)]
  omega

theorem negamax_leaf_zero (players : List Player) (ab nmp : Bool)
    (state : GameState) (α β color ply : Int) (table : Table) :
    negamax players ⟨ab, nmp, false⟩ 0 state α β color ply table =
      negamaxLeaf state players color ply table := by
  rw [negamax_zero_eq]
  simp [negamaxZero, probeTable]

theorem negamax_leaf_ended (players : List Player) (ab nmp : Bool) (d : Nat)
    (state : GameState) (α β color ply : Int) (table : Table)
    (hend : state.status = "ended") :
    negamax players ⟨ab, nmp, false⟩ (d + 1) state α β color ply table =
      negamaxLeaf state players color ply table := by
  rw [negamax_succ_eq]
  simp only [negamaxNode, probeTable, Bool.false_eq_true, if_false, if_pos hend]

theorem negamax_leaf_of_terminal (players : List Player) (ab nmp : Bool) (depth : Nat)
    (state : GameState) (α β color ply : Int) (table : Table)
    (hterm : state.status = "ended" ∨ depth = 0) :
    negamax players ⟨ab, nmp, false⟩ depth state α β color ply table =
      negamaxLeaf state players color ply table := by
  cases depth with
  | zero => exact negamax_leaf_zero players ab nmp state α β color ply table
  | succ d =>
    have hend : state.status = "ended" := by
      rcases hterm with h | h
      · exact h
      · exact absurd h (Nat.succ_ne_zero d)
    exact negamax_leaf_ended players ab nmp d state α β color ply table hend

/-- C22: with the transposition table disabled and `0 <= ply <= 900000`, at a
state that has ended or at depth 0 `negamax` returns `color` times the
evaluation moved toward zero by `ply` when it is in the mate range (and is
undefined exactly when `evaluate` is); at an ended state this is
`color * (INT_MAX - ply)` when the winner is the side to move and
`color * (-INT_MAX + ply)` otherwise, and of two plies the smaller gives the
win the strictly larger magnitude. -/
theorem negamax_terminal (players : List Player) (ab nmp : Bool) (depth : Nat)
    (state : GameState) (α β color ply : Int) (table : Table)
    (hterm : state.status = "ended" ∨ depth = 0) (h0 : 0 ≤ ply) (h1 : ply ≤ 900000) :
    negamax players ⟨ab, nmp, false⟩ depth state α β color ply table =
      (evaluate state players).map (fun e => (color * towardZero e ply, table)) ∧
    (state.status = "ended" →
      negamax players ⟨ab, nmp, false⟩ depth state α β color ply table =
        some (color * (if state.winner = state.playerTurn then INT_MAX - ply
          else -INT_MAX + ply), table)) ∧
    (state.status = "ended" → state.winner = state.playerTurn → color = 1 ∨ color = -1 →
      ∀ ply2 : Int, ply < ply2 → ply2 ≤ 900000 →
        ∃ v1 v2,
          negamax players ⟨ab, nmp, false⟩ depth state α β color ply table = some (v1, table) ∧
          negamax players ⟨ab, nmp, false⟩ depth state α β color ply2 table = some (v2, table) ∧
          |v2| < |v1|) := by
  have hleaf : ∀ p : Int, 0 ≤ p → p ≤ 900000 →
      negamax players ⟨ab, nmp, false⟩ depth state α β color p table =
        (evaluate state players).map (fun e => (color * towardZero e p, table)) := by
    intro p hp0 hp1
    have hfun : (fun e : Int => (color * plyAdjust e p, table)) =
        (fun e : Int => (color * towardZero e p, table)) := by
      funext e
      rw [plyAdjust_eq_towardZero e p hp0 hp1]
    rw [negamax_leaf_of_terminal players ab nmp depth state α β color p table hterm,
      negamaxLeaf, hfun]
  have hended : ∀ p : Int, 0 ≤ p → p ≤ 900000 → state.status = "ended" →
      negamax players ⟨ab, nmp, false⟩ depth state α β color p table =
        some (color * (if state.winner = state.playerTurn then INT_MAX - p
          else -INT_MAX + p), table) := by
    intro p hp0 hp1 hend
    rw [hleaf p hp0 hp1]
    unfold evaluate
    rw [if_pos hend]
    by_cases hw : state.winner = state.playerTurn
    · rw [if_pos hw, if_pos hw, Option.map_some', towardZero_max]
    · rw [if_neg hw, if_neg hw, Option.map_some', towardZero_min]
  refine ⟨hleaf ply h0 h1, hended ply h0 h1, ?_⟩
  intro hend hwin hcolor ply2 hlt hle
  refine ⟨_, _, hended ply h0 h1 hend, hended ply2 (by omega) hle hend, ?_⟩
  rw [if_pos hwin, if_pos hwin]
  exact abs_win_lt color ply ply2 hcolor h0 hlt hle

/-- C22, at an ended 5 x 5 state won by the side to move, at plies 1 and 3. -/
theorem negamax_terminal_witness :
    negamax twoSeatRoster ⟨true, true, false⟩ 2 wonState (-INT_MAX) INT_MAX 1 1 [] =
      some (2147483646, []) ∧
    (negamax twoSeatRoster ⟨true, true, false⟩ 2 wonState (-INT_MAX) INT_MAX 1 1 [] =
      (evaluate wonState twoSeatRoster).map (fun e => (1 * towardZero e 1, [])) ∧
    (wonState.status = "ended" →
      negamax twoSeatRoster ⟨true, true, false⟩ 2 wonState (-INT_MAX) INT_MAX 1 1 [] =
        some (1 * (if wonState.winner = wonState.playerTurn then INT_MAX - 1
          else -INT_MAX + 1), [])) ∧
    (wonState.status = "ended" → wonState.winner = wonState.playerTurn →
      (1 : Int) = 1 ∨ (1 : Int) = -1 →
      ∀ ply2 : Int, 1 < ply2 → ply2 ≤ 900000 →
        ∃ v1 v2,
          negamax twoSeatRoster ⟨true, true, false⟩ 2 wonState (-INT_MAX) INT_MAX 1 1 [] =
            some (v1, []) ∧
          negamax twoSeatRoster ⟨true, true, false⟩ 2 wonState (-INT_MAX) INT_MAX 1 ply2 [] =
            some (v2, []) ∧
          |v2| < |v1|)) :=
  ⟨by decide, negamax_terminal twoSeatRoster true true 2 wonState (-INT_MAX) INT_MAX 1 1 []
    (Or.inl rfl) (by decide) (by decide)⟩

/-! ## Null-move pruning -/

theorem negamaxLoop_congr (child1 child2 : GameState → Int → Int → Table → Option (Int × Table))
    (state : GameState) (players : List Player) (ab : Bool) (beta : Int) :
    ∀ (moves : List Move) (alpha maxVal : Int) (table : Table),
      (∀ m ∈ moves, ∀ nextState, applyMove state m players = some nextState →
        ∀ a b t, child1 nextState a b t = child2 nextState a b t) →
      negamaxLoop child1 state players ab beta moves alpha maxVal table =
        negamaxLoop child2 state players ab beta moves alpha maxVal table := by
  intro moves
  induction moves with
  | nil =>
    intro alpha maxVal table _
    rfl
  | cons m rest ih =>
    intro alpha maxVal table h
    rw [negamaxLoop, negamaxLoop]
    cases happ : applyMove state m players with
    | none => rfl
    | some nextState =>
      simp only
      rw [h m (List.mem_cons_self _ _) nextState happ]
      cases child2 nextState (if ab = true then -beta else -INT_MAX)
          (if ab = true then -alpha else INT_MAX) table with
      | none => rfl
      | some r =>
        obtain ⟨v, table1⟩ := r
        simp only
        split
        · rfl
        · exact ih _ _ _ (fun m' hm' => h m' (List.mem_cons_of_mem _ hm'))

theorem noGate_of_lt_four (players : List Player) :
    ∀ (depth : Nat) (state : GameState), depth < 4 → NoGate players depth state := by
  intro depth
  induction depth with
  | zero =>
    intro state _
    exact trivial
  | succ d ih =>
    intro state hd
    exact ⟨Or.inl hd, fun moves _ m _ nextState _ => ih nextState (by omega)⟩

theorem negamax_noGate (players : List Player) (ab : Bool) :
    ∀ (depth : Nat) (state : GameState), NoGate players depth state →
      ∀ (α β color ply : Int) (table : Table),
        negamax players ⟨ab, true, false⟩ depth state α β color ply table =
          negamax players ⟨ab, false, false⟩ depth state α β color ply table := by
  intro depth
  induction depth with
  | zero =>
    intro state _ α β color ply table
    rw [negamax_leaf_zero, negamax_leaf_zero]
  | succ d ih =>
    intro state hno α β color ply table
    obtain ⟨hgate, hchildren⟩ := hno
    by_cases hend : state.status = "ended"
    · rw [negamax_leaf_ended _ _ _ _ _ _ _ _ _ _ hend, negamax_leaf_ended _ _ _ _ _ _ _ _ _ _ hend]
    · rw [negamax_succ_plain, if_neg hend, negamax_succ_eq]
      have hnull : nullMovePrune ⟨ab, true, false⟩
          (((List.range d).reverse.map (negamax players ⟨ab, true, false⟩)).get? 2)
          state β color ply table = some (false, table) := by
        rcases hgate with hlt | ⟨left, hleft, hle⟩
        · have hnone : ((List.range d).reverse.map
              (negamax players ⟨ab, true, false⟩)).get? 2 = none := by
            rw [List.get?_eq_none]
            simp only [List.length_map, List.length_reverse, List.length_range]
            omega
          rw [hnone]
          rfl
        · unfold nullMovePrune
          split
          · rfl
          · simp only [if_true, hleft, if_neg (not_lt.mpr hle)]
      simp only [negamaxNode, probeTable, Bool.false_eq_true, if_false, if_neg hend, hnull,
        storeTable]
      cases hgen : generateAndOrderMoves state players with
      | none => rfl
      | some moves =>
        simp only
        by_cases hemp : moves.isEmpty = true
        · rw [if_pos hemp, if_pos hemp]
        · rw [if_neg hemp, if_neg hemp]
          have hloop := negamaxLoop_congr
            (fun nextState a b t =>
              negamax players ⟨ab, true, false⟩ d nextState a b (-color) (ply + 1) t)
            (fun nextState a b t =>
              negamax players ⟨ab, false, false⟩ d nextState a b (-color) (ply + 1) t)
            state players ab β moves α (-INT_MAX) table
            (fun m hm nextState happ a b t =>
              ih nextState (hchildren moves hgen m hm nextState happ) a b (-color) (ply + 1) t)
          rw [hloop]
          cases negamaxLoop
            (fun nextState a b t =>
              negamax players ⟨ab, false, false⟩ d nextState a b (-color) (ply + 1) t)
            state players ab β moves α (-INT_MAX) table with
          | none => rfl
          | some r => rfl

/-- C23: with the transposition table disabled, `negamax` with null-move
pruning enabled returns the same result as with null-move pruning disabled at
every depth from 0 to 3, and at any depth at a node whose search tree has no
node that meets the gate (remaining depth at least 4 and a mover with walls
left), for every state, window, colour, ply and table. -/
theorem negamax_nullMove_gate (players : List Player) (ab : Bool) (depth : Nat)
    (state : GameState) (α β color ply : Int) (table : Table) :
    (depth ≤ 3 →
      negamax players ⟨ab, true, false⟩ depth state α β color ply table =
        negamax players ⟨ab, false, false⟩ depth state α β color ply table) ∧
    (NoGate players depth state →
      negamax players ⟨ab, true, false⟩ depth state α β color ply table =
        negamax players ⟨ab, false, false⟩ depth state α β color ply table) :=
  ⟨fun h => negamax_noGate players ab depth state
      (noGate_of_lt_four players depth state (by omega)) α β color ply table,
    fun h => negamax_noGate players ab depth state h α β color ply table⟩

/-- C23, at depth 2 in the 5 x 5 opening and at depth 4 at the enclosed mover
of `enclosedState`, which has no wall left and no move. -/
theorem negamax_nullMove_gate_witness :
    negamax twoSeatRoster ⟨true, true, false⟩ 2 twoSeatState (-INT_MAX) INT_MAX 1 0 [] =
      negamax twoSeatRoster ⟨true, false, false⟩ 2 twoSeatState (-INT_MAX) INT_MAX 1 0 [] ∧
    negamax twoSeatRoster ⟨true, true, false⟩ 4 enclosedState (-INT_MAX) INT_MAX 1 0 [] =
      negamax twoSeatRoster ⟨true, false, false⟩ 4 enclosedState (-INT_MAX) INT_MAX 1 0 [] :=
  ⟨(negamax_nullMove_gate twoSeatRoster true 2 twoSeatState (-INT_MAX) INT_MAX 1 0 []).1
      (by decide),
    (negamax_nullMove_gate twoSeatRoster true 4 enclosedState (-INT_MAX) INT_MAX 1 0 []).2
      ⟨Or.inr ⟨0, rfl, le_refl 0⟩, fun moves hgen m hm => by
        have hnil : generateAndOrderMoves enclosedState twoSeatRoster = some [] := by decide
        rw [hnil] at hgen
        cases hgen
        exact absurd hm (List.not_mem_nil _)⟩⟩

/-! ## Stored table entries -/

theorem probeTable_window_beta (flags : Flags) (table : Table) (hash : Nat)
    (depth alpha beta ply a1 b1 : Int)
    (h : probeTable flags table hash depth alpha beta ply = Probe.window a1 b1) :
    b1 = probedBeta table hash depth beta ply ∨ flags.useTranspositionTable = false := by
  by_cases hf : flags.useTranspositionTable = true
  · left
    unfold probeTable at h
    unfold probedBeta
    rw [if_pos hf] at h
    cases hl : List.lookup hash table with
    | none =>
      rw [hl] at h
      simp only [Probe.window.injEq] at h
      exact h.2.symm
    | some entry =>
      rw [hl] at h
      simp only at h ⊢
      by_cases hdepth : entry.depth ≥ depth
      · rw [if_pos hdepth] at h
        cases hflag : entry.flag with
        | EXACT =>
          rw [hflag] at h
          simp at h
        | LOWERBOUND =>
          rw [hflag] at h
          simp only [reduceCtorEq, ↓reduceIte] at h
          rw [if_neg (fun hc => by simp at hc)]
          split at h
          · exact absurd h (by simp)
          · simp only [Probe.window.injEq] at h
            exact h.2.symm
        | UPPERBOUND =>
          rw [hflag] at h
          simp only [reduceCtorEq, ↓reduceIte] at h
          rw [if_pos ⟨hdepth, rfl⟩]
          split at h
          · exact absurd h (by simp)
          · simp only [Probe.window.injEq] at h
            exact h.2.symm
      · rw [if_neg hdepth] at h
        simp only [Probe.window.injEq] at h
        rw [if_neg (fun hc => hdepth hc.1)]
        exact h.2.symm
  · right
    simpa using hf

/-- C24 (amended): when `negamax` with the table enabled is not answered from
the table, the state has not ended, the null move does not prune and the move
list is not empty, the table it returns binds the node's hash to an entry
whose score is the returned value, whose depth is the remaining depth and
whose flag is UpperBound if the value is at most the alpha passed to the call,
LowerBound if it is at least the beta left by the table lookup, and Exact
otherwise. -/
theorem negamax_stores_entry (players : List Player) (ab nmp : Bool) (d : Nat)
    (state : GameState) (α β color ply : Int) (table table' : Table) (v a1 b1 : Int)
    (table1 : Table) (moves : List Move)
    (h : negamax players ⟨ab, nmp, true⟩ (d + 1) state α β color ply table = some (v, table'))
    (hprobe : probeTable ⟨ab, nmp, true⟩ table state.zobristHash ((d : Int) + 1) α β ply =
      Probe.window a1 b1)
    (hactive : state.status ≠ "ended")
    (hnull : nullMovePrune ⟨ab, nmp, true⟩
      (((List.range d).reverse.map (negamax players ⟨ab, nmp, true⟩)).get? 2)
      state b1 color ply table = some (false, table1))
    (hgen : generateAndOrderMoves state players = some moves) (hne : moves ≠ []) :
    List.lookup state.zobristHash table' =
      some ⟨v, (d : Int) + 1, storedFlag v α b1⟩ ∧
    b1 = probedBeta table state.zobristHash ((d : Int) + 1) β ply := by
  have hb := probeTable_window_beta _ _ _ _ _ _ _ _ _ hprobe
  have hb1 : b1 = probedBeta table state.zobristHash ((d : Int) + 1) β ply := by
    rcases hb with hb | hb
    · exact hb
    · exact absurd hb (by simp)
  refine ⟨?_, hb1⟩
  rw [negamax_succ_eq] at h
  unfold negamaxNode at h
  have hemp : ¬moves.isEmpty = true := by
    intro hc
    exact hne (List.isEmpty_iff.mp hc)
  simp only [hprobe, if_neg hactive, hnull, hgen, if_neg hemp] at h
  split at h
  · exact absurd h (by simp)
  · rename_i maxVal table2 hloop
    simp only [Option.some.injEq, Prod.mk.injEq] at h
    obtain ⟨hv, ht⟩ := h
    subst hv
    rw [← ht]
    unfold storeTable storedFlag
    simp [List.lookup_cons]

/-- C24, at depth 1 in the 5 x 5 opening with an upper bound of -5000 in the
table. -/
theorem negamax_stores_entry_witness :
    List.lookup twoSeatState.zobristHash
        [(8540388197107334599, (⟨-4074, 1, TTFlag.LOWERBOUND⟩ : TTEntry)),
          (8540388197107334599, ⟨-5000, 1, TTFlag.UPPERBOUND⟩)] =
      some ⟨-4074, ((0 : Nat) : Int) + 1, storedFlag (-4074) (-INT_MAX) (-5000)⟩ ∧
    (-5000 : Int) = probedBeta boundTable twoSeatState.zobristHash (((0 : Nat) : Int) + 1)
      INT_MAX 0 :=
  negamax_stores_entry twoSeatRoster true true 0 twoSeatState (-INT_MAX) INT_MAX 1 0 boundTable
    [(8540388197107334599, ⟨-4074, 1, TTFlag.LOWERBOUND⟩),
      (8540388197107334599, ⟨-5000, 1, TTFlag.UPPERBOUND⟩)]
    (-4074) (-INT_MAX) (-5000) boundTable
    [Move.cell ⟨3, 2⟩, Move.cell ⟨4, 1⟩, Move.cell ⟨4, 3⟩]
    (by decide) (by rfl) (by decide) (by rfl) (by decide) (by decide)

/-- C24 (counterexample): at depth 1 in the 5 x 5 opening, called with the full
window and a table that holds an upper bound of -5000 for the position, the
search returns -4074 and stores it as a lower bound, although -4074 lies
strictly between the alpha and the beta passed to the call, where the flag of
the specification is Exact. -/
theorem negamax_stores_flag_of_probed_beta :
    negamax twoSeatRoster searchFlags 1 twoSeatState (-INT_MAX) INT_MAX 1 0 boundTable =
      some (-4074, [(8540388197107334599, ⟨-4074, 1, TTFlag.LOWERBOUND⟩),
        (8540388197107334599, ⟨-5000, 1, TTFlag.UPPERBOUND⟩)]) ∧
    storedFlag (-4074) (-INT_MAX) INT_MAX = TTFlag.EXACT := by
  constructor <;> decide

/-! ## Root move list -/

theorem rootLoop_best_mem (state : GameState) (players : List Player) (flags : Flags)
    (depth : Nat) :
    ∀ (moves : List Move) (best : Move) (bestValue : Int) (table : Table)
      (r : Move × Int × Table),
      rootLoop state players flags depth moves best bestValue table = some r →
      r.1 = best ∨ r.1 ∈ moves := by
  intro moves
  induction moves with
  | nil =>
    intro best bestValue table r h
    simp only [rootLoop, Option.some.injEq] at h
    subst h
    exact Or.inl rfl
  | cons m rest ih =>
    intro best bestValue table r h
    rw [rootLoop] at h
    split at h
    · exact absurd h (by simp)
    · split at h
      · exact absurd h (by simp)
      · split at h
        · rcases ih _ _ _ _ h with h1 | h1
          · exact Or.inr (by rw [h1]; exact List.mem_cons_self _ _)
          · exact Or.inr (List.mem_cons_of_mem _ h1)
        · rcases ih _ _ _ _ h with h1 | h1
          · exact Or.inl h1
          · exact Or.inr (List.mem_cons_of_mem _ h1)

theorem Move.eq_self (m : Move) (h : m.type = "cell" ∨ m.type = "wall") : Move.eq m m = true := by
  unfold Move.eq
  rcases h with h | h
  · simp [h]
  · simp [h]

/-- The `std::find` and `std::rotate` step: the first move equal to `best`
is put in front, the rest keeps its order. -/
theorem moveToFront_spec (moves : List Move) (best : Move) (reordered : List Move)
    (h : moveToFront moves best = some reordered) :
    ∃ x before after, moves = before ++ x :: after ∧ reordered = x :: (before ++ after) ∧
      Move.eq x best = true ∧ ∀ y ∈ before, Move.eq y best = false := by
  unfold moveToFront at h
  split at h
  · exact absurd h (by simp)
  · rename_i i hi
    simp only [Option.some.injEq] at h
    rw [List.findIdx?_eq_some_iff_getElem] at hi
    obtain ⟨hlt, hx, hbefore⟩ := hi
    refine ⟨moves[i], moves.take i, moves.drop (i + 1), ?_, ?_, hx, ?_⟩
    · rw [← List.drop_eq_getElem_cons hlt, List.take_append_drop]
    · rw [← h, List.take_one_drop_eq_of_lt_length hlt]
      simp
    · intro y hy
      rw [List.mem_take_iff_getElem] at hy
      obtain ⟨j, hj, rfl⟩ := hy
      have := hbefore j (by omega)
      simpa using this

theorem moveToFront_defined (moves : List Move) (best : Move) (hmem : best ∈ moves)
    (htype : best.type = "cell" ∨ best.type = "wall") :
    ∃ reordered, moveToFront moves best = some reordered := by
  unfold moveToFront
  cases hfind : moves.findIdx? (fun m => Move.eq m best) with
  | none =>
    rw [List.findIdx?_eq_none_iff] at hfind
    have := hfind best hmem
    rw [Move.eq_self best htype] at this
    exact absurd this (by simp)
  | some i => exact ⟨_, rfl⟩

theorem deepenTrace_of_deepenLoop (state : GameState) (players : List Player) (flags : Flags) :
    ∀ (count depth : Nat) (moves : List Move) (best : Move) (table : Table)
      (r : Move × Table),
      deepenLoop state players flags count depth moves best table = some r →
      ∃ trace, deepenTrace state players flags count depth moves table = some trace ∧
        trace.length = count ∧ r.1 = ((trace.getLast?).map (fun e => e.1)).getD best := by
  intro count
  induction count with
  | zero =>
    intro depth moves best table r h
    simp only [deepenLoop, Option.some.injEq] at h
    subst h
    exact ⟨[], rfl, rfl, rfl⟩
  | succ count ih =>
    intro depth moves best table r h
    cases moves with
    | nil => simp [deepenLoop] at h
    | cons first rest =>
      have hL : deepenLoop state players flags (count + 1) depth (first :: rest) best table =
          match rootLoop state players flags depth (first :: rest) first (-INT_MAX) table with
          | none => none
          | some (bestMoveThisIteration, _, table1) =>
            match moveToFront (first :: rest) bestMoveThisIteration with
            | none => none
            | some reordered =>
              deepenLoop state players flags count (depth + 1) reordered bestMoveThisIteration
                table1 := rfl
      have hT : deepenTrace state players flags (count + 1) depth (first :: rest) table =
          match rootLoop state players flags depth (first :: rest) first (-INT_MAX) table with
          | none => none
          | some (bestMoveThisIteration, _, table1) =>
            match moveToFront (first :: rest) bestMoveThisIteration with
            | none => none
            | some reordered =>
              (deepenTrace state players flags count (depth + 1) reordered table1).map
                (fun later => (bestMoveThisIteration, reordered) :: later) := rfl
      rw [hL] at h
      rw [hT]
      cases hroot : rootLoop state players flags depth (first :: rest) first (-INT_MAX) table with
      | none =>
        rw [hroot] at h
        exact absurd h (by simp)
      | some res =>
        obtain ⟨bestIt, v, table1⟩ := res
        rw [hroot] at h
        cases hfront : moveToFront (first :: rest) bestIt with
        | none =>
          simp only [hfront] at h
          exact absurd h (by simp)
        | some reordered =>
          simp only [hfront] at h ⊢
          obtain ⟨trace, htrace, hlen, hlast⟩ := ih _ _ _ _ _ h
          refine ⟨(bestIt, reordered) :: trace, ?_, ?_, ?_⟩
          · rw [htrace]
            rfl
          · rw [List.length_cons, hlen]
          · rw [hlast]
            cases trace with
            | nil => rfl
            | cons e es =>
              rw [List.getLast?_cons_cons]
              have hsome : (e :: es).getLast? ≠ none := by simp
              cases hgl : (e :: es).getLast? with
              | none => exact absurd hgl hsome
              | some z => rfl

theorem deepenTrace_spec (state : GameState) (players : List Player) (flags : Flags) :
    ∀ (count depth : Nat) (moves init : List Move) (table : Table)
      (trace : List (Move × List Move)),
      moves.Perm init →
      deepenTrace state players flags count depth moves table = some trace →
      OrderKept moves trace ∧ ∀ e ∈ trace, e.2.Perm init := by
  intro count
  induction count with
  | zero =>
    intro depth moves init table trace _ h
    simp only [deepenTrace, Option.some.injEq] at h
    subst h
    exact ⟨trivial, fun e he => absurd he (List.not_mem_nil _)⟩
  | succ count ih =>
    intro depth moves init table trace hperm h
    simp only [deepenTrace] at h
    split at h
    · exact absurd h (by simp)
    · split at h
      · exact absurd h (by simp)
      · rename_i bestIt v table1 hroot
        split at h
        · exact absurd h (by simp)
        · rename_i reordered hfront
          rw [Option.map_eq_some'] at h
          obtain ⟨later, hlater, htrace⟩ := h
          subst htrace
          obtain ⟨x, before, after, hmoves, hre, heq, -⟩ :=
            moveToFront_spec _ _ _ hfront
          have hp : reordered.Perm init := by
            rw [hre]
            refine List.Perm.trans ?_ hperm
            rw [hmoves]
            exact List.perm_middle.symm
          obtain ⟨h1, h2⟩ := ih _ _ init _ _ hp hlater
          refine ⟨⟨⟨x, before, after, hmoves, hre, heq⟩, h1⟩, ?_⟩
          intro e he
          rw [List.mem_cons] at he
          rcases he with he | he
          · rw [he]
            exact hp
          · exact h2 e he

/-! ## Blocked jumps -/

theorem mem_cond_pair (c1 c2 : Bool) (l1 l2 x : PawnPos) :
    x ∈ (if !c1 then [l1] else []) ++ (if !c2 then [l2] else []) ↔
      (x = l1 ∧ c1 = false) ∨ (x = l2 ∧ c2 = false) := by
  cases c1 <;> cases c2 <;> simp

/-- Over an opponent whose straight jump is off the board or walled off, the
cells pushed are the lateral cells of the opponent that no wall separates from
it. -/
theorem pawnMovesToward_lateral (walls : List Wall) (opp : List PawnPos) (n : Int)
    (a b : PawnPos) (hb : b ∈ opp) (hon : OnBoard n b)
    (hab : isWallBetween walls a.row a.col b.row b.col = false)
    (hblocked : ¬(OnBoard n (jumpCell a b) ∧
      isWallBetween walls b.row b.col (jumpCell a b).row (jumpCell a b).col = false))
    (x : PawnPos) :
    x ∈ pawnMovesToward walls opp n a.row a.col b ↔
      x ∈ lateralCells a b ∧ isWallBetween walls b.row b.col x.row x.col = false := by
  unfold OnBoard at hon hblocked
  unfold jumpCell at hblocked
  simp only at hblocked
  unfold pawnMovesToward
  have h1 : ¬(b.row < 0 ∨ b.row ≥ n ∨ b.col < 0 ∨ b.col ≥ n) := by omega
  rw [if_neg h1]
  simp only [find_cell_of_mem opp b hb, hab, Bool.false_eq_true, if_false]
  have h2 : ¬((!isWallBetween walls b.row b.col (b.row + (b.row - a.row))
      (b.col + (b.col - a.col)) && decide (b.row + (b.row - a.row) ≥ 0) &&
      decide (b.row + (b.row - a.row) < n) && decide (b.col + (b.col - a.col) ≥ 0) &&
      decide (b.col + (b.col - a.col) < n)) = true) := by
    intro hc
    simp only [Bool.and_eq_true, Bool.not_eq_true', decide_eq_true_eq] at hc
    exact hblocked ⟨by omega, hc.1.1.1.1⟩
  rw [if_neg h2]
  by_cases hrow : b.row = a.row
  · have hlat : lateralCells a b = [⟨b.row - 1, b.col⟩, ⟨b.row + 1, b.col⟩] := by
      unfold lateralCells
      rw [if_pos hrow.symm]
    rw [hlat, if_pos hrow, mem_cond_pair]
    simp only [List.mem_cons, List.mem_singleton, List.not_mem_nil, or_false]
    constructor
    · rintro (⟨rfl, h⟩ | ⟨rfl, h⟩)
      · exact ⟨Or.inl rfl, h⟩
      · exact ⟨Or.inr rfl, h⟩
    · rintro ⟨rfl | rfl, h⟩
      · exact Or.inl ⟨rfl, h⟩
      · exact Or.inr ⟨rfl, h⟩
  · have hlat : lateralCells a b = [⟨b.row, b.col - 1⟩, ⟨b.row, b.col + 1⟩] := by
      unfold lateralCells
      rw [if_neg (fun hc => hrow hc.symm)]
    rw [hlat, if_neg hrow, mem_cond_pair]
    simp only [List.mem_cons, List.mem_singleton, List.not_mem_nil, or_false]
    constructor
    · rintro (⟨rfl, h⟩ | ⟨rfl, h⟩)
      · exact ⟨Or.inl rfl, h⟩
      · exact ⟨Or.inr rfl, h⟩
    · rintro ⟨rfl | rfl, h⟩
      · exact Or.inl ⟨rfl, h⟩
      · exact Or.inr ⟨rfl, h⟩

/-- Toward a cell that holds no opponent, the cell itself is pushed when it is
on the board and no wall separates it from the pawn. -/
theorem pawnMovesToward_free_iff (walls : List Wall) (opp : List PawnPos) (n : Int) (r c : Int)
    (m : PawnPos) (hm : m ∉ opp) (x : PawnPos) :
    x ∈ pawnMovesToward walls opp n r c m ↔
      x = m ∧ OnBoard n m ∧ isWallBetween walls r c m.row m.col = false := by
  unfold pawnMovesToward OnBoard
  simp only [find_cell_of_not_mem opp m hm]
  split
  · simp only [List.not_mem_nil, false_iff]
    rintro ⟨-, hon, -⟩
    omega
  · rename_i hin
    split
    · rename_i hw
      simp only [List.not_mem_nil, false_iff]
      rintro ⟨-, -, hw2⟩
      rw [hw2] at hw
      exact absurd hw (by simp)
    · rename_i hw
      rw [List.mem_singleton]
      constructor
      · intro h
        exact ⟨h, by omega, by simpa using hw⟩
      · exact fun h => h.1

theorem removedPawnMove_single (b x : PawnPos) (n : Int) :
    removedPawnMove [b] n x = false ↔ x ≠ b ∧ OnBoard n x := by
  unfold removedPawnMove OnBoard
  obtain ⟨br, bc⟩ := b
  obtain ⟨xr, xc⟩ := x
  simp only [List.any_cons, List.any_nil, Bool.or_false, Bool.or_eq_false_iff,
    Bool.and_eq_false_imp, decide_eq_true_eq, decide_eq_false_iff_not, ne_eq, PawnPos.mk.injEq]
  constructor
  · rintro ⟨⟨⟨⟨h1, h2⟩, h3⟩, h4⟩, h5⟩
    refine ⟨?_, by omega, by omega, by omega, by omega⟩
    rintro ⟨h6, h7⟩
    exact h1 h6.symm h7.symm
  · rintro ⟨h1, h2, h3, h4, h5⟩
    refine ⟨⟨⟨⟨?_, by omega⟩, by omega⟩, by omega⟩, by omega⟩
    intro h6 h7
    exact h1 ⟨h6.symm, h7.symm⟩

/-- C26: when the pawn B of the only opponent stands next to the mover's pawn A
with no wall between them and the cell straight behind B is off the board or
walled off from B, `calculateLegalPawnMoves` returns exactly the lateral cells
of B that are on the board and not walled off from B, together with the free
neighbours of A other than B that are on the board and not walled off from A;
the cell straight behind B is not returned. -/
theorem blocked_jump_offers_laterals (pawns : StrMap PawnPos) (walls : List Wall)
    (players : List Player) (active : List String) (idx n : Int) (cur : String)
    (a b : PawnPos) (hidx : 0 ≤ idx ∧ idx < active.length)
    (hcur : vecAt active idx = some cur) (ha : StrMap.find pawns cur = some a)
    (hopp : opponentPositions pawns players active cur = [b])
    (hadj : b ∈ neighbors a) (hon : OnBoard n b)
    (hab : isWallBetween walls a.row a.col b.row b.col = false)
    (hblocked : ¬(OnBoard n (jumpCell a b) ∧
      isWallBetween walls b.row b.col (jumpCell a b).row (jumpCell a b).col = false)) :
    (∀ x, x ∈ calculateLegalPawnMoves pawns walls players active idx n ↔
      (x ∈ lateralCells a b ∧ OnBoard n x ∧
        isWallBetween walls b.row b.col x.row x.col = false) ∨
      (x ∈ neighbors a ∧ x ≠ b ∧ OnBoard n x ∧
        isWallBetween walls a.row a.col x.row x.col = false)) ∧
    jumpCell a b ∉ calculateLegalPawnMoves pawns walls players active idx n := by
  have hlat_ne : ∀ x, x ∈ lateralCells a b → x ≠ b := by
    intro x hx heq
    subst heq
    unfold lateralCells at hx
    obtain ⟨xr, xc⟩ := x
    split at hx <;>
      simp only [List.mem_cons, PawnPos.mk.injEq, List.mem_singleton, List.not_mem_nil,
        or_false] at hx <;> omega
  have hiff : ∀ x, x ∈ calculateLegalPawnMoves pawns walls players active idx n ↔
      (x ∈ lateralCells a b ∧ OnBoard n x ∧
        isWallBetween walls b.row b.col x.row x.col = false) ∨
      (x ∈ neighbors a ∧ x ≠ b ∧ OnBoard n x ∧
        isWallBetween walls a.row a.col x.row x.col = false) := by
    intro x
    rw [mem_calculateLegalPawnMoves pawns walls players active idx n cur a hidx hcur ha x, hopp,
      removedPawnMove_single]
    constructor
    · rintro ⟨⟨m, hm, hx⟩, hne, honx⟩
      by_cases hmb : m = b
      · subst hmb
        rw [pawnMovesToward_lateral walls [m] n a m (List.mem_singleton.mpr rfl) hon hab
          hblocked x] at hx
        exact Or.inl ⟨hx.1, honx, hx.2⟩
      · rw [pawnMovesToward_free_iff walls [b] n a.row a.col m
          (fun hc => hmb (List.mem_singleton.mp hc)) x] at hx
        obtain ⟨hxm, -, hw⟩ := hx
        subst hxm
        exact Or.inr ⟨hm, hne, honx, hw⟩
    · rintro (⟨hlat, honx, hw⟩ | ⟨hnb, hne, honx, hw⟩)
      · refine ⟨⟨b, hadj, ?_⟩, hlat_ne x hlat, honx⟩
        rw [pawnMovesToward_lateral walls [b] n a b (List.mem_singleton.mpr rfl) hon hab
          hblocked x]
        exact ⟨hlat, hw⟩
      · refine ⟨⟨x, hnb, ?_⟩, hne, honx⟩
        rw [pawnMovesToward_free_iff walls [b] n a.row a.col x
          (fun hc => hne (List.mem_singleton.mp hc)) x]
        exact ⟨rfl, honx, hw⟩
  refine ⟨hiff, ?_⟩
  intro hj
  rw [hiff] at hj
  obtain ⟨ar, ac⟩ := a
  obtain ⟨br, bc⟩ := b
  simp only [neighbors, List.mem_cons, PawnPos.mk.injEq, List.mem_singleton, List.not_mem_nil,
    or_false] at hadj
  rcases hj with ⟨hlat, -, -⟩ | ⟨hnb, -, -, -⟩
  · unfold lateralCells jumpCell at hlat
    simp only at hlat
    split at hlat <;>
      simp only [List.mem_cons, PawnPos.mk.injEq, List.mem_singleton, List.not_mem_nil,
        or_false] at hlat <;> omega
  · unfold jumpCell at hnb
    simp only [neighbors, List.mem_cons, PawnPos.mk.injEq, List.mem_singleton, List.not_mem_nil,
      or_false] at hnb
    omega

/-- C26, for "p1" at (1, 1) under the pawn of "p3" at (0, 1) on the top edge
of a 5 x 5 board. -/
theorem blocked_jump_offers_laterals_witness :
    calculateLegalPawnMoves [("p1", ⟨1, 1⟩), ("p3", ⟨0, 1⟩)] [] twoSeatRoster ["p1", "p3"] 0 5 =
      [⟨0, 0⟩, ⟨0, 2⟩, ⟨2, 1⟩, ⟨1, 0⟩, ⟨1, 2⟩] ∧
    ((∀ x, x ∈ calculateLegalPawnMoves [("p1", ⟨1, 1⟩), ("p3", ⟨0, 1⟩)] [] twoSeatRoster
        ["p1", "p3"] 0 5 ↔
      (x ∈ lateralCells ⟨1, 1⟩ ⟨0, 1⟩ ∧ OnBoard 5 x ∧
        isWallBetween [] 0 1 x.row x.col = false) ∨
      (x ∈ neighbors ⟨1, 1⟩ ∧ x ≠ ⟨0, 1⟩ ∧ OnBoard 5 x ∧
        isWallBetween [] 1 1 x.row x.col = false)) ∧
    jumpCell ⟨1, 1⟩ ⟨0, 1⟩ ∉ calculateLegalPawnMoves [("p1", ⟨1, 1⟩), ("p3", ⟨0, 1⟩)] []
      twoSeatRoster ["p1", "p3"] 0 5) :=
  ⟨by decide,
    blocked_jump_offers_laterals [("p1", ⟨1, 1⟩), ("p3", ⟨0, 1⟩)] [] twoSeatRoster ["p1", "p3"]
      0 5 "p1" ⟨1, 1⟩ ⟨0, 1⟩ (by decide) rfl rfl (by decide) (by decide)
      (by unfold OnBoard; decide) (by decide) (by unfold OnBoard jumpCell; decide)⟩

/-! ## The returned move -/

theorem moveToFront_perm (moves : List Move) (best : Move) (reordered : List Move)
    (h : moveToFront moves best = some reordered) : reordered.Perm moves := by
  obtain ⟨x, before, after, hmoves, hre, -, -⟩ := moveToFront_spec moves best reordered h
  rw [hre, hmoves]
  exact List.perm_middle.symm

theorem deepenLoop_mem (state : GameState) (players : List Player) (flags : Flags) :
    ∀ (count depth : Nat) (moves init : List Move) (best : Move) (table : Table)
      (r : Move × Table),
      moves.Perm init → best ∈ init →
      deepenLoop state players flags count depth moves best table = some r → r.1 ∈ init := by
  intro count
  induction count with
  | zero =>
    intro depth moves init best table r _ hbest h
    simp only [deepenLoop, Option.some.injEq] at h
    subst h
    exact hbest
  | succ count ih =>
    intro depth moves init best table r hperm hbest h
    simp only [deepenLoop] at h
    split at h
    · exact absurd h (by simp)
    · rename_i first rest
      split at h
      · exact absurd h (by simp)
      · rename_i bestIt v table1 hroot
        split at h
        · exact absurd h (by simp)
        · rename_i reordered hfront
          have hmem : bestIt ∈ first :: rest := by
            rcases rootLoop_best_mem state players flags depth _ _ _ _ _ hroot with h1 | h1
            · simp only at h1
              rw [h1]
              exact List.mem_cons_self _ _
            · exact h1
          exact ih _ _ init _ _ _ ((moveToFront_perm _ _ _ hfront).trans hperm)
            (hperm.mem_iff.mp hmem) h

/-- Whenever `findBestMove` returns a move, the conversion and the move
generation at the root are defined, the move is resign exactly when the
generated list is empty and is an element of the list otherwise; so a move
other than resign is a cell move to a destination of `calculateLegalPawnMoves`
or a wall move that `isWallPlacementLegal` accepts. -/
theorem findBestMove_generated (snapshot : GameState) (players : List Player)
    (targetDepth : Int) (table : Table) (move : Move) (table' : Table)
    (h : findBestMove snapshot players targetDepth table = some (move, table')) :
    ∃ state moves, jsToCppState snapshot = some state ∧
      generateAndOrderMoves state players = some moves ∧
      (move = Move.resign ↔ moves = []) ∧ (moves ≠ [] → move ∈ moves) ∧
      (move ≠ Move.resign →
        (∃ pos ∈ calculateLegalPawnMoves state.pawnPositions state.placedWalls players
            state.activePlayerIds state.playerTurnIndex state.boardSize, move = Move.cell pos) ∨
        (∃ wall, move = Move.wallMove wall ∧
          isWallPlacementLegal wall state players = some true)) := by
  unfold findBestMove at h
  split at h
  · exact absurd h (by simp)
  · rename_i state hconv
    unfold findBestMoveWith at h
    simp only at h
    split at h
    · exact absurd h (by simp)
    · rename_i moves hgen
      have hnot : ∀ m ∈ moves, m ≠ Move.resign := by
        intro m hm heq
        rcases generateAndOrderMoves_mem state players moves hgen m hm with
          ⟨pos, -, hc⟩ | ⟨wall, hw, -⟩
        · rw [hc] at heq
          exact absurd (show "cell" = "resign" from congrArg Move.type heq) (by decide)
        · rw [hw] at heq
          exact absurd (show "wall" = "resign" from congrArg Move.type heq) (by decide)
      refine ⟨state, moves, hconv, hgen, ?_⟩
      split at h
      · simp only [Option.some.injEq, Prod.mk.injEq] at h
        refine ⟨⟨fun _ => rfl, fun _ => h.1.symm⟩, fun hne => absurd rfl hne, ?_⟩
        intro hne
        exact absurd h.1.symm hne
      · rename_i first rest
        have hmem : move ∈ first :: rest :=
          deepenLoop_mem state players searchFlags _ _ _ (first :: rest) first table
            (move, table') (List.Perm.refl _) (List.mem_cons_self _ _) h
        refine ⟨⟨fun heq => absurd heq (hnot move hmem), fun hnil => absurd hnil (by simp)⟩,
          fun _ => hmem, fun _ => ?_⟩
        exact generateAndOrderMoves_mem state players _ hgen move hmem

/-! ## Range of the evaluation -/

/-- The path score lies within 2^17 of zero when neither path length is below
-1. -/
theorem pathScore_bound (myPath threatPath : Int) (hmy : -1 ≤ myPath) (ht : -1 ≤ threatPath) :
    -131072 ≤ pathScore myPath threatPath ∧ pathScore myPath threatPath ≤ 131072 := by
  unfold pathScore
  simp only [MAX_EXPECTED_PATH]
  have hm : ∃ m : Int, m = min (min (16 - myPath) (16 - threatPath)) 0 := ⟨_, rfl⟩
  obtain ⟨m, hm⟩ := hm
  rw [← hm]
  have hm0 : m ≤ 0 := by omega
  have hmx : m ≤ 16 - myPath := by omega
  have hmy' : m ≤ 16 - threatPath := by omega
  have hA : (16 - myPath - m).toNat ≤ 17 + (-m).toNat := by omega
  have hB : (16 - threatPath - m).toNat ≤ 17 + (-m).toNat := by omega
  have hpA : (2 : Int) ^ (16 - myPath - m).toNat ≤ 131072 * 2 ^ (-m).toNat := by
    calc (2 : Int) ^ (16 - myPath - m).toNat ≤ 2 ^ (17 + (-m).toNat) :=
          pow_le_pow_right₀ (by norm_num) hA
      _ = 131072 * 2 ^ (-m).toNat := by rw [pow_add]; norm_num
  have hpB : (2 : Int) ^ (16 - threatPath - m).toNat ≤ 131072 * 2 ^ (-m).toNat := by
    calc (2 : Int) ^ (16 - threatPath - m).toNat ≤ 2 ^ (17 + (-m).toNat) :=
          pow_le_pow_right₀ (by norm_num) hB
      _ = 131072 * 2 ^ (-m).toNat := by rw [pow_add]; norm_num
  have hA0 : (0 : Int) < 2 ^ (16 - myPath - m).toNat := by positivity
  have hB0 : (0 : Int) < 2 ^ (16 - threatPath - m).toNat := by positivity
  have hc0 : (0 : Int) < 2 ^ (-m).toNat := by positivity
  apply tdiv_abs_le _ _ 131072 hc0 _ _ (by norm_num)
  · split
    · omega
    · split <;> omega
  · split
    · omega
    · split <;> omega

theorem sum_bound (l : List Int) (h : ∀ v ∈ l, 0 ≤ v ∧ v ≤ 10) :
    0 ≤ l.sum ∧ l.sum ≤ 10 * (l.length : Int) := by
  induction l with
  | nil => simp
  | cons x xs ih =>
    have hx := h x (List.mem_cons_self _ _)
    have := ih (fun v hv => h v (List.mem_cons_of_mem _ hv))
    simp only [List.sum_cons, List.length_cons, Nat.cast_add, Nat.cast_one]
    omega

/-- The parts of the value `evaluate` returns at a state that has not ended. -/
theorem evaluate_some (state : GameState) (players : List Player) (v : Int)
    (hactive : state.status ≠ "ended") (h : evaluate state players = some v) :
    ∃ myPlayer myPos myPath t left,
      findPlayer players state.playerTurn = some myPlayer ∧
      StrMap.find state.pawnPositions state.playerTurn = some myPos ∧
      getShortestPathLength myPos myPlayer.goalCondition state.placedWalls state.boardSize =
        some myPath ∧
      threatPathLoop state players state.playerTurn state.activePlayerIds
        (MAX_EXPECTED_PATH + 1) = some t ∧
      StrMap.find state.wallsLeft state.playerTurn = some left ∧
      v = score32 (pathScore myPath t) left (wallsConsumed state) := by
  unfold evaluate at h
  rw [if_neg hactive] at h
  simp only [wallsOnBoard_eq] at h
  split at h
  · rename_i myPlayer myPos hme hpos
    split at h
    · exact absurd h (by simp)
    · rename_i myPath hpath
      split at h
      · exact absurd h (by simp)
      · rename_i t ht
        split at h
        · exact absurd h (by simp)
        · rename_i left hleft
          simp only [Option.some.injEq] at h
          exact ⟨myPlayer, myPos, myPath, t, left, hme, hpos, hpath, ht, hleft, h.symm⟩
  · exact absurd h (by simp)

theorem evaluate_defined (state : GameState) (players : List Player)
    (hactive : state.status ≠ "ended") (hn : state.boardSize ≤ 11)
    (hon : ActivePawnsOnBoard state) (myPlayer : Player) (myPos : PawnPos) (left : Int)
    (hme : findPlayer players state.playerTurn = some myPlayer)
    (hpos : StrMap.find state.pawnPositions state.playerTurn = some myPos)
    (hmyOn : OnBoard state.boardSize myPos)
    (hleft : StrMap.find state.wallsLeft state.playerTurn = some left) :
    ∃ v, evaluate state players = some v := by
  obtain ⟨myPath, hpath⟩ := getShortestPathLength_defined myPos myPlayer.goalCondition
    state.placedWalls state.boardSize hn hmyOn
  obtain ⟨t, ht⟩ := threatPathLoop_defined state players state.playerTurn hn
    state.activePlayerIds (MAX_EXPECTED_PATH + 1) hon
  unfold evaluate
  rw [if_neg hactive]
  simp only [hme, hpos, hpath, ht, hleft]
  exact ⟨_, rfl⟩

/-- C28 (amended): at a state that has not ended, with at most 4 active
players and a `wallsLeft` map of at most 4 entries, each between 0 and 10,
every value `evaluate` returns is the sum of a path score within 2^17 of zero
and a wall score between 0 and 250, with the walls consumed between -40 and
40, so it is below 900000 in absolute value and neither the adjustment of
`negamax` nor that of `minimax` changes it; and `evaluate` returns a value when
the board fits the `visited` array, the active pawns are on the board and the
mover is on the roster with a pawn on the board and a `wallsLeft` entry. -/
theorem evaluate_below_mate_range (state : GameState) (players : List Player)
    (hactive : state.status ≠ "ended") (hlen : state.activePlayerIds.length ≤ 4)
    (hentries : (StrMap.entries state.wallsLeft).length ≤ 4)
    (hwalls : ∀ e ∈ StrMap.entries state.wallsLeft, 0 ≤ e.2 ∧ e.2 ≤ 10) :
    (state.boardSize ≤ 11 → ActivePawnsOnBoard state →
      (∃ myPlayer myPos left, findPlayer players state.playerTurn = some myPlayer ∧
        StrMap.find state.pawnPositions state.playerTurn = some myPos ∧
        OnBoard state.boardSize myPos ∧
        StrMap.find state.wallsLeft state.playerTurn = some left) →
      ∃ v, evaluate state players = some v) ∧
    ∀ v, evaluate state players = some v →
      |v| < 900000 ∧
      (∃ pathPart wallPart, v = pathPart + wallPart ∧ -131072 ≤ pathPart ∧ pathPart ≤ 131072 ∧
        0 ≤ wallPart ∧ wallPart ≤ 250 ∧
        -40 ≤ wallsConsumed state ∧ wallsConsumed state ≤ 40) ∧
      (∀ (color ply : Int) (table : Table),
        negamaxLeaf state players color ply table = some (color * v, table)) ∧
      ∀ ply : Int, minimaxLeaf state players ply = some v := by
  constructor
  · rintro hn hon ⟨myPlayer, myPos, left, hme, hpos, hmyOn, hleft⟩
    exact evaluate_defined state players hactive hn hon myPlayer myPos left hme hpos hmyOn hleft
  · intro v hv
    obtain ⟨myPlayer, myPos, myPath, t, left, hme, hpos, hpath, ht, hleft, hval32⟩ :=
      evaluate_some state players v hactive hv
    have hr1 := getShortestPathLength_range _ _ _ _ _ hpath
    obtain ⟨ht1, ht2, -⟩ := threatPathLoop_spec state players state.playerTurn
      state.activePlayerIds _ t (fun id hid => hid) ht
    have ht0 : -1 ≤ t := by
      rcases ht2 with h | ⟨id, player, hopp⟩
      · unfold MAX_EXPECTED_PATH at h
        omega
      · obtain ⟨-, -, -, pos, -, hp, -⟩ := hopp
        exact (getShortestPathLength_range _ _ _ _ _ hp).1
    obtain ⟨hp1, hp2⟩ := pathScore_bound myPath t hr1.1 ht0
    have hsum := sum_bound ((StrMap.entries state.wallsLeft).map (fun pair => pair.2)) (by
      intro x hx
      rw [List.mem_map] at hx
      obtain ⟨e, he, rfl⟩ := hx
      exact hwalls e he)
    rw [List.length_map] at hsum
    have hleft01 := hwalls (state.playerTurn, left) (StrMap.mem_entries_of_find _ _ _ hleft)
    simp only at hleft01
    have hcons : -40 ≤ wallsConsumed state ∧ wallsConsumed state ≤ 40 := by
      unfold wallsConsumed
      omega
    have hdiv := tdiv_abs_le (40 - wallsConsumed state) 4 20 (by norm_num) (by omega) (by omega)
      (by norm_num)
    have hdiv0 : 0 ≤ Int.tdiv (40 - wallsConsumed state) 4 :=
      Int.tdiv_nonneg (by omega) (by norm_num)
    have hw0 : 0 ≤ left * (5 + Int.tdiv (40 - wallsConsumed state) 4) :=
      Int.mul_nonneg hleft01.1 (by omega)
    have hw1 : left * (5 + Int.tdiv (40 - wallsConsumed state) 4) ≤ 250 := by
      calc left * (5 + Int.tdiv (40 - wallsConsumed state) 4)
          ≤ 10 * (5 + Int.tdiv (40 - wallsConsumed state) 4) :=
            Int.mul_le_mul_of_nonneg_right hleft01.2 (by omega)
        _ ≤ 250 := by omega
    have hval : v = pathScore myPath t + left * (5 + Int.tdiv (40 - wallsConsumed state) 4) := by
      rw [hval32]
      exact score32_exact _ _ _ (by unfold InInt32; omega) (by unfold InInt32; omega)
        (by unfold InInt32; omega) (by unfold InInt32; omega)
    have habs : |v| < 900000 := by
      rw [abs_lt]
      omega
    have hlo : -900000 < v := (abs_lt.mp habs).1
    have hhi : v < 900000 := (abs_lt.mp habs).2
    refine ⟨habs, ⟨_, _, hval, hp1, hp2, hw0, hw1, hcons.1, hcons.2⟩, ?_, ?_⟩
    · intro color ply table
      unfold negamaxLeaf
      rw [hv]
      have : plyAdjust v ply = v := by
        unfold plyAdjust
        simp only
        rw [if_neg (by omega), if_neg (by omega)]
      rw [Option.map_some', this]
    · intro ply
      unfold minimaxLeaf
      rw [hv]
      simp only [Option.map_some', INT_MAX]
      rw [if_neg (by omega), if_neg (by omega)]

/-- C28, on the 5 x 5 opening of the seats "p1" and "p3" with two walls each. -/
theorem evaluate_below_mate_range_witness :
    evaluate twoSeatState twoSeatRoster = some 22 ∧
    ((twoSeatState.boardSize ≤ 11 → ActivePawnsOnBoard twoSeatState →
      (∃ myPlayer myPos left, findPlayer twoSeatRoster twoSeatState.playerTurn = some myPlayer ∧
        StrMap.find twoSeatState.pawnPositions twoSeatState.playerTurn = some myPos ∧
        OnBoard twoSeatState.boardSize myPos ∧
        StrMap.find twoSeatState.wallsLeft twoSeatState.playerTurn = some left) →
      ∃ v, evaluate twoSeatState twoSeatRoster = some v) ∧
    ∀ v, evaluate twoSeatState twoSeatRoster = some v →
      |v| < 900000 ∧
      (∃ pathPart wallPart, v = pathPart + wallPart ∧ -131072 ≤ pathPart ∧ pathPart ≤ 131072 ∧
        0 ≤ wallPart ∧ wallPart ≤ 250 ∧
        -40 ≤ wallsConsumed twoSeatState ∧ wallsConsumed twoSeatState ≤ 40) ∧
      (∀ (color ply : Int) (table : Table),
        negamaxLeaf twoSeatState twoSeatRoster color ply table = some (color * v, table)) ∧
      ∀ ply : Int, minimaxLeaf twoSeatState twoSeatRoster ply = some v) :=
  ⟨by decide, evaluate_below_mate_range twoSeatState twoSeatRoster (by decide) (by decide)
    (by decide) (by decide)⟩

theorem StrMap.entries_of_nodup {α : Type} (m : StrMap α)
    (h : (m.map (fun e => e.1)).Nodup) : StrMap.entries m = m := by
  induction m with
  | nil => rfl
  | cons e rest ih =>
    obtain ⟨k, v⟩ := e
    rw [List.map_cons, List.nodup_cons] at h
    rw [StrMap.entries, ih h.2, List.filter_eq_self.mpr]
    intro x hx
    have hne : x.1 ≠ k := by
      intro hc
      apply h.1
      rw [← hc]
      exact List.mem_map_of_mem (fun e => e.1) hx
    simpa using hne

theorem crowdedWalls_nodup : (crowdedWalls.map (fun e => e.1)).Nodup := by
  unfold crowdedWalls
  simp only [List.map_cons, List.map_map]
  have hdata : ∀ (i : Nat) (c : Char) (rest : List Char), c ≠ 'w' →
      String.mk (List.replicate (i + 1) 'w') ≠ String.mk (c :: rest) := by
    intro i c rest hc heq
    have := congrArg String.data heq
    simp only [List.replicate_succ, List.cons.injEq] at this
    exact hc this.1.symm
  have hnot : ∀ (c : Char) (rest : List Char), c ≠ 'w' →
      String.mk (c :: rest) ∉ (List.range 40000).map
        ((fun e : String × Int => e.1) ∘
          fun (i : Nat) => (String.mk (List.replicate (i + 1) 'w'), (10 : Int))) := by
    intro c rest hc hmem
    rw [List.mem_map] at hmem
    obtain ⟨i, -, hi⟩ := hmem
    exact hdata i c rest hc hi
  rw [List.nodup_cons, List.nodup_cons]
  refine ⟨?_, ?_, ?_⟩
  · rw [List.mem_cons]
    rintro (h | h)
    · exact absurd h (by decide)
    · exact hnot 'p' ['1'] (by decide) h
  · exact hnot 'p' ['3'] (by decide)
  · apply List.Nodup.map _ (List.nodup_range _)
    intro i j hij
    have := congrArg (fun s => s.data.length) hij
    simp only [Function.comp_apply, List.length_replicate] at this
    omega

theorem sum_map_ten (f : Nat → String) (l : List Nat) :
    ((l.map (fun (i : Nat) => (f i, (10 : Int)))).map (fun pair => pair.2)).sum =
      10 * (l.length : Int) := by
  induction l with
  | nil => rfl
  | cons x xs ih =>
    rw [List.map_cons, List.map_cons, List.sum_cons, ih, List.length_cons]
    push_cast
    ring

theorem crowdedWalls_sum :
    ((StrMap.entries crowdedWalls).map (fun pair => pair.2)).sum = 400020 := by
  rw [StrMap.entries_of_nodup _ crowdedWalls_nodup]
  unfold crowdedWalls
  rw [List.map_cons, List.map_cons, List.sum_cons, List.sum_cons, sum_map_ten,
    List.length_range]
  norm_num

/-- C28 (counterexample): `crowdedState` has not ended, its board has size 5,
it has two active players and every entry of its `wallsLeft` map is 10, yet
`evaluate` returns 1000150: the sum over the 40002 entries makes the walls
consumed -400000 and the multiplier 100015. -/
theorem evaluate_in_mate_range :
    crowdedState.status ≠ "ended" ∧ crowdedState.boardSize ≤ 11 ∧
    crowdedState.activePlayerIds.length ≤ 4 ∧
    (∀ e ∈ StrMap.entries crowdedState.wallsLeft, 0 ≤ e.2 ∧ e.2 ≤ 10) ∧
    evaluate crowdedState twoSeatRoster = some 1000150 ∧ ¬|(1000150 : Int)| < 900000 := by
  refine ⟨by decide, by decide, by decide, ?_, ?_, by norm_num⟩
  · intro e he
    have he' : e ∈ StrMap.entries crowdedWalls := he
    rw [StrMap.entries_of_nodup _ crowdedWalls_nodup] at he'
    unfold crowdedWalls at he'
    simp only [List.mem_cons, List.mem_map] at he'
    rcases he' with h | h | ⟨i, -, h⟩
    · rw [h]
      decide
    · rw [h]
      decide
    · rw [← h]
      exact ⟨by norm_num, by norm_num⟩
  · have hme : findPlayer twoSeatRoster crowdedState.playerTurn = some (playerOfId "p1") := rfl
    have hpos : StrMap.find crowdedState.pawnPositions crowdedState.playerTurn =
        some ⟨4, 2⟩ := rfl
    have hpath : getShortestPathLength ⟨4, 2⟩ (playerOfId "p1").goalCondition
        crowdedState.placedWalls crowdedState.boardSize = some 4 := by decide
    have ht : threatPathLoop crowdedState twoSeatRoster crowdedState.playerTurn
        crowdedState.activePlayerIds (MAX_EXPECTED_PATH + 1) = some 4 := by decide
    have hleft : StrMap.find crowdedState.wallsLeft crowdedState.playerTurn = some 10 := rfl
    have hsum : ((StrMap.entries crowdedState.wallsLeft).map (fun pair => pair.2)).sum =
        400020 := crowdedWalls_sum
    have hlen : (crowdedState.activePlayerIds.length : Int) = 2 := rfl
    have hwalls : wallsOnBoard crowdedState = -400000 := by
      rw [wallsOnBoard_eq]
      unfold wallsConsumed
      rw [hsum, hlen]
      decide
    unfold evaluate
    rw [if_neg (by decide)]
    simp only [hme, hpos, hpath, ht, hleft, hwalls]
    decide

/-! ## The search returns -/

theorem vecAt_mem {α : Type} (v : List α) (i : Int) (x : α) (h : vecAt v i = some x) : x ∈ v := by
  unfold vecAt at h
  split at h
  · exact List.get?_mem h
  · exact absurd h (by simp)

theorem SearchOk.turn_mem {state : GameState} {players : List Player}
    (h : SearchOk state players) : state.playerTurn ∈ state.activePlayerIds :=
  vecAt_mem _ _ _ h.2.2.1

theorem SearchOk.activePawns {state : GameState} {players : List Player}
    (h : SearchOk state players) : ActivePawnsOnBoard state := by
  intro id hid pos hpos
  obtain ⟨-, ⟨p, hp, hon⟩, -⟩ := h.2.2.2.2 id hid
  rw [hpos] at hp
  simp only [Option.some.injEq] at hp
  rw [hp]
  exact hon

/-- The state after the turn has passed can be searched. -/
theorem switchTurn_searchOk (state : GameState) (players : List Player)
    (h : SearchOk state players) :
    ∃ s, switchTurn state = some s ∧ SearchOk s players := by
  obtain ⟨hn, hturn, hcur, hroster, hall⟩ := h
  obtain ⟨s, _, _, hs, -, -, -, hidx, hid, hb, hp, hw, -, ha, -, -⟩ :=
    switchTurn_spec state hturn
  refine ⟨s, hs, ?_⟩
  obtain ⟨h0, hl, h4⟩ := hturn
  have hpos : (0 : Int) < state.activePlayerIds.length := by omega
  refine ⟨by rw [hb]; exact hn, ⟨?_, ?_, ?_⟩, ?_, by rw [ha]; exact hroster, ?_⟩
  · rw [hidx]
    exact Int.emod_nonneg _ (ne_of_gt hpos)
  · rw [hidx, ha]
    exact Int.emod_lt_of_pos _ hpos
  · rw [ha]
    exact h4
  · rw [ha]
    exact hid
  · rw [ha, hb, hp, hw]
    exact hall

/-- The state after a generated move can be searched. -/
theorem applyMove_searchOk (state : GameState) (players : List Player)
    (h : SearchOk state players) (moves : List Move)
    (hgen : generateAndOrderMoves state players = some moves) (m : Move) (hm : m ∈ moves) :
    ∃ s1, applyMove state m players = some s1 ∧ SearchOk s1 players := by
  have hturnmem := h.turn_mem
  obtain ⟨hn, hturn, hcur, hroster, hall⟩ := h
  obtain ⟨h0, hl, h4⟩ := hturn
  obtain ⟨-, ⟨a, ha, hboard⟩, -⟩ := hall state.playerTurn hturnmem
  rcases generateAndOrderMoves_mem state players moves hgen m hm with
    ⟨pos, hpos, rfl⟩ | ⟨wall, rfl, hlegal⟩
  · have hon := calculateLegalPawnMoves_onBoard _ _ _ _ _ _ pos hpos
    have hidx : (0 : Int) ≤ state.playerTurnIndex ∧ state.playerTurnIndex < 4 := by omega
    obtain ⟨kOld, hOld⟩ := pawnKeys_some state.playerTurnIndex a.row a.col hidx
      (by unfold OnBoard at hboard; omega) (by unfold OnBoard at hboard; omega)
    obtain ⟨kNew, hNew⟩ := pawnKeys_some state.playerTurnIndex pos.row pos.col hidx
      (by unfold OnBoard at hon; omega) (by unfold OnBoard at hon; omega)
    obtain ⟨pl, hpl⟩ := vecAt_some players state.playerTurnIndex h0 (by omega)
    have hmove : applyMove state (Move.cell pos) players = applyPawnMove state pos players := by
      unfold applyMove Move.cell
      simp
    have hmoved : SearchOk { state with
        zobristHash := (state.zobristHash ^^^ kOld) ^^^ kNew
        pawnPositions := StrMap.assign state.pawnPositions state.playerTurn pos } players := by
      refine ⟨hn, ⟨h0, hl, h4⟩, hcur, hroster, ?_⟩
      intro id hid
      obtain ⟨h1, ⟨p, hp, hpon⟩, h3⟩ := hall id hid
      refine ⟨h1, ?_, h3⟩
      by_cases hc : id = state.playerTurn
      · subst hc
        exact ⟨pos, StrMap.find_assign_self _ _ _, hon⟩
      · exact ⟨p, by rw [StrMap.find_assign_ne _ _ _ _ hc]; exact hp, hpon⟩
    rw [hmove]
    unfold applyPawnMove
    simp only [ha, Option.getD_some, hOld, hNew, hpl]
    split
    · exact ⟨_, rfl, hmoved⟩
    · exact switchTurn_searchOk _ players hmoved
  · obtain ⟨⟨left, hleft, hpos⟩, hr0, hr1, hc0, hc1⟩ :=
      isWallPlacementLegal_true wall state players hlegal
    have hmove : applyMove state (Move.wallMove wall) players =
        applyWallPlacement state wall := by
      unfold applyMove Move.wallMove
      simp
    obtain ⟨k, hk⟩ := wallKey_some wall ⟨hr0, by omega⟩ ⟨hc0, by omega⟩
    rw [hmove]
    unfold applyWallPlacement
    simp only [hk]
    apply switchTurn_searchOk
    refine ⟨hn, ⟨h0, hl, h4⟩, hcur, hroster, ?_⟩
    intro id hid
    obtain ⟨h1, h2, ⟨l, hl'⟩⟩ := hall id hid
    refine ⟨h1, h2, ?_⟩
    by_cases hc : id = state.playerTurn
    · subst hc
      exact ⟨_, StrMap.find_assign_self _ _ _⟩
    · exact ⟨l, by rw [StrMap.find_assign_ne _ _ _ _ hc]; exact hl'⟩

theorem evaluate_defined_of_searchOk (state : GameState) (players : List Player)
    (h : SearchOk state players) : ∃ v, evaluate state players = some v := by
  by_cases hend : state.status = "ended"
  · unfold evaluate
    rw [if_pos hend]
    exact ⟨_, rfl⟩
  · have hmem := h.turn_mem
    obtain ⟨⟨pl, hpl⟩, ⟨pos, hpos, hon⟩, ⟨left, hleft⟩⟩ := h.2.2.2.2 _ hmem
    exact evaluate_defined state players hend h.1 h.activePawns pl pos left hpl hpos hon hleft

theorem negamaxLoop_defined (child : GameState → Int → Int → Table → Option (Int × Table))
    (state : GameState) (players : List Player) (ab : Bool) (beta : Int) :
    ∀ (moves : List Move) (alpha maxVal : Int) (table : Table),
      (∀ m ∈ moves, ∃ s1, applyMove state m players = some s1 ∧
        ∀ a b t, ∃ r, child s1 a b t = some r) →
      ∃ r, negamaxLoop child state players ab beta moves alpha maxVal table = some r := by
  intro moves
  induction moves with
  | nil =>
    intro alpha maxVal table _
    exact ⟨_, rfl⟩
  | cons m rest ih =>
    intro alpha maxVal table h
    obtain ⟨s1, happ, hchild⟩ := h m (List.mem_cons_self _ _)
    rw [negamaxLoop]
    simp only [happ]
    obtain ⟨⟨v, table1⟩, hr⟩ := hchild (if ab = true then -beta else -INT_MAX)
      (if ab = true then -alpha else INT_MAX) table
    rw [hr]
    simp only
    split
    · exact ⟨_, rfl⟩
    · exact ih _ _ _ (fun m' hm' => h m' (List.mem_cons_of_mem _ hm'))

theorem nullSearch_shallower (players : List Player) (flags : Flags) (d : Nat) (search : Search)
    (h : ((List.range d).reverse.map (negamax players flags)).get? 2 = some search) :
    ∃ k, k < d ∧ search = negamax players flags k := by
  have hmem := List.get?_mem h
  rw [List.mem_map] at hmem
  obtain ⟨k, hk, rfl⟩ := hmem
  rw [List.mem_reverse, List.mem_range] at hk
  exact ⟨k, hk, rfl⟩

/-- On a state that can be searched `negamax` returns a value, at every depth
and for every setting of the flags, window, colour, ply and table. -/
theorem negamax_defined (players : List Player) (flags : Flags) :
    ∀ (depth : Nat) (state : GameState), SearchOk state players →
      ∀ (α β color ply : Int) (table : Table),
        ∃ r, negamax players flags depth state α β color ply table = some r := by
  intro depth
  induction depth using Nat.strong_induction_on with
  | _ depth ih =>
    intro state hok α β color ply table
    obtain ⟨v, hv⟩ := evaluate_defined_of_searchOk state players hok
    cases depth with
    | zero =>
      rw [negamax_zero_eq]
      unfold negamaxZero
      split
      · exact ⟨_, rfl⟩
      · unfold negamaxLeaf
        rw [hv]
        exact ⟨_, rfl⟩
    | succ d =>
      rw [negamax_succ_eq]
      unfold negamaxNode
      simp only
      split
      · exact ⟨_, rfl⟩
      · rename_i a1 b1 _
        split
        · unfold negamaxLeaf
          rw [hv]
          exact ⟨_, rfl⟩
        · have hnull : ∃ r, nullMovePrune flags
              (((List.range d).reverse.map (negamax players flags)).get? 2) state b1 color ply
              table = some r := by
            unfold nullMovePrune
            split
            · exact ⟨_, rfl⟩
            · rename_i search hsearch
              obtain ⟨k, hk, rfl⟩ := nullSearch_shallower players flags d search hsearch
              split
              · obtain ⟨-, -, ⟨left, hleft⟩⟩ := hok.2.2.2.2 _ hok.turn_mem
                simp only [hleft]
                split
                · obtain ⟨s, hs, hsok⟩ := switchTurn_searchOk state players hok
                  simp only [hs]
                  obtain ⟨⟨v1, t1⟩, hr⟩ := ih k (by omega) s hsok (-b1) (-b1 + 1) (-color)
                    (ply + 1) table
                  rw [hr]
                  exact ⟨_, rfl⟩
                · exact ⟨_, rfl⟩
              · exact ⟨_, rfl⟩
          obtain ⟨⟨pruned, table1⟩, hnull⟩ := hnull
          rw [hnull]
          cases pruned with
          | true => exact ⟨_, rfl⟩
          | false =>
            simp only
            obtain ⟨moves, hgen⟩ := generateAndOrderMoves_defined state players hok.1
              hok.activePawns (by
                obtain ⟨-, ⟨pos, hpos, hon⟩, -⟩ := hok.2.2.2.2 _ hok.turn_mem
                exact ⟨pos, hpos, hon⟩)
            rw [hgen]
            simp only
            split
            · rw [hv]
              exact ⟨_, rfl⟩
            · obtain ⟨⟨maxVal, table2⟩, hloop⟩ := negamaxLoop_defined
                (fun nextState a b t => negamax players flags d nextState a b (-color) (ply + 1) t)
                state players flags.useAlphaBeta b1 moves a1 (-INT_MAX) table1
                (fun m hm => by
                  obtain ⟨s1, happ, hs1⟩ := applyMove_searchOk state players hok moves hgen m hm
                  exact ⟨s1, happ, fun a b t => ih d (by omega) s1 hs1 a b (-color) (ply + 1) t⟩)
              rw [hloop]
              exact ⟨_, rfl⟩


theorem rootLoop_defined (state : GameState) (players : List Player) (flags : Flags)
    (depth : Nat) (hok : SearchOk state players) (init : List Move)
    (hgen : generateAndOrderMoves state players = some init) :
    ∀ (moves : List Move) (best : Move) (bestValue : Int) (table : Table),
      (∀ m ∈ moves, m ∈ init) →
      ∃ r, rootLoop state players flags depth moves best bestValue table = some r := by
  intro moves
  induction moves with
  | nil =>
    intro best bestValue table _
    exact ⟨_, rfl⟩
  | cons m rest ih =>
    intro best bestValue table hsub
    obtain ⟨s1, happ, hs1⟩ := applyMove_searchOk state players hok init hgen m
      (hsub m (List.mem_cons_self _ _))
    obtain ⟨⟨v, table1⟩, hr⟩ := negamax_defined players flags depth s1 hs1 (-INT_MAX) INT_MAX
      (-1) 1 table
    rw [rootLoop]
    simp only [happ, hr]
    split
    · exact ih _ _ _ (fun m' hm' => hsub m' (List.mem_cons_of_mem _ hm'))
    · exact ih _ _ _ (fun m' hm' => hsub m' (List.mem_cons_of_mem _ hm'))

theorem deepenLoop_defined (state : GameState) (players : List Player) (flags : Flags)
    (hok : SearchOk state players) (init : List Move)
    (hgen : generateAndOrderMoves state players = some init) (hne : init ≠ []) :
    ∀ (count depth : Nat) (moves : List Move) (best : Move) (table : Table),
      moves.Perm init →
      ∃ r, deepenLoop state players flags count depth moves best table = some r := by
  intro count
  induction count with
  | zero =>
    intro depth moves best table _
    exact ⟨_, rfl⟩
  | succ count ih =>
    intro depth moves best table hperm
    cases moves with
    | nil => exact absurd hperm.symm.eq_nil hne
    | cons first rest =>
      obtain ⟨⟨bestIt, v, table1⟩, hroot⟩ := rootLoop_defined state players flags depth hok init
        hgen (first :: rest) first (-INT_MAX) table (fun m hm => hperm.mem_iff.mp hm)
      have hmem : bestIt ∈ first :: rest := by
        rcases rootLoop_best_mem state players flags depth _ _ _ _ _ hroot with h1 | h1
        · simp only at h1
          rw [h1]
          exact List.mem_cons_self _ _
        · exact h1
      have htype : bestIt.type = "cell" ∨ bestIt.type = "wall" := by
        rcases generateAndOrderMoves_mem state players init hgen bestIt
          (hperm.mem_iff.mp hmem) with ⟨pos, -, hc⟩ | ⟨wall, hw, -⟩
        · rw [hc]
          exact Or.inl rfl
        · rw [hw]
          exact Or.inr rfl
      obtain ⟨reordered, hfront⟩ := moveToFront_defined (first :: rest) bestIt hmem htype
      simp only [deepenLoop, hroot, hfront]
      exact ih _ _ _ _ ((moveToFront_perm _ _ _ hfront).trans hperm)

/-- On a snapshot that can be hashed and searched `findBestMove` returns a
move, for every target depth and table. -/
theorem findBestMove_defined (snapshot : GameState) (players : List Player) (targetDepth : Int)
    (table : Table) (hsnap : SnapshotOk snapshot) (hok : SearchOk snapshot players) :
    ∃ r, findBestMove snapshot players targetDepth table = some r := by
  obtain ⟨hash, hconv⟩ := jsToCppState_defined snapshot hsnap
  have hstate : SearchOk { snapshot with zobristHash := hash, winner := "" } players := hok
  obtain ⟨moves, hgen⟩ := generateAndOrderMoves_defined _ players hstate.1
    hstate.activePawns (by
      obtain ⟨-, ⟨pos, hpos, hon⟩, -⟩ := hstate.2.2.2.2 _ hstate.turn_mem
      exact ⟨pos, hpos, hon⟩)
  unfold findBestMove
  rw [hconv]
  simp only
  unfold findBestMoveWith
  simp only [hgen]
  cases hmoves : moves with
  | nil => exact ⟨_, rfl⟩
  | cons first rest =>
    simp only
    exact deepenLoop_defined _ players searchFlags hstate moves hgen (by rw [hmoves]; simp)
      _ _ _ _ _ (by rw [hmoves])


/-- C27: on a snapshot that can be hashed and searched `findBestMove` returns a
move; and whenever it returns a move, the conversion and the move generation
at the root are defined, the move is resign exactly when the generated list is
empty and is an element of the list otherwise; so a move other than resign is
a cell move to a destination of `calculateLegalPawnMoves` or a wall move that
`isWallPlacementLegal` accepts. -/
theorem findBestMove_returns_generated (snapshot : GameState) (players : List Player)
    (targetDepth : Int) (table : Table) :
    (SnapshotOk snapshot → SearchOk snapshot players →
      ∃ r, findBestMove snapshot players targetDepth table = some r) ∧
    ∀ (move : Move) (table' : Table),
      findBestMove snapshot players targetDepth table = some (move, table') →
      ∃ state moves, jsToCppState snapshot = some state ∧
        generateAndOrderMoves state players = some moves ∧
        (move = Move.resign ↔ moves = []) ∧ (moves ≠ [] → move ∈ moves) ∧
        (move ≠ Move.resign →
          (∃ pos ∈ calculateLegalPawnMoves state.pawnPositions state.placedWalls players
              state.activePlayerIds state.playerTurnIndex state.boardSize, move = Move.cell pos) ∨
          (∃ wall, move = Move.wallMove wall ∧
            isWallPlacementLegal wall state players = some true)) :=
  ⟨findBestMove_defined snapshot players targetDepth table,
    findBestMove_generated snapshot players targetDepth table⟩

/-- C27, at target depth 1 on the 3 x 3 position `cornerState`. -/
theorem findBestMove_returns_generated_witness :
    SnapshotOk cornerState ∧ SearchOk cornerState cornerRoster ∧
    (∃ r, findBestMove cornerState cornerRoster 1 [] = some r) ∧
    findBestMove cornerState cornerRoster 1 [] = some (Move.cell ⟨2, 1⟩, []) ∧
    ∃ state moves, jsToCppState cornerState = some state ∧
      generateAndOrderMoves state cornerRoster = some moves ∧
      (Move.cell ⟨2, 1⟩ = Move.resign ↔ moves = []) ∧
      (moves ≠ [] → Move.cell ⟨2, 1⟩ ∈ moves) ∧
      (Move.cell ⟨2, 1⟩ ≠ Move.resign →
        (∃ pos ∈ calculateLegalPawnMoves state.pawnPositions state.placedWalls cornerRoster
            state.activePlayerIds state.playerTurnIndex state.boardSize,
          Move.cell ⟨2, 1⟩ = Move.cell pos) ∨
        (∃ wall, Move.cell ⟨2, 1⟩ = Move.wallMove wall ∧
          isWallPlacementLegal wall state cornerRoster = some true)) :=
  have hsnap : SnapshotOk cornerState := by
    unfold SnapshotOk TurnOk; simp only [OnBoard]; decide
  have hok : SearchOk cornerState cornerRoster := by
    refine ⟨by decide, ⟨by decide, by decide, by decide⟩, by decide, by decide, ?_⟩
    intro id hid
    have hcases : id = "p1" ∨ id = "p2" := by simpa [cornerState] using hid
    rcases hcases with rfl | rfl
    · exact ⟨⟨_, rfl⟩, ⟨_, rfl, by unfold OnBoard; decide⟩, ⟨_, rfl⟩⟩
    · exact ⟨⟨_, rfl⟩, ⟨_, rfl, by unfold OnBoard; decide⟩, ⟨_, rfl⟩⟩
  ⟨hsnap, hok, (findBestMove_returns_generated cornerState cornerRoster 1 []).1 hsnap hok,
    by decide,
    (findBestMove_returns_generated cornerState cornerRoster 1 []).2 (Move.cell ⟨2, 1⟩) []
      (by decide)⟩

/-! ## Root moves searched -/

theorem rootSearched_of_rootLoop (state : GameState) (players : List Player) (flags : Flags)
    (depth : Nat) :
    ∀ (moves : List Move) (best : Move) (bestValue : Int) (table : Table)
      (r : Move × Int × Table),
      rootLoop state players flags depth moves best bestValue table = some r →
      ∃ searched, rootSearched state players flags depth moves table = some searched ∧
        searched.map (fun e => e.1) = moves := by
  intro moves
  induction moves with
  | nil =>
    intro best bestValue table r _
    exact ⟨[], rfl, rfl⟩
  | cons m rest ih =>
    intro best bestValue table r h
    rw [rootLoop] at h
    rw [rootSearched]
    cases happ : applyMove state m players with
    | none =>
      rw [happ] at h
      exact absurd h (by simp)
    | some nextState =>
      rw [happ] at h
      simp only at h ⊢
      cases hneg : negamax players flags depth nextState (-INT_MAX) INT_MAX (-1) 1 table with
      | none =>
        rw [hneg] at h
        exact absurd h (by simp)
      | some res =>
        obtain ⟨v, table1⟩ := res
        rw [hneg] at h
        simp only at h ⊢
        have hrest : ∃ searched, rootSearched state players flags depth rest table1 =
            some searched ∧ searched.map (fun e => e.1) = rest := by
          split at h
          · exact ih _ _ _ _ h
          · exact ih _ _ _ _ h
        obtain ⟨searched, hs, hmap⟩ := hrest
        rw [hs]
        exact ⟨(m, -v) :: searched, rfl, by rw [List.map_cons, hmap]⟩

/-- C25 (amended): the iterations of the deepening loop of `findBestMove` are
those of `deepenTrace`; after each one the root move list is a permutation of
the initial list, obtained from the list before it by putting one entry, equal
to the best move of the iteration, in front and keeping the order of the
others; `std::find` always finds the best move when the list holds cell and
wall moves only; every iteration searches the entries of its list one after
the other, each entry once, so a move is searched as often as the list holds
it; and from a state that can be searched, with the generated list, the loop
returns. -/
theorem root_moves_reordered (state : GameState) (players : List Player) (flags : Flags)
    (count depth : Nat) (moves : List Move) (first : Move) (table : Table) :
    (∀ r, deepenLoop state players flags count depth moves first table = some r →
      ∃ trace, deepenTrace state players flags count depth moves table = some trace ∧
        trace.length = count ∧ r.1 = ((trace.getLast?).map (fun e => e.1)).getD first) ∧
    (∀ trace, deepenTrace state players flags count depth moves table = some trace →
      OrderKept moves trace ∧ ∀ e ∈ trace, e.2.Perm moves) ∧
    ((∀ m ∈ moves, m.type = "cell" ∨ m.type = "wall") →
      ∀ start best v table1, moves = start :: moves.tail →
        rootLoop state players flags depth moves start (-INT_MAX) table =
          some (best, v, table1) →
        ∃ reordered, moveToFront moves best = some reordered) ∧
    (∀ (d : Nat) (list : List Move) (start : Move) (t : Table) (r : Move × Int × Table),
      rootLoop state players flags d list start (-INT_MAX) t = some r →
      ∃ searched, rootSearched state players flags d list t = some searched ∧
        searched.map (fun e => e.1) = list) ∧
    (SearchOk state players → SeatIds players →
      generateAndOrderMoves state players = some moves → moves ≠ [] →
      ∃ r, deepenLoop state players flags count depth moves first table = some r) := by
  refine ⟨fun r h => deepenTrace_of_deepenLoop state players flags count depth moves first table
    r h, fun trace h => deepenTrace_spec state players flags count depth moves moves table trace
    (List.Perm.refl _) h, ?_, ?_, ?_⟩
  · intro htypes start best v table1 hstart hroot
    have hmem : best ∈ moves := by
      rcases rootLoop_best_mem state players flags depth moves start (-INT_MAX) table _ hroot
        with h | h
      · simp only at h
        rw [h, hstart]
        exact List.mem_cons_self _ _
      · exact h
    exact moveToFront_defined moves best hmem (htypes best hmem)
  · intro d list start t r h
    exact rootSearched_of_rootLoop state players flags d list start (-INT_MAX) t r h
  · intro hok _ hgen hne
    exact deepenLoop_defined state players flags hok moves hgen hne count depth moves first
      table (List.Perm.refl _)

/-- C25, for two iterations from the 3 x 3 position `cornerState`. -/
theorem root_moves_reordered_witness :
    generateAndOrderMoves cornerState cornerRoster =
      some [Move.wallMove ⟨0, 0, "vertical"⟩, Move.wallMove ⟨1, 0, "vertical"⟩,
        Move.cell ⟨1, 0⟩, Move.cell ⟨2, 1⟩] ∧
    OrderKept
      [Move.wallMove ⟨0, 0, "vertical"⟩, Move.wallMove ⟨1, 0, "vertical"⟩, Move.cell ⟨1, 0⟩,
        Move.cell ⟨2, 1⟩]
      [(Move.cell ⟨2, 1⟩,
          [Move.cell ⟨2, 1⟩, Move.wallMove ⟨0, 0, "vertical"⟩, Move.wallMove ⟨1, 0, "vertical"⟩,
            Move.cell ⟨1, 0⟩]),
        (Move.wallMove ⟨0, 0, "vertical"⟩,
          [Move.wallMove ⟨0, 0, "vertical"⟩, Move.cell ⟨2, 1⟩, Move.wallMove ⟨1, 0, "vertical"⟩,
            Move.cell ⟨1, 0⟩])] ∧
    (∀ e ∈ [(Move.cell ⟨2, 1⟩,
          [Move.cell ⟨2, 1⟩, Move.wallMove ⟨0, 0, "vertical"⟩, Move.wallMove ⟨1, 0, "vertical"⟩,
            Move.cell ⟨1, 0⟩]),
        (Move.wallMove ⟨0, 0, "vertical"⟩,
          [Move.wallMove ⟨0, 0, "vertical"⟩, Move.cell ⟨2, 1⟩, Move.wallMove ⟨1, 0, "vertical"⟩,
            Move.cell ⟨1, 0⟩])],
      e.2.Perm [Move.wallMove ⟨0, 0, "vertical"⟩, Move.wallMove ⟨1, 0, "vertical"⟩,
        Move.cell ⟨1, 0⟩, Move.cell ⟨2, 1⟩]) ∧
    ∃ r, deepenLoop cornerState cornerRoster searchFlags 2 0
      [Move.wallMove ⟨0, 0, "vertical"⟩, Move.wallMove ⟨1, 0, "vertical"⟩, Move.cell ⟨1, 0⟩,
        Move.cell ⟨2, 1⟩] (Move.wallMove ⟨0, 0, "vertical"⟩) [] = some r :=
  have hok : SearchOk cornerState cornerRoster := by
    refine ⟨by decide, ⟨by decide, by decide, by decide⟩, by decide, by decide, ?_⟩
    intro id hid
    have hcases : id = "p1" ∨ id = "p2" := by simpa [cornerState] using hid
    rcases hcases with rfl | rfl
    · exact ⟨⟨_, rfl⟩, ⟨_, rfl, by unfold OnBoard; decide⟩, ⟨_, rfl⟩⟩
    · exact ⟨⟨_, rfl⟩, ⟨_, rfl, by unfold OnBoard; decide⟩, ⟨_, rfl⟩⟩
  have hseats : SeatIds cornerRoster := by
    intro p hp
    have hcases : p = playerOfId "p1" ∨ p = playerOfId "p2" := by
      simpa [cornerRoster] using hp
    rcases hcases with rfl | rfl
    · exact Or.inl rfl
    · exact Or.inr (Or.inl rfl)
  have hgen : generateAndOrderMoves cornerState cornerRoster =
      some [Move.wallMove ⟨0, 0, "vertical"⟩, Move.wallMove ⟨1, 0, "vertical"⟩,
        Move.cell ⟨1, 0⟩, Move.cell ⟨2, 1⟩] := by decide
  have hall := root_moves_reordered cornerState cornerRoster searchFlags 2 0
      [Move.wallMove ⟨0, 0, "vertical"⟩, Move.wallMove ⟨1, 0, "vertical"⟩, Move.cell ⟨1, 0⟩,
        Move.cell ⟨2, 1⟩] (Move.wallMove ⟨0, 0, "vertical"⟩) []
  ⟨hgen, (hall.2.1 _ (by decide)).1, (hall.2.1 _ (by decide)).2,
    hall.2.2.2.2 hok hseats hgen (by simp)⟩

/-- C25 (counterexample): the list generated at the root of `pincerState` holds
the cell move to (0, 0) twice, once for each neighbour of the mover, and the
first iteration of `findBestMove` searches it twice. -/
theorem root_move_searched_twice :
    (jsToCppState pincerState).bind (fun s => generateAndOrderMoves s pincerRoster) =
      some [Move.cell ⟨2, 1⟩, Move.cell ⟨2, 0⟩, Move.cell ⟨1, 2⟩, Move.cell ⟨0, 0⟩,
        Move.cell ⟨0, 2⟩, Move.cell ⟨0, 0⟩] ∧
    (jsToCppState pincerState).bind (fun s => rootSearched s pincerRoster searchFlags 0
      [Move.cell ⟨2, 1⟩, Move.cell ⟨2, 0⟩, Move.cell ⟨1, 2⟩, Move.cell ⟨0, 0⟩,
        Move.cell ⟨0, 2⟩, Move.cell ⟨0, 0⟩] []) =
      some [(Move.cell ⟨2, 1⟩, 0), (Move.cell ⟨2, 0⟩, 0), (Move.cell ⟨1, 2⟩, 0),
        (Move.cell ⟨0, 0⟩, 0), (Move.cell ⟨0, 2⟩, 0), (Move.cell ⟨0, 0⟩, 0)] ∧
    ([Move.cell ⟨2, 1⟩, Move.cell ⟨2, 0⟩, Move.cell ⟨1, 2⟩, Move.cell ⟨0, 0⟩,
      Move.cell ⟨0, 2⟩, Move.cell ⟨0, 0⟩].filter
        (fun m => Move.eq m (Move.cell ⟨0, 0⟩))).length = 2 := by
  refine ⟨by decide, by decide, by decide⟩

/-! ## Straight paths -/

end NegaMax
